import Mathlib

/-!
Verification of the reconciliation core of `bidirectional-spec-to-postman`.

The definitions below are a shallow embedding of the JavaScript source:
* `deepDiff`, `ChangeDetector.detectChanges`, `ChangeDetector.classifyChange`,
  `ChangeDetector.isEnrichmentWithinStructure`, `ChangeDetector.pathMatchesPattern`
  from `src/test-generator.js`;
* `SpecMerge.mergeSpecs`, `SpecMerge.applyChange`, `SpecMerge.parsePath`
  from `src/cli.js`.

Documents are modelled as JSON-like trees (the value space produced by YAML/JSON
parsing, which is the domain of this tool).  JavaScript `undefined` is modelled
with `Option`: an absent key, an out-of-range index, an array hole and an
explicitly-`undefined` member all read back as `none`, exactly as `=== undefined`
sees them in the source.  Mapping fields therefore carry `Option Node` values and
array slots are `Option Node` (a `none` slot is a hole, as produced by
`delete arr[i]`).  Machine numbers are modelled as `Int` (the documents the tool
manipulates contain integer indices and ordinary scalar values; float rounding
beyond 2^53 is outside the model).
-/

namespace SpecSync

/-- A document node: `null`, booleans, numbers, strings, arrays (slots may be
holes) and objects (insertion-ordered fields, whose value may be the JavaScript
`undefined`, i.e. `none`). -/
inductive Node where
  | null
  | bool (b : Bool)
  | num (n : Int)
  | str (s : String)
  | arr (elems : List (Option Node))
  | obj (fields : List (String × Option Node))

/-- One segment of a diff path: an object key (string) or an array index
(number), exactly the two shapes `deepDiff` pushes onto `path`. -/
inductive Seg where
  | str (s : String)
  | num (n : Int)
deriving DecidableEq, Repr

/-- Decimal digit character for a value below ten. -/
def digitChar (d : Nat) : Char :=
  Char.ofNat (48 + d)

/-- Canonical decimal digits of a natural number (most significant first). -/
def natToChars (n : Nat) : List Char :=
  if _h : n < 10 then [digitChar n]
  else natToChars (n / 10) ++ [digitChar (n % 10)]
decreasing_by
  exact Nat.div_lt_self (by omega) (by omega)

/-- JavaScript `String(n)` for an integer-valued number: canonical decimal
rendering, `-` prefix for negatives. -/
def intToString : Int → String
  | .ofNat m => String.mk (natToChars m)
  | .negSucc m => String.mk ('-' :: natToChars (m + 1))

/-- JavaScript string coercion of a path segment, as performed by
`Array.prototype.join`. -/
def Seg.jsToString : Seg → String
  | .str s => s
  | .num n => intToString n

/-- `path.join('.')` — the dot-joined address used throughout the source:
elements stringified and joined with a single `.`. -/
def jsJoin : List Seg → String
  | [] => ""
  | [s] => s.jsToString
  | s :: rest => s.jsToString ++ "." ++ jsJoin rest

/-- The character scanner inside `SpecMerge.parsePath` (src/cli.js):
outside path mode `.` separates and `/` enters path mode; inside path mode
characters accumulate verbatim until the next `.`. -/
def parsePathAux (cs : List Char) (current : List Char) (inPath : Bool) :
    List String :=
  match cs with
  | [] => if current = [] then [] else [String.mk current]
  | c :: rest =>
    if c = '/' && !inPath then
      (if current = [] then [] else [String.mk current]) ++
        parsePathAux rest ['/'] true
    else if c = '.' && !inPath then
      (if current = [] then [] else [String.mk current]) ++
        parsePathAux rest [] false
    else if c = '.' && inPath then
      String.mk current :: parsePathAux rest [] false
    else
      parsePathAux rest (current ++ [c]) inPath

/-- The numeric value of a decimal digit character, if it is one. -/
def digitVal? (c : Char) : Option Nat :=
  if '0' ≤ c && c ≤ '9' then some (c.toNat - 48) else none

/-- Fold a run of decimal digits onto an accumulator; `none` on any
non-digit. -/
def digitsVal : List Char → Nat → Option Nat
  | [], acc => some acc
  | c :: r, acc =>
    match digitVal? c with
    | some d => digitsVal r (acc * 10 + d)
    | none => none

/-- A character list that is the canonical decimal rendering of a natural
number (`"0"`, or digits without a leading zero), and its value. -/
def canonNat : List Char → Option Nat
  | [] => none
  | c :: rest =>
    match digitVal? c with
    | some d =>
      if d = 0 then (if rest = [] then some 0 else none)
      else digitsVal rest d
    | none => none

/-- The numeric conversion at the end of `parsePath`:
`parseInt(p, 10)` followed by the guard `String(num) === p`, i.e. the part is
converted exactly when it is the canonical decimal rendering of an integer
(so no leading zeros, no `+`, no whitespace, no trailing junk, and not
`"-0"`). -/
def jsParseIntCanon (s : String) : Option Int :=
  match s.toList with
  | '-' :: rest =>
    match canonNat rest with
    | some 0 => none
    | some n => some (-(n : Int))
    | none => none
  | l => (canonNat l).map (fun n => (n : Int))

/-- Convert one scanned part to a segment (`parsePath`'s trailing `map`). -/
def convertPart (s : String) : Seg :=
  match jsParseIntCanon s with
  | some n => .num n
  | none => .str s

/-- `SpecMerge.parsePath` (src/cli.js): decode a dot-joined address back into
segments, treating `/…`-shaped parts as literal path segments. -/
def parsePath (pathStr : String) : List Seg :=
  (parsePathAux pathStr.toList [] false).map convertPart

/-- Single-segment wildcard matching: the source builds the regex
`'^' + patternPart.replace(/\*\/g, '.*') + '$'` and tests one path segment
against it.  The fixed pattern tables contain no regex metacharacter other
than `*`, so this is glob matching where `*` spans any run of characters. -/
def globSegMatch (pat s : List Char) : Bool :=
  match pat, s with
  | [], [] => true
  | [], _ :: _ => false
  | c :: ps, [] => if c = '*' then globSegMatch ps [] else false
  | c :: ps, d :: ds =>
    if c = '*' then globSegMatch ps (d :: ds) || globSegMatch (c :: ps) ds
    else c = d && globSegMatch ps ds
termination_by (pat.length, s.length)

/-- `s.split('.')`, JavaScript string split on the dot separator (empty parts
kept, `""` splits to `[""]`). -/
def splitDotAux : List Char → List Char → List String
  | [], cur => [String.mk cur]
  | '.' :: rest, cur => String.mk cur :: splitDotAux rest []
  | c :: rest, cur => splitDotAux rest (cur ++ [c])

/-- `s.split('.')`. -/
def jsSplitDot (s : String) : List String :=
  splitDotAux s.toList []

/-- The scanning loop of `ChangeDetector.pathMatchesPattern`: pattern segments
consume path segments one-for-one; the match succeeds iff the whole pattern is
consumed (trailing path segments are permitted). -/
def matchesFrom : List String → List String → Bool
  | _, [] => true
  | [], _ :: _ => false
  | pp :: pr, tp :: tr =>
    if tp = "*" then matchesFrom pr tr
    else if tp.toList.contains '*' then
      globSegMatch tp.toList pp.toList && matchesFrom pr tr
    else pp = tp && matchesFrom pr tr

/-- `ChangeDetector.pathMatchesPattern` (src/test-generator.js). -/
def pathMatchesPattern (path pattern : String) : Bool :=
  matchesFrom (jsSplitDot path) (jsSplitDot pattern)

/-- The `SPEC_SOURCE_OF_TRUTH` pattern table (src/test-generator.js). -/
def SPEC_SOURCE_OF_TRUTH : List String :=
  [ "openapi"
  , "paths"
  , "components.schemas"
  , "components.securitySchemes"
  , "components.parameters"
  , "components.requestBodies"
  , "components.responses"
  , "components.headers"
  , "servers"
  , "security" ]

/-- The `BIDIRECTIONAL_FIELDS` pattern table (src/test-generator.js). -/
def BIDIRECTIONAL_FIELDS : List String :=
  [ "info.description"
  , "info.contact"
  , "info.license"
  , "info.termsOfService"
  , "externalDocs"
  , "tags.*.description"
  , "tags.*.externalDocs"
  , "paths.*.*.summary"
  , "paths.*.*.description"
  , "paths.*.*.externalDocs"
  , "paths.*.*.parameters.*.description"
  , "paths.*.*.parameters.*.example"
  , "paths.*.*.parameters.*.examples"
  , "paths.*.*.requestBody.description"
  , "paths.*.*.requestBody.content.*.example"
  , "paths.*.*.requestBody.content.*.examples"
  , "paths.*.*.responses.*.description"
  , "paths.*.*.responses.*.content.*.example"
  , "paths.*.*.responses.*.content.*.examples"
  , "components.schemas.*.description"
  , "components.schemas.*.properties.*.description"
  , "components.schemas.*.properties.*.example" ]

/-- The `CHANGE_DIRECTION` constants (src/test-generator.js). -/
def BIDIRECTIONAL : String := "bidirectional"

/-- `CHANGE_DIRECTION.SPEC_TO_COLLECTION`. -/
def SPEC_TO_COLLECTION : String := "spec-to-collection"

/-- `CHANGE_DIRECTION.COLLECTION_ONLY`. -/
def COLLECTION_ONLY : String := "collection-only"

/-- `sub` occurs as a contiguous run inside `l`. -/
def listIsInfixOf (sub : List Char) : List Char → Bool
  | [] => sub.isEmpty
  | c :: rest => sub.isPrefixOf (c :: rest) || listIsInfixOf sub rest

/-- `String.prototype.includes`. -/
def jsIncludes (s sub : String) : Bool :=
  listIsInfixOf sub.toList s.toList

/-- The anchored regex test `/\.name$/`: the string ends with `sub`. -/
def endsWithStr (s sub : String) : Bool :=
  sub.toList.isSuffixOf s.toList

/-- One of the regex tests of `isEnrichmentWithinStructure` of the shape
`/\.name($|\.)/`: an occurrence of `.name` followed by end-of-string or a dot. -/
def hasDotSegment (pathStr sub : String) : Bool :=
  endsWithStr pathStr sub || jsIncludes pathStr (sub ++ ".")

/-- `ChangeDetector.isEnrichmentWithinStructure` (src/test-generator.js):
the five regexes `/\.description$/`, `/\.summary$/`, `/\.example($|\.)/`,
`/\.examples($|\.)/`, `/\.externalDocs($|\.)/` tested against the dot-joined
address. -/
def isEnrichmentWithinStructure (pathStr : String) : Bool :=
  endsWithStr pathStr ".description" ||
  endsWithStr pathStr ".summary" ||
  hasDotSegment pathStr ".example" ||
  hasDotSegment pathStr ".examples" ||
  hasDotSegment pathStr ".externalDocs"

/-- A classification result: `{direction, reason}`. -/
structure Classification where
  direction : String
  reason : String
deriving DecidableEq, Repr

/-- `ChangeDetector.classifyChange` (src/test-generator.js): first matching
structural pattern (with the enrichment-within-structure override), then first
matching bidirectional pattern, then the vendor-extension substring test, then
the strict-mode default. -/
def classifyChange (strictMode : Bool) (pathStr : String) : Classification :=
  match SPEC_SOURCE_OF_TRUTH.find? (fun p => pathMatchesPattern pathStr p) with
  | some pat =>
    if isEnrichmentWithinStructure pathStr then
      ⟨BIDIRECTIONAL, "Enrichment within structure: " ++ pathStr⟩
    else
      ⟨SPEC_TO_COLLECTION, "Structural element: " ++ pat⟩
  | none =>
    match BIDIRECTIONAL_FIELDS.find? (fun p => pathMatchesPattern pathStr p) with
    | some pat => ⟨BIDIRECTIONAL, "Enrichment field: " ++ pat⟩
    | none =>
      if jsIncludes pathStr "x-postman" || jsIncludes pathStr "x-tests" ||
         jsIncludes pathStr "event" || jsIncludes pathStr "script" then
        ⟨COLLECTION_ONLY, "Test or script content"⟩
      else if strictMode then
        ⟨SPEC_TO_COLLECTION, "Unclassified - defaulting to spec-only (strict mode)"⟩
      else
        ⟨BIDIRECTIONAL, "Unclassified - allowing in non-strict mode"⟩

/-! ## The differ (`deepDiff`, src/test-generator.js) -/

/-- One atomic edit produced by `deepDiff`:
`{kind: 'N'|'D'|'E', path, lhs, rhs}` (`none` is JavaScript `undefined`). -/
structure DiffEdit where
  kind : Char
  path : List Seg
  lhs : Option Node
  rhs : Option Node

/-- JavaScript `===` restricted to the document value space: `undefined` and
scalars compare by value; two containers are never identified here.  (In the
source, reference-identical containers short-circuit to an empty diff; the
recursive comparison below returns the same empty diff on any deep-equal pair,
so the results coincide — see `deepDiff_self`.) -/
def jsStrictEq : Option Node → Option Node → Bool
  | none, none => true
  | some .null, some .null => true
  | some (.bool a), some (.bool b) => a == b
  | some (.num a), some (.num b) => a == b
  | some (.str a), some (.str b) => a == b
  | _, _ => false

/-- The kind chosen in the scalar branch of `deepDiff`:
`base === undefined ? 'N' : compare === undefined ? 'D' : 'E'`. -/
def diffKind (base compare : Option Node) : Char :=
  if base.isNone then 'N' else if compare.isNone then 'D' else 'E'

/-- Object member read, `obj[key]` (first matching field; an explicitly
`undefined` member reads as `none`, like an absent key). -/
def jsLookup : List (String × Option Node) → String → Option Node
  | [], _ => none
  | p :: rest, k => if p.1 = k then p.2 else jsLookup rest k

/-- `Object.keys`. -/
def jsKeys (fields : List (String × Option Node)) : List String :=
  fields.map Prod.fst

/-- `new Set([...])` iteration order: keep the first occurrence of each
element (scanning with the set of already-seen keys). -/
def jsSetDedupAux : List String → List String → List String
  | [], _ => []
  | k :: rest, seen =>
    if seen.contains k then jsSetDedupAux rest seen
    else k :: jsSetDedupAux rest (seen ++ [k])

/-- `new Set([...])` iteration order: first occurrence of each element. -/
def jsSetDedup (l : List String) : List String :=
  jsSetDedupAux l []

/-- `sizeOf` of a looked-up member is bounded by the field list's `sizeOf`
(used for termination of the mutual diff below). -/
theorem jsLookup_sizeOf_le (fields : List (String × Option Node)) (k : String) :
    sizeOf (jsLookup fields k) ≤ sizeOf fields := by
  induction fields with
  | nil => simp [jsLookup]
  | cons p rest ih =>
    obtain ⟨k', v⟩ := p
    by_cases h : k' = k
    · simp only [jsLookup, h, if_pos rfl]
      cases v <;> simp <;> omega
    · simp only [jsLookup, if_neg h]
      have hr : sizeOf rest ≤ sizeOf ((k', v) :: rest) := by simp
      exact le_trans ih hr

mutual

/-- `deepDiff(base, compare, path)` (src/test-generator.js).  Faithful case
split: the source first short-circuits `base === compare`; then, unless both
sides are non-null objects, emits a single edit (`N`/`D`/`E` by which side is
`undefined`); mismatched container kinds collapse to one `E` edit; arrays diff
positionally up to the longer length; objects recurse over the deduplicated
union of both key lists, base keys first. -/
def deepDiff (base compare : Option Node) (path : List Seg) : List DiffEdit :=
  if jsStrictEq base compare then []
  else
    match base, compare with
    | some (.arr xs), some (.arr ys) => diffArr xs ys path 0
    | some (.arr _), some (.obj _) => [⟨'E', path, base, compare⟩]
    | some (.obj _), some (.arr _) => [⟨'E', path, base, compare⟩]
    | some (.obj bf), some (.obj cf) =>
      diffObjKeys bf cf (jsSetDedup (jsKeys bf ++ jsKeys cf)) path
    | _, _ => [⟨diffKind base compare, path, base, compare⟩]
termination_by (sizeOf base + sizeOf compare, 0)

/-- The positional array loop of `deepDiff`: `for i in [0, max(len, len))`,
out-of-range and hole slots reading as `undefined`. -/
def diffArr (xs ys : List (Option Node)) (path : List Seg) (i : Nat) :
    List DiffEdit :=
  match xs, ys with
  | [], [] => []
  | x :: xr, [] => deepDiff x none (path ++ [.num i]) ++ diffArr xr [] path (i + 1)
  | [], y :: yr => deepDiff none y (path ++ [.num i]) ++ diffArr [] yr path (i + 1)
  | x :: xr, y :: yr =>
    deepDiff x y (path ++ [.num i]) ++ diffArr xr yr path (i + 1)
termination_by (sizeOf xs + sizeOf ys, 0)

/-- The key loop of `deepDiff`'s object branch. -/
def diffObjKeys (bf cf : List (String × Option Node)) (keys : List String)
    (path : List Seg) : List DiffEdit :=
  match keys with
  | [] => []
  | k :: rest =>
    deepDiff (jsLookup bf k) (jsLookup cf k) (path ++ [.str k]) ++
      diffObjKeys bf cf rest path
termination_by (sizeOf bf + sizeOf cf, keys.length + 1)
decreasing_by
  · have h1 := jsLookup_sizeOf_le bf k
    have h2 := jsLookup_sizeOf_le cf k
    rcases Nat.lt_or_ge (sizeOf (jsLookup bf k) + sizeOf (jsLookup cf k))
        (sizeOf bf + sizeOf cf) with h | h
    · exact Prod.Lex.left _ _ h
    · have he : sizeOf (jsLookup bf k) + sizeOf (jsLookup cf k) =
          sizeOf bf + sizeOf cf := by omega
      rw [he]
      exact Prod.Lex.right _ (by omega)
  · exact Prod.Lex.right _ (by simp [List.length_cons])

end

/-! ## The change detector (`ChangeDetector.detectChanges`, src/test-generator.js) -/

/-- A classified change: `{path, kind, oldValue, newValue, direction, reason,
hasConflict}` as built inside `detectChanges`. -/
structure ChangeRecord where
  path : String
  kind : Char
  oldValue : Option Node
  newValue : Option Node
  direction : String
  reason : String
  hasConflict : Bool

/-- The four buckets returned by `detectChanges` (the source names the artifact
bucket `tests`). -/
structure ChangeSet where
  safeToSync : List ChangeRecord
  needsReview : List ChangeRecord
  blocked : List ChangeRecord
  tests : List ChangeRecord

/-- Build the `classifiedChange` record for one remote edit. -/
def toChangeRecord (strictMode : Bool) (localChangePaths : List String)
    (c : DiffEdit) : ChangeRecord :=
  let pathStr := jsJoin c.path
  let cls := classifyChange strictMode pathStr
  { path := pathStr
  , kind := c.kind
  , oldValue := c.lhs
  , newValue := c.rhs
  , direction := cls.direction
  , reason := cls.reason
  , hasConflict := localChangePaths.contains pathStr }

/-- The `switch (classification.direction)` of `detectChanges`: bidirectional
edits split on the conflict flag, collection-only edits go to `tests`, and the
`default` arm sends everything else to `blocked`. -/
def routeChange (cs : ChangeSet) (r : ChangeRecord) : ChangeSet :=
  if r.direction = BIDIRECTIONAL then
    if r.hasConflict then { cs with needsReview := cs.needsReview ++ [r] }
    else { cs with safeToSync := cs.safeToSync ++ [r] }
  else if r.direction = COLLECTION_ONLY then
    { cs with tests := cs.tests ++ [r] }
  else
    { cs with blocked := cs.blocked ++ [r] }

/-- `ChangeDetector.detectChanges(baseSpec, currentSpec, remoteSpec)`
(src/test-generator.js). -/
def detectChanges (strictMode : Bool) (baseSpec currentSpec remoteSpec : Node) :
    ChangeSet :=
  let remoteDiff := deepDiff (some baseSpec) (some remoteSpec) []
  let localDiff := deepDiff (some baseSpec) (some currentSpec) []
  let localChangePaths := localDiff.map (fun c => jsJoin c.path)
  remoteDiff.foldl
    (fun cs c => routeChange cs (toChangeRecord strictMode localChangePaths c))
    ⟨[], [], [], []⟩

/-! ## The merge applier (`SpecMerge`, src/cli.js) -/

/-- JavaScript property-key coercion `String(part)` for the two part shapes
`parsePath` produces. -/
def segKeyStr : Seg → String
  | .str s => s
  | .num n => intToString n

/-- `current[part] === undefined` style read: object members by key, array
slots by index (out-of-range, holes and negative indices read as `undefined`);
reads on `null` throw; reads on other primitives yield `undefined` (string
index/length quirks are outside the JSON value space this tool manipulates). -/
def jsRead (cur : Node) (p : Seg) : Except String (Option Node) :=
  match cur with
  | .obj fs => .ok (jsLookup fs (segKeyStr p))
  | .arr xs =>
    match p with
    | .num n => .ok (if n < 0 then none else ((xs.get? n.toNat).join))
    | .str _ => .ok none
  | .null => .error "Cannot read properties of null"
  | _ => .ok none

/-- `obj[k] = v`: replace in place if the key exists, else append. -/
def jsObjSet : List (String × Option Node) → String → Option Node →
    List (String × Option Node)
  | [], k, v => [(k, v)]
  | p :: rest, k, v => if p.1 = k then (p.1, v) :: rest else p :: jsObjSet rest k v

/-- `arr[i] = v`: replace in range, append at the length, pad with holes
beyond it. -/
def listSetPad : List (Option Node) → Nat → Option Node → List (Option Node)
  | [], 0, v => [v]
  | [], Nat.succ j, v => none :: listSetPad [] j v
  | _ :: r, 0, v => v :: r
  | x :: r, Nat.succ j, v => x :: listSetPad r j v

/-- `delete obj[k]`: drop the (first) matching field. -/
def jsObjDelete : List (String × Option Node) → String →
    List (String × Option Node)
  | [], _ => []
  | p :: rest, k => if p.1 = k then rest else p :: jsObjDelete rest k

/-- `delete arr[i]`: in range, leave a hole (the length does not change);
out of range, a silent no-op. -/
def listDeleteHole : List (Option Node) → Nat → List (Option Node)
  | [], _ => []
  | _ :: r, 0 => none :: r
  | x :: r, Nat.succ j => x :: listDeleteHole r j

/-- `current[part] = v`: objects and in-range/extending array indices are set;
named or negative properties on arrays are dropped (they are invisible to the
differ and to serialization); assignment on `null` or a primitive throws, as in
strict-mode JavaScript. -/
def jsWrite (cur : Node) (p : Seg) (v : Option Node) : Except String Node :=
  match cur with
  | .obj fs => .ok (.obj (jsObjSet fs (segKeyStr p) v))
  | .arr xs =>
    match p with
    | .num n =>
      if n < 0 then .ok (.arr xs) else .ok (.arr (listSetPad xs n.toNat v))
    | .str _ => .ok (.arr xs)
  | .null => .error "Cannot read properties of null"
  | _ => .error "Cannot create property on a primitive value"

/-- The final step of `applyChange`: `delete current[finalKey]` for kind `'D'`,
otherwise `current[finalKey] = change.newValue`.  A delete addressed into a
non-null primitive is a silent no-op, as in JavaScript. -/
def applyFinal (cur : Node) (key : Seg) (kind : Char) (newValue : Option Node) :
    Except String Node :=
  if kind = 'D' then
    match cur with
    | .obj fs => .ok (.obj (jsObjDelete fs (segKeyStr key)))
    | .arr xs =>
      match key with
      | .num n =>
        if n < 0 then .ok (.arr xs) else .ok (.arr (listDeleteHole xs n.toNat))
      | .str _ => .ok (.arr xs)
    | .null => .error "Cannot read properties of null"
    | sc => .ok sc
  else
    jsWrite cur key newValue

/-- The navigation loop of `SpecMerge.applyChange` (src/cli.js): walk all parts
but the last, creating an empty array or object at an `undefined` slot
according to whether the *next* part is numeric; the missing-container write
happens (and can throw) before descending, exactly as in the source.  An empty
part list reproduces `pathParts[-1] === undefined`, i.e. the literal property
key `"undefined"`. -/
def applyWalk (cur : Node) (parts : List Seg) (kind : Char)
    (newValue : Option Node) : Except String Node :=
  match parts with
  | [] => applyFinal cur (.str "undefined") kind newValue
  | [last] => applyFinal cur last kind newValue
  | p :: rest =>
    match jsRead cur p with
    | .error e => .error e
    | .ok (some child) =>
      match applyWalk child rest kind newValue with
      | .error e => .error e
      | .ok r => jsWrite cur p (some r)
    | .ok none =>
      let child : Node :=
        match rest.head? with
        | some (.num _) => .arr []
        | _ => .obj []
      match jsWrite cur p (some child) with
      | .error e => .error e
      | .ok _ =>
        match applyWalk child rest kind newValue with
        | .error e => .error e
        | .ok r => jsWrite cur p (some r)

/-- `SpecMerge.applyChange(spec, change)` (src/cli.js), as a pure function: the
successfully rewritten document, or the thrown message.  (In the source a throw
happens before any mutation of `spec` — navigation only creates containers at
previously-`undefined` slots, and a walk that has started creating fresh
containers can no longer throw — so the error case leaves the document
untouched, as modelled here.) -/
def applyChange (spec : Node) (change : ChangeRecord) : Except String Node :=
  applyWalk spec (parsePath change.path) change.kind change.newValue

mutual

/-- `JSON.parse(JSON.stringify(x))`: drops object members whose value is
`undefined` and turns array holes into `null`. -/
def jsonClone : Node → Node
  | .null => .null
  | .bool b => .bool b
  | .num n => .num n
  | .str s => .str s
  | .arr xs => .arr (jsonCloneArr xs)
  | .obj fs => .obj (jsonCloneObj fs)

def jsonCloneArr : List (Option Node) → List (Option Node)
  | [] => []
  | none :: r => some .null :: jsonCloneArr r
  | some v :: r => some (jsonClone v) :: jsonCloneArr r

def jsonCloneObj : List (String × Option Node) → List (String × Option Node)
  | [] => []
  | (_, none) :: r => jsonCloneObj r
  | (k, some v) :: r => (k, some (jsonClone v)) :: jsonCloneObj r

end

/-- `{document, applied, skipped}` from `mergeSpecs` (the source calls the
document field `spec`). -/
structure MergeResult where
  spec : Node
  applied : List ChangeRecord
  skipped : List ChangeRecord

/-- One iteration of the `for (const change of allowedChanges)` loop in
`SpecMerge.mergeSpecs`: a conflicting change is skipped under the `spec-wins`
strategy (the spec document is the local side, so this is the spec's
"local-wins"); otherwise the change is attempted, a throw being caught and
recorded per edit. -/
def mergeStep (conflictStrategy : String)
    (acc : Node × List ChangeRecord × List ChangeRecord) (change : ChangeRecord) :
    Node × List ChangeRecord × List ChangeRecord :=
  let (merged, applied, skipped) := acc
  if change.hasConflict && conflictStrategy = "spec-wins" then
    (merged, applied, skipped ++ [{ change with reason := "Conflict - spec wins" }])
  else
    match applyChange merged change with
    | .ok m => (m, applied ++ [change], skipped)
    | .error e =>
      (merged, applied,
        skipped ++ [{ change with reason := "Failed to apply: " ++ e }])

/-- `SpecMerge.mergeSpecs(localSpec, remoteSpec, allowedChanges)` (src/cli.js).
`remoteSpec` is accepted and ignored, exactly as in the source. -/
def mergeSpecs (conflictStrategy : String) (localSpec : Node) (_remoteSpec : Node)
    (allowedChanges : List ChangeRecord) : MergeResult :=
  let init := (jsonClone localSpec, ([] : List ChangeRecord), ([] : List ChangeRecord))
  let r := allowedChanges.foldl (mergeStep conflictStrategy) init
  ⟨r.1, r.2.1, r.2.2⟩

/-! ## Helper lemmas -/

theorem lexStepHelper (a b k2 : Nat) (h : a ≤ b) :
    Prod.Lex (fun x y : Nat => x < y) (fun x y : Nat => x < y)
      (a + a, 0) (b + b, k2 + 1) := by
  rcases Nat.lt_or_ge (a + a) (b + b) with h' | h'
  · exact Prod.Lex.left _ _ h'
  · have he : a + a = b + b := by omega
    rw [he]
    exact Prod.Lex.right _ (by omega)

mutual

/-- Diffing any value against itself produces no edits (deep equality, no
reliance on object identity). -/
theorem deepDiff_self (x : Option Node) (path : List Seg) :
    deepDiff x x path = [] := by
  cases x with
  | none => simp [deepDiff, jsStrictEq]
  | some v =>
    cases v with
    | null => simp [deepDiff, jsStrictEq]
    | bool b => simp [deepDiff, jsStrictEq]
    | num n => simp [deepDiff, jsStrictEq]
    | str s => simp [deepDiff, jsStrictEq]
    | arr xs => rw [deepDiff]; simp [jsStrictEq]; exact diffArr_self xs path 0
    | obj bf => rw [deepDiff]; simp [jsStrictEq]; exact diffObjKeys_self bf _ path
termination_by (sizeOf x + sizeOf x, 0)

theorem diffArr_self (xs : List (Option Node)) (path : List Seg) (i : Nat) :
    diffArr xs xs path i = [] := by
  cases xs with
  | nil => rw [diffArr]
  | cons x xr =>
    rw [diffArr]
    rw [deepDiff_self, diffArr_self]
    simp
termination_by (sizeOf xs + sizeOf xs, 0)

theorem diffObjKeys_self (bf : List (String × Option Node)) (keys : List String)
    (path : List Seg) : diffObjKeys bf bf keys path = [] := by
  cases keys with
  | nil => rw [diffObjKeys]
  | cons k rest =>
    rw [diffObjKeys]
    rw [deepDiff_self, diffObjKeys_self]
    simp
termination_by (sizeOf bf + sizeOf bf, keys.length + 1)
decreasing_by
  · exact lexStepHelper _ _ _ (jsLookup_sizeOf_le _ _)
  · exact Prod.Lex.right _ (by simp [List.length_cons])

end

theorem BI_ne_CO : BIDIRECTIONAL ≠ COLLECTION_ONLY := by decide

theorem CO_ne_BI : COLLECTION_ONLY ≠ BIDIRECTIONAL := by decide

theorem S2C_ne_BI : SPEC_TO_COLLECTION ≠ BIDIRECTIONAL := by decide

theorem S2C_ne_CO : SPEC_TO_COLLECTION ≠ COLLECTION_ONLY := by decide

/-- Total number of records across the four buckets. -/
def bucketTotal (cs : ChangeSet) : Nat :=
  cs.safeToSync.length + cs.needsReview.length + cs.blocked.length + cs.tests.length

theorem routeChange_total (cs : ChangeSet) (r : ChangeRecord) :
    bucketTotal (routeChange cs r) = bucketTotal cs + 1 := by
  unfold routeChange
  split_ifs <;> simp [bucketTotal] <;> omega

theorem foldRoute_total (rs : List ChangeRecord) (cs : ChangeSet) :
    bucketTotal (rs.foldl routeChange cs) = bucketTotal cs + rs.length := by
  induction rs generalizing cs with
  | nil => simp
  | cons r rest ih => simp [List.foldl_cons, ih, routeChange_total]; omega

theorem foldRoute_safe (rs : List ChangeRecord) (cs : ChangeSet) :
    (rs.foldl routeChange cs).safeToSync =
      cs.safeToSync ++
        rs.filter (fun r => r.direction == BIDIRECTIONAL && !r.hasConflict) := by
  induction rs generalizing cs with
  | nil => simp
  | cons r rest ih =>
    rw [List.foldl_cons, ih, List.filter_cons]
    unfold routeChange
    split_ifs <;> simp_all

theorem foldRoute_needsReview (rs : List ChangeRecord) (cs : ChangeSet) :
    (rs.foldl routeChange cs).needsReview =
      cs.needsReview ++
        rs.filter (fun r => r.direction == BIDIRECTIONAL && r.hasConflict) := by
  induction rs generalizing cs with
  | nil => simp
  | cons r rest ih =>
    rw [List.foldl_cons, ih, List.filter_cons]
    unfold routeChange
    split_ifs <;> simp_all

theorem foldRoute_tests (rs : List ChangeRecord) (cs : ChangeSet) :
    (rs.foldl routeChange cs).tests =
      cs.tests ++ rs.filter (fun r => r.direction == COLLECTION_ONLY) := by
  induction rs generalizing cs with
  | nil => simp
  | cons r rest ih =>
    rw [List.foldl_cons, ih, List.filter_cons]
    unfold routeChange
    split_ifs <;> simp_all <;> simp_all [BI_ne_CO, CO_ne_BI]

theorem foldRoute_blocked (rs : List ChangeRecord) (cs : ChangeSet) :
    (rs.foldl routeChange cs).blocked =
      cs.blocked ++
        rs.filter (fun r =>
          !(r.direction == BIDIRECTIONAL) && !(r.direction == COLLECTION_ONLY)) := by
  induction rs generalizing cs with
  | nil => simp
  | cons r rest ih =>
    rw [List.foldl_cons, ih, List.filter_cons]
    unfold routeChange
    split_ifs <;> simp_all

/-! ## Claim theorems -/

/-- A container node (non-null object or array), as opposed to a scalar. -/
def Node.isContainer : Node → Bool
  | .arr _ => true
  | .obj _ => true
  | _ => false

/-- A scalar node (string/number/boolean/null). -/
def Node.isScalar : Node → Bool
  | .arr _ => false
  | .obj _ => false
  | _ => true

/-- C7: `deepDiff(X, Y)` returns the empty edit list whenever `X` and `Y` are
deep-equal documents (equality of the modelled value space is deep equality,
with no notion of object identity); in particular `deepDiff(X, X) = []` for
every document `X`. -/
theorem C7_noop_diff (x y : Option Node) (path : List Seg) (h : x = y) :
    deepDiff x y path = [] := by
  subst h
  exact deepDiff_self x path

theorem C7_witness :
    deepDiff (some (.obj [("a", some (.num 1)), ("b", some (.arr [some (.str "v")]))]))
      (some (.obj [("a", some (.num 1)), ("b", some (.arr [some (.str "v")]))])) [] = [] :=
  C7_noop_diff _ _ [] rfl

def c9base : Node :=
  .obj [("paths", some (.obj [("/a", some (.obj [("get",
    some (.obj [("description", some (.str "old"))]))]))]))]

def c9added : Node :=
  .obj [("post", some (.obj [("description", some (.str "remote doc"))]))]

def c9remote : Node :=
  .obj [("paths", some (.obj [("/a", some (.obj [("get",
    some (.obj [("description", some (.str "old"))]))])),
    ("/b", some c9added)]))]

/-- C9: a brand-new container key added by the remote produces a single `'N'`
(ADD) edit at the container's own address — the differ does not recurse into
the added subtree — and, concretely, a new endpoint `paths./b` whose nested
fields are named `description` is routed to `blocked`, not to an enrichment
bucket. -/
theorem C9_structural_block :
    (∀ (v : Node) (path : List Seg), v.isContainer = true →
      deepDiff none (some v) path = [⟨'N', path, none, some v⟩])
    ∧ detectChanges true c9base c9base c9remote =
        ⟨[], [],
          [{ path := "paths./b", kind := 'N', oldValue := none,
             newValue := some c9added, direction := SPEC_TO_COLLECTION,
             reason := "Structural element: paths", hasConflict := false }], []⟩ := by
  constructor
  · intro v path h
    cases v <;> simp [Node.isContainer] at h <;>
      simp [deepDiff, jsStrictEq, diffKind]
  · have hd : deepDiff (some c9base) (some c9remote) [] =
        [⟨'N', [.str "paths", .str "/b"], none, some c9added⟩] := by
      simp [c9base, c9remote, deepDiff, diffObjKeys, jsSetDedup, jsSetDedupAux,
        jsKeys, jsLookup, jsStrictEq, diffKind]
    unfold detectChanges
    rw [hd, deepDiff_self]
    rfl

theorem C9_witness :
    deepDiff none (some c9added) [Seg.str "paths", Seg.str "/b"] =
      [⟨'N', [Seg.str "paths", Seg.str "/b"], none, some c9added⟩] :=
  C9_structural_block.1 c9added _ rfl

theorem BI_ne_S2C : BIDIRECTIONAL ≠ SPEC_TO_COLLECTION := by decide

theorem CO_ne_S2C : COLLECTION_ONLY ≠ SPEC_TO_COLLECTION := by decide

/-- `classifyChange` only ever returns one of the three direction constants. -/
theorem classifyChange_direction_cases (strict : Bool) (p : String) :
    (classifyChange strict p).direction = BIDIRECTIONAL ∨
    (classifyChange strict p).direction = COLLECTION_ONLY ∨
    (classifyChange strict p).direction = SPEC_TO_COLLECTION := by
  unfold classifyChange
  rcases hf : SPEC_SOURCE_OF_TRUTH.find? (fun q => pathMatchesPattern p q) with _ | pat
  · rcases hf2 : BIDIRECTIONAL_FIELDS.find? (fun q => pathMatchesPattern p q) with _ | pat2
    · simp only [hf, hf2]
      split_ifs <;> simp
    · simp [hf, hf2]
  · simp only [hf]
    split_ifs <;> simp

/-- C1: for every baseline, local and remote document, `detectChanges` places
each edit of `deepDiff(baseline, remote)` in exactly one bucket: bidirectional
(enrichment) edits go to `safeToSync` without a conflict and to `needsReview`
with one, collection-only (artifact) edits go to `tests`, and
spec-to-collection (structural) edits go to `blocked`; a record's
`hasConflict` flag is true exactly when its dot-joined address equals the
dot-joined address of some edit of `deepDiff(baseline, local)`. -/
theorem C1_detectChanges_partition (strict : Bool) (base cur remote : Node) :
    (detectChanges strict base cur remote).safeToSync =
      ((deepDiff (some base) (some remote) []).map
          (toChangeRecord strict
            ((deepDiff (some base) (some cur) []).map (fun c => jsJoin c.path)))).filter
        (fun r => r.direction == BIDIRECTIONAL && !r.hasConflict)
  ∧ (detectChanges strict base cur remote).needsReview =
      ((deepDiff (some base) (some remote) []).map
          (toChangeRecord strict
            ((deepDiff (some base) (some cur) []).map (fun c => jsJoin c.path)))).filter
        (fun r => r.direction == BIDIRECTIONAL && r.hasConflict)
  ∧ (detectChanges strict base cur remote).tests =
      ((deepDiff (some base) (some remote) []).map
          (toChangeRecord strict
            ((deepDiff (some base) (some cur) []).map (fun c => jsJoin c.path)))).filter
        (fun r => r.direction == COLLECTION_ONLY)
  ∧ (detectChanges strict base cur remote).blocked =
      ((deepDiff (some base) (some remote) []).map
          (toChangeRecord strict
            ((deepDiff (some base) (some cur) []).map (fun c => jsJoin c.path)))).filter
        (fun r => r.direction == SPEC_TO_COLLECTION)
  ∧ (detectChanges strict base cur remote).safeToSync.length +
      (detectChanges strict base cur remote).needsReview.length +
      (detectChanges strict base cur remote).blocked.length +
      (detectChanges strict base cur remote).tests.length =
      (deepDiff (some base) (some remote) []).length
  ∧ ∀ c ∈ deepDiff (some base) (some remote) [],
      ((toChangeRecord strict
          ((deepDiff (some base) (some cur) []).map (fun c => jsJoin c.path)) c).hasConflict
        = true ↔
        ∃ lc ∈ deepDiff (some base) (some cur) [], jsJoin lc.path = jsJoin c.path) := by
  have hfold :
      detectChanges strict base cur remote =
        ((deepDiff (some base) (some remote) []).map
            (toChangeRecord strict
              ((deepDiff (some base) (some cur) []).map (fun c => jsJoin c.path)))).foldl
          routeChange ⟨[], [], [], []⟩ := by
    unfold detectChanges
    rw [List.foldl_map]
  have hrange : ∀ r ∈ (deepDiff (some base) (some remote) []).map
      (toChangeRecord strict
        ((deepDiff (some base) (some cur) []).map (fun c => jsJoin c.path))),
      r.direction = BIDIRECTIONAL ∨ r.direction = COLLECTION_ONLY ∨
        r.direction = SPEC_TO_COLLECTION := by
    intro r hr
    obtain ⟨c, _, rfl⟩ := List.mem_map.1 hr
    exact classifyChange_direction_cases strict _
  refine ⟨?_, ?_, ?_, ?_, ?_, ?_⟩
  · rw [hfold, foldRoute_safe]; rfl
  · rw [hfold, foldRoute_needsReview]; rfl
  · rw [hfold, foldRoute_tests]; rfl
  · rw [hfold, foldRoute_blocked]
    simp only [List.nil_append]
    apply List.filter_congr
    intro r hr
    rcases hrange r hr with h | h | h <;> simp [h, BI_ne_CO, CO_ne_BI, BI_ne_S2C, CO_ne_S2C, S2C_ne_BI, S2C_ne_CO]
  · show bucketTotal (detectChanges strict base cur remote) = _
    rw [hfold, foldRoute_total]
    simp [bucketTotal]
  · intro c _
    unfold toChangeRecord
    simp only []
    constructor
    · intro h
      have := List.elem_iff.mp h
      obtain ⟨lc, hlc, he⟩ := List.mem_map.1 this
      exact ⟨lc, hlc, he⟩
    · intro ⟨lc, hlc, he⟩
      exact List.elem_iff.mpr (List.mem_map.2 ⟨lc, hlc, he⟩)

/-- C10: a change whose dot-joined path matches no structural and no explicit
bidirectional pattern but contains `x-postman`, `x-tests`, `event` or `script`
anywhere as a substring is classified `COLLECTION_ONLY` and routed to the
`tests` bucket — even in strict mode, and even when a key name merely contains
such a substring, as with a top-level field `prevention` (which contains
`event`). -/
theorem C10_vendor_heuristic :
    (∀ (strict : Bool) (pathStr : String),
      (∀ p ∈ SPEC_SOURCE_OF_TRUTH, pathMatchesPattern pathStr p = false) →
      (∀ p ∈ BIDIRECTIONAL_FIELDS, pathMatchesPattern pathStr p = false) →
      (jsIncludes pathStr "x-postman" || jsIncludes pathStr "x-tests" ||
        jsIncludes pathStr "event" || jsIncludes pathStr "script") = true →
      (classifyChange strict pathStr).direction = COLLECTION_ONLY)
  ∧ detectChanges true (.obj []) (.obj [])
      (.obj [("prevention", some (.num 1))]) =
      ⟨[], [], [],
        [{ path := "prevention", kind := 'N', oldValue := none,
           newValue := some (.num 1), direction := COLLECTION_ONLY,
           reason := "Test or script content", hasConflict := false }]⟩ := by
  constructor
  · intro strict pathStr h1 h2 h3
    unfold classifyChange
    have hf1 : SPEC_SOURCE_OF_TRUTH.find? (fun q => pathMatchesPattern pathStr q)
        = none := by
      rw [List.find?_eq_none]
      intro p hp
      simp [h1 p hp]
    have hf2 : BIDIRECTIONAL_FIELDS.find? (fun q => pathMatchesPattern pathStr q)
        = none := by
      rw [List.find?_eq_none]
      intro p hp
      simp [h2 p hp]
    simp only [hf1, hf2, h3, if_true]
  · have hd : deepDiff (some (Node.obj []))
        (some (Node.obj [("prevention", some (.num 1))])) [] =
        [⟨'N', [.str "prevention"], none, some (.num 1)⟩] := by
      simp [deepDiff, diffObjKeys, jsSetDedup, jsSetDedupAux, jsKeys, jsLookup,
        jsStrictEq, diffKind]
    unfold detectChanges
    rw [hd, deepDiff_self]
    rfl

theorem C10_witness :
    (classifyChange true "prevention").direction = COLLECTION_ONLY :=
  C10_vendor_heuristic.1 true "prevention" (by decide) (by decide) (by decide)

/-- C4 counterexample: the address
`paths./a.get.responses.200.example.0.title` matches a structural pattern and
its final segment `title` is none of the five documentation-field names, yet
the override classifies it `BIDIRECTIONAL` — the claim's "final segment if and
only if" characterization is false on the code. -/
theorem C4_counterexample :
    (classifyChange true "paths./a.get.responses.200.example.0.title").direction
        = BIDIRECTIONAL
  ∧ (∃ p ∈ SPEC_SOURCE_OF_TRUTH,
      pathMatchesPattern "paths./a.get.responses.200.example.0.title" p = true)
  ∧ (jsSplitDot "paths./a.get.responses.200.example.0.title").getLast?
        = some "title"
  ∧ "title" ∉ ["description", "summary", "example", "examples", "externalDocs"] := by
  refine ⟨by decide, ⟨"paths", by decide, by decide⟩, by decide, by decide⟩

/-- C4 (amended): for an address matching a structural source-of-truth
pattern, the enrichment-within-structure override reclassifies the change as
`BIDIRECTIONAL` iff the dot-joined address ends with `.description` or
`.summary`, or contains `.example`, `.examples` or `.externalDocs` followed by
the end of the address or a further dot (so also at non-final positions);
otherwise the change stays `SPEC_TO_COLLECTION`. -/
theorem C4_amended_override (strict : Bool) (pathStr : String)
    (h : ∃ p ∈ SPEC_SOURCE_OF_TRUTH, pathMatchesPattern pathStr p = true) :
    ((classifyChange strict pathStr).direction = BIDIRECTIONAL ↔
      (endsWithStr pathStr ".description" || endsWithStr pathStr ".summary" ||
        hasDotSegment pathStr ".example" || hasDotSegment pathStr ".examples" ||
        hasDotSegment pathStr ".externalDocs") = true)
  ∧ ((classifyChange strict pathStr).direction = SPEC_TO_COLLECTION ↔
      (endsWithStr pathStr ".description" || endsWithStr pathStr ".summary" ||
        hasDotSegment pathStr ".example" || hasDotSegment pathStr ".examples" ||
        hasDotSegment pathStr ".externalDocs") = false) := by
  obtain ⟨pat, hpat⟩ :
      ∃ pat, SPEC_SOURCE_OF_TRUTH.find? (fun q => pathMatchesPattern pathStr q)
        = some pat := by
    have hs : (SPEC_SOURCE_OF_TRUTH.find?
        (fun q => pathMatchesPattern pathStr q)).isSome := by
      rw [List.find?_isSome]
      obtain ⟨p, hp, hm⟩ := h
      exact ⟨p, hp, by simpa using hm⟩
    exact Option.isSome_iff_exists.mp hs
  unfold classifyChange
  rw [hpat]
  by_cases he : isEnrichmentWithinStructure pathStr
  · have he' := he
    unfold isEnrichmentWithinStructure at he'
    simp [he, he', S2C_ne_BI.symm]
  · have he' := he
    unfold isEnrichmentWithinStructure at he'
    simp only [Bool.not_eq_true] at he'
    simp [he, he', BI_ne_S2C.symm]

theorem C4_amended_witness :
    ((classifyChange true "paths./a.get.description").direction = BIDIRECTIONAL ↔
      (endsWithStr "paths./a.get.description" ".description" ||
        endsWithStr "paths./a.get.description" ".summary" ||
        hasDotSegment "paths./a.get.description" ".example" ||
        hasDotSegment "paths./a.get.description" ".examples" ||
        hasDotSegment "paths./a.get.description" ".externalDocs") = true)
  ∧ ((classifyChange true "paths./a.get.description").direction
        = SPEC_TO_COLLECTION ↔
      (endsWithStr "paths./a.get.description" ".description" ||
        endsWithStr "paths./a.get.description" ".summary" ||
        hasDotSegment "paths./a.get.description" ".example" ||
        hasDotSegment "paths./a.get.description" ".examples" ||
        hasDotSegment "paths./a.get.description" ".externalDocs") = false) :=
  C4_amended_override true "paths./a.get.description" ⟨"paths", by decide, by decide⟩

/-- C2 counterexample: a scalar root where a container is expected is *not*
rejected — `deepDiff` returns normally with exactly the single "giant" root
edit the claim says can never be produced, and `detectChanges` classifies and
routes it like any other edit. -/
theorem C2_counterexample :
    deepDiff (some (.str "oops")) (some (.obj [("a", some (.num 1))])) [] =
      [⟨'E', [], some (.str "oops"), some (.obj [("a", some (.num 1))])⟩]
  ∧ (detectChanges true (.str "oops") (.str "oops")
      (.obj [("a", some (.num 1))])).blocked =
      [{ path := "", kind := 'E', oldValue := some (.str "oops"),
         newValue := some (.obj [("a", some (.num 1))]),
         direction := SPEC_TO_COLLECTION,
         reason := "Unclassified - defaulting to spec-only (strict mode)",
         hasConflict := false }] := by
  have hd : deepDiff (some (Node.str "oops"))
      (some (Node.obj [("a", some (.num 1))])) [] =
      [⟨'E', [], some (.str "oops"), some (.obj [("a", some (.num 1))])⟩] := by
    simp [deepDiff, jsStrictEq, diffKind]
  refine ⟨hd, ?_⟩
  unfold detectChanges
  rw [hd, deepDiff_self]
  rfl

/-- C2 (amended): the diff performs no validation of the root: for every
scalar `s` and container `t`, `deepDiff(s, t)` returns normally — the
comparison silently degrades into one giant scalar edit at the root (empty
path) — and `detectChanges` routes that root edit through the ordinary
classifier (under strict mode it lands in `blocked` with the unclassified
reason); no error is raised and the call is not aborted. -/
theorem C2_amended_no_validation (s t : Node)
    (hs : s.isScalar = true) (ht : t.isContainer = true) :
    deepDiff (some s) (some t) [] = [⟨'E', [], some s, some t⟩]
  ∧ detectChanges true s s t =
      ⟨[], [],
        [{ path := "", kind := 'E', oldValue := some s, newValue := some t,
           direction := SPEC_TO_COLLECTION,
           reason := "Unclassified - defaulting to spec-only (strict mode)",
           hasConflict := false }], []⟩ := by
  have hd : deepDiff (some s) (some t) [] = [⟨'E', [], some s, some t⟩] := by
    cases s <;> simp [Node.isScalar] at hs <;>
      cases t <;> simp [Node.isContainer] at ht <;>
        simp [deepDiff, jsStrictEq, diffKind]
  refine ⟨hd, ?_⟩
  unfold detectChanges
  rw [hd, deepDiff_self]
  rfl

theorem C2_amended_witness :
    deepDiff (some (.num 7)) (some (.arr [some (.num 1)])) [] =
      [⟨'E', [], some (.num 7), some (.arr [some (.num 1)])⟩]
  ∧ detectChanges true (.num 7) (.num 7) (.arr [some (.num 1)]) =
      ⟨[], [],
        [{ path := "", kind := 'E', oldValue := some (.num 7),
           newValue := some (.arr [some (.num 1)]),
           direction := SPEC_TO_COLLECTION,
           reason := "Unclassified - defaulting to spec-only (strict mode)",
           hasConflict := false }], []⟩ :=
  C2_amended_no_validation (.num 7) (.arr [some (.num 1)]) rfl rfl

/-- Forget the (rewritten) reason of a record, for order comparisons. -/
def stripReason (r : ChangeRecord) : ChangeRecord :=
  { r with reason := "" }

/-- One unfolding of `mergeStep` on an explicit accumulator triple. -/
theorem mergeStep_eq (strat : String) (m : Node) (a s : List ChangeRecord)
    (c : ChangeRecord) :
    mergeStep strat (m, a, s) c =
      if c.hasConflict && strat = "spec-wins" then
        (m, a, s ++ [{ c with reason := "Conflict - spec wins" }])
      else
        match applyChange m c with
        | .ok m' => (m', a ++ [c], s)
        | .error e => (m, a, s ++ [{ c with reason := "Failed to apply: " ++ e }]) :=
  rfl

theorem mergeFold_spec_acc (strat : String) (cs : List ChangeRecord) :
    ∀ m a s a' s',
      (cs.foldl (mergeStep strat) (m, a, s)).1 =
        (cs.foldl (mergeStep strat) (m, a', s')).1 := by
  induction cs with
  | nil => intro m a s a' s'; rfl
  | cons c rest ih =>
    intro m a s a' s'
    rw [List.foldl_cons, List.foldl_cons, mergeStep_eq, mergeStep_eq]
    by_cases hc : (c.hasConflict && strat = "spec-wins") = true
    · rw [if_pos hc, if_pos hc]
      exact ih m _ _ _ _
    · rw [if_neg hc, if_neg hc]
      rcases happ : applyChange m c with e | m'
      · simp only [happ]
        exact ih m _ _ _ _
      · simp only [happ]
        exact ih m' _ _ _ _

theorem mergeFold_spec_filter (cs : List ChangeRecord) :
    ∀ m a s,
      (cs.foldl (mergeStep "spec-wins") (m, a, s)).1 =
        ((cs.filter (fun c => !c.hasConflict)).foldl
          (mergeStep "spec-wins") (m, a, s)).1 := by
  induction cs with
  | nil => intro m a s; rfl
  | cons c rest ih =>
    intro m a s
    by_cases hc : c.hasConflict
    · have hcond : (c.hasConflict && "spec-wins" = "spec-wins") = true := by simp [hc]
      rw [List.foldl_cons, mergeStep_eq, if_pos hcond, List.filter_cons]
      simp only [hc, Bool.not_true, if_neg (by simp : ¬ (false = true))]
      rw [ih m a _]
      exact mergeFold_spec_acc _ _ _ _ _ _ _
    · have hcond : ¬ ((c.hasConflict && "spec-wins" = "spec-wins") = true) := by simp [hc]
      have hnc : (!c.hasConflict) = true := by simp [hc]
      rw [List.foldl_cons, mergeStep_eq, if_neg hcond, List.filter_cons, if_pos hnc,
        List.foldl_cons, mergeStep_eq, if_neg hcond]
      rcases happ : applyChange m c with e | m'
      · simp only [happ]
        exact ih m _ _
      · simp only [happ]
        exact ih m' _ _

theorem mergeFold_counts (strat : String) (cs : List ChangeRecord) :
    ∀ m a s,
      (cs.foldl (mergeStep strat) (m, a, s)).2.1.length +
        (cs.foldl (mergeStep strat) (m, a, s)).2.2.length =
        a.length + s.length + cs.length := by
  induction cs with
  | nil => intro m a s; simp
  | cons c rest ih =>
    intro m a s
    rw [List.foldl_cons, mergeStep_eq]
    by_cases hc : (c.hasConflict && strat = "spec-wins") = true
    · rw [if_pos hc, ih]
      simp
      omega
    · rw [if_neg hc]
      rcases happ : applyChange m c with e | m'
      · simp only [happ]
        rw [ih]
        simp
        omega
      · simp only [happ]
        rw [ih]
        simp
        omega

theorem mergeFold_applied_sublist (strat : String) (cs : List ChangeRecord) :
    ∀ m a s, ∃ t, (cs.foldl (mergeStep strat) (m, a, s)).2.1 = a ++ t ∧
      t.Sublist cs := by
  induction cs with
  | nil => intro m a s; exact ⟨[], by simp, List.nil_sublist []⟩
  | cons c rest ih =>
    intro m a s
    rw [List.foldl_cons, mergeStep_eq]
    by_cases hc : (c.hasConflict && strat = "spec-wins") = true
    · rw [if_pos hc]
      obtain ⟨t, ht, hs⟩ := ih m a _
      exact ⟨t, ht, hs.cons c⟩
    · rw [if_neg hc]
      rcases happ : applyChange m c with e | m'
      · simp only [happ]
        obtain ⟨t, ht, hs⟩ := ih m a _
        exact ⟨t, ht, hs.cons c⟩
      · simp only [happ]
        obtain ⟨t, ht, hs⟩ := ih m' (a ++ [c]) s
        exact ⟨c :: t, by simpa using ht, hs.cons₂ c⟩

theorem mergeFold_skipped_shape (strat : String) (cs : List ChangeRecord) :
    ∀ m a s, ∃ t, (cs.foldl (mergeStep strat) (m, a, s)).2.2 = s ++ t ∧
      (t.map stripReason).Sublist (cs.map stripReason) ∧
      ∀ x ∈ t, (x.reason = "Conflict - spec wins" ∧ strat = "spec-wins") ∨
        ∃ e, x.reason = "Failed to apply: " ++ e := by
  induction cs with
  | nil => intro m a s; exact ⟨[], by simp, by simp, by simp⟩
  | cons c rest ih =>
    intro m a s
    rw [List.foldl_cons, mergeStep_eq]
    by_cases hc : (c.hasConflict && strat = "spec-wins") = true
    · rw [if_pos hc]
      have hstrat : strat = "spec-wins" := by
        have hc' := hc
        simp only [Bool.and_eq_true, decide_eq_true_eq] at hc'
        exact hc'.2
      obtain ⟨t, ht, hsub, hreas⟩ :=
        ih m a (s ++ [{ c with reason := "Conflict - spec wins" }])
      refine ⟨{ c with reason := "Conflict - spec wins" } :: t, by simpa using ht, ?_, ?_⟩
      · simpa [stripReason] using hsub.cons₂ (stripReason c)
      · intro x hx
        rcases List.mem_cons.mp hx with rfl | hx
        · exact Or.inl ⟨rfl, hstrat⟩
        · exact hreas x hx
    · rw [if_neg hc]
      rcases happ : applyChange m c with e | m'
      · simp only [happ]
        obtain ⟨t, ht, hsub, hreas⟩ :=
          ih m a (s ++ [{ c with reason := "Failed to apply: " ++ e }])
        refine ⟨{ c with reason := "Failed to apply: " ++ e } :: t, by simpa using ht, ?_, ?_⟩
        · simpa [stripReason] using hsub.cons₂ (stripReason c)
        · intro x hx
          rcases List.mem_cons.mp hx with rfl | hx
          · exact Or.inr ⟨e, rfl⟩
          · exact hreas x hx
      · simp only [happ]
        obtain ⟨t, ht, hsub, hreas⟩ := ih m' (a ++ [c]) s
        exact ⟨t, ht, hsub.cons (stripReason c), hreas⟩

theorem mergeFold_conflict_skipped (cs : List ChangeRecord) :
    ∀ m a s c, c ∈ cs → c.hasConflict = true →
      { c with reason := "Conflict - spec wins" } ∈
          (cs.foldl (mergeStep "spec-wins") (m, a, s)).2.2 ∨
        { c with reason := "Conflict - spec wins" } ∈ s := by
  induction cs with
  | nil => intro m a s c hc; simp at hc
  | cons c0 rest ih =>
    intro m a s c hcmem hcc
    rw [List.foldl_cons, mergeStep_eq]
    rcases List.mem_cons.mp hcmem with rfl | hrest
    · have hcond : (c.hasConflict && "spec-wins" = "spec-wins") = true := by simp [hcc]
      rw [if_pos hcond]
      obtain ⟨t, ht, _, _⟩ := mergeFold_skipped_shape "spec-wins" rest m a
        (s ++ [{ c with reason := "Conflict - spec wins" }])
      left
      rw [ht]
      simp
    · by_cases hc0 : (c0.hasConflict && "spec-wins" = "spec-wins") = true
      · rw [if_pos hc0]
        rcases ih m a _ c hrest hcc with h | h
        · exact Or.inl h
        · rcases List.mem_append.mp h with h | h
          · exact Or.inr h
          · left
            obtain ⟨t, ht, _, _⟩ := mergeFold_skipped_shape "spec-wins" rest m a _
            rw [ht]
            exact List.mem_append.mpr (Or.inl (List.mem_append.mpr (Or.inr h)))
      · rw [if_neg hc0]
        rcases happ : applyChange m c0 with e | m'
        · simp only [happ]
          rcases ih m a _ c hrest hcc with h | h
          · exact Or.inl h
          · rcases List.mem_append.mp h with h | h
            · exact Or.inr h
            · left
              obtain ⟨t, ht, _, _⟩ := mergeFold_skipped_shape "spec-wins" rest m a _
              rw [ht]
              exact List.mem_append.mpr (Or.inl (List.mem_append.mpr (Or.inr h)))
        · simp only [happ]
          exact ih m' _ s c hrest hcc

theorem mergeStep_interactive_eq :
    mergeStep "interactive" = mergeStep "collection-wins" := by
  funext acc c
  obtain ⟨m, a, s⟩ := acc
  rw [mergeStep_eq, mergeStep_eq]
  simp

/-- C5: per-edit conflict handling in `mergeSpecs`.  The spec's "local-wins"
is the source's `'spec-wins'` (the local document is the repo's spec) and
"remote-wins" is `'collection-wins'`: under `spec-wins` every conflicting edit
is skipped with the conflict reason and contributes nothing to the merged
document; under any other strategy no edit is conflict-skipped — every edit is
attempted, a failing one landing in `skipped` with an apply-failure reason —
and `'interactive'` behaves exactly like `'collection-wins'` (the component is
a pure function and never prompts). -/
theorem C5_conflict_strategy (l r : Node) (cs : List ChangeRecord) :
    (mergeSpecs "spec-wins" l r cs).spec =
      (mergeSpecs "spec-wins" l r (cs.filter (fun c => !c.hasConflict))).spec
  ∧ (∀ c ∈ cs, c.hasConflict = true →
      { c with reason := "Conflict - spec wins" } ∈
        (mergeSpecs "spec-wins" l r cs).skipped)
  ∧ (∀ strat : String, strat ≠ "spec-wins" →
      (∀ x ∈ (mergeSpecs strat l r cs).skipped,
        ∃ e, x.reason = "Failed to apply: " ++ e)
      ∧ (mergeSpecs strat l r cs).applied.length +
          (mergeSpecs strat l r cs).skipped.length = cs.length)
  ∧ mergeSpecs "interactive" l r cs = mergeSpecs "collection-wins" l r cs := by
  refine ⟨?_, ?_, ?_, ?_⟩
  · exact mergeFold_spec_filter cs (jsonClone l) [] []
  · intro c hc hcc
    rcases mergeFold_conflict_skipped cs (jsonClone l) [] [] c hc hcc with h | h
    · exact h
    · simp at h
  · intro strat hstrat
    constructor
    · intro x hx
      obtain ⟨t, ht, _, hreas⟩ := mergeFold_skipped_shape strat cs (jsonClone l) [] []
      have hx' : x ∈ t := by
        have : (mergeSpecs strat l r cs).skipped =
            (cs.foldl (mergeStep strat) (jsonClone l, [], [])).2.2 := rfl
        rw [this, ht] at hx
        simpa using hx
      rcases hreas x hx' with ⟨_, hs⟩ | h
      · exact absurd hs hstrat
      · exact h
    · simpa using mergeFold_counts strat cs (jsonClone l) [] []
  · unfold mergeSpecs
    rw [mergeStep_interactive_eq]

def c5conf : ChangeRecord :=
  ⟨"info.description", 'E', some (.str "v1"), some (.str "postman"),
    BIDIRECTIONAL, "r", true⟩

theorem C5_witness :
    ({ c5conf with reason := "Conflict - spec wins" } ∈
      (mergeSpecs "spec-wins" (.obj [("info", some (.obj [("description",
        some (.str "v1"))]))]) (.obj []) [c5conf]).skipped)
  ∧ ((mergeSpecs "collection-wins" (.obj [("info", some (.obj [("description",
        some (.str "v1"))]))]) (.obj []) [c5conf]).applied.length +
      (mergeSpecs "collection-wins" (.obj [("info", some (.obj [("description",
        some (.str "v1"))]))]) (.obj []) [c5conf]).skipped.length = 1) :=
  ⟨(C5_conflict_strategy _ _ [c5conf]).2.1 c5conf (List.Mem.head _) rfl,
   ((C5_conflict_strategy _ _ [c5conf]).2.2.1 "collection-wins" (by decide)).2⟩

def c6doc : Node := .obj [("a", some (.num 5))]

def c6bad : ChangeRecord :=
  ⟨"a.b.c", 'N', none, some (.num 99), BIDIRECTIONAL, "r", false⟩

def c6edit (k : String) (v : Int) : ChangeRecord :=
  ⟨k, 'N', none, some (.num v), BIDIRECTIONAL, "r", false⟩

def c6edits : List ChangeRecord :=
  [c6edit "k1" 1, c6edit "k2" 2, c6edit "k3" 3, c6edit "k4" 4, c6bad,
   c6edit "k5" 5, c6edit "k6" 6, c6edit "k7" 7, c6edit "k8" 8, c6edit "k9" 9]

def c6expected : Node :=
  .obj [("a", some (.num 5)), ("k1", some (.num 1)), ("k2", some (.num 2)),
    ("k3", some (.num 3)), ("k4", some (.num 4)), ("k5", some (.num 5)),
    ("k6", some (.num 6)), ("k7", some (.num 7)), ("k8", some (.num 8)),
    ("k9", some (.num 9))]

/-- C6: partial-failure isolation.  For every strategy, document and edit
list, every input edit lands in exactly one of `applied`/`skipped`
(`|applied| + |skipped| = |edits|`, both in input order as sublists of the
input), and every skipped entry carries either the conflict reason or the
caught exception's message.  Concretely, for 10 edits of which exactly one
descends through a Scalar, 9 are applied, 1 is skipped with the exception's
message, and the resulting document reflects only the 9 successful edits. -/
theorem C6_partial_failure_isolation :
    (∀ (strat : String) (l r : Node) (cs : List ChangeRecord),
      (mergeSpecs strat l r cs).applied.length +
          (mergeSpecs strat l r cs).skipped.length = cs.length
      ∧ (mergeSpecs strat l r cs).applied.Sublist cs
      ∧ ((mergeSpecs strat l r cs).skipped.map stripReason).Sublist
          (cs.map stripReason)
      ∧ ∀ x ∈ (mergeSpecs strat l r cs).skipped,
          x.reason = "Conflict - spec wins" ∨
            ∃ e, x.reason = "Failed to apply: " ++ e)
  ∧ (mergeSpecs "spec-wins" c6doc c6doc c6edits).applied.length = 9
  ∧ (mergeSpecs "spec-wins" c6doc c6doc c6edits).skipped =
      [{ c6bad with
          reason := "Failed to apply: Cannot create property on a primitive value" }]
  ∧ (mergeSpecs "spec-wins" c6doc c6doc c6edits).spec = c6expected := by
  refine ⟨?_, by rfl, by rfl, by rfl⟩
  intro strat l r cs
  refine ⟨by simpa using mergeFold_counts strat cs (jsonClone l) [] [], ?_, ?_, ?_⟩
  · obtain ⟨t, ht, hs⟩ := mergeFold_applied_sublist strat cs (jsonClone l) [] []
    have : (mergeSpecs strat l r cs).applied =
        (cs.foldl (mergeStep strat) (jsonClone l, [], [])).2.1 := rfl
    rw [this, ht]
    simpa using hs
  · obtain ⟨t, ht, hsub, _⟩ := mergeFold_skipped_shape strat cs (jsonClone l) [] []
    have : (mergeSpecs strat l r cs).skipped =
        (cs.foldl (mergeStep strat) (jsonClone l, [], [])).2.2 := rfl
    rw [this, ht]
    simpa using hsub
  · intro x hx
    obtain ⟨t, ht, _, hreas⟩ := mergeFold_skipped_shape strat cs (jsonClone l) [] []
    have heq : (mergeSpecs strat l r cs).skipped =
        (cs.foldl (mergeStep strat) (jsonClone l, [], [])).2.2 := rfl
    rw [heq, ht] at hx
    rcases hreas x (by simpa using hx) with ⟨h, _⟩ | h
    · exact Or.inl h
    · exact Or.inr h

theorem C6_witness :
    ({ c6bad with
        reason := "Failed to apply: Cannot create property on a primitive value" } :
          ChangeRecord).reason = "Conflict - spec wins"
      ∨ ∃ e, ({ c6bad with
          reason := "Failed to apply: Cannot create property on a primitive value" } :
            ChangeRecord).reason = "Failed to apply: " ++ e :=
  (C6_partial_failure_isolation.1 "spec-wins" c6doc c6doc c6edits).2.2.2
    _ (List.Mem.head _)

theorem digitVal?_digitChar (d : Nat) (h : d < 10) :
    digitVal? (digitChar d) = some d := by
  interval_cases d <;> decide

theorem digitChar_not_special (d : Nat) (h : d < 10) :
    digitChar d ≠ '.' ∧ digitChar d ≠ '/' ∧ digitChar d ≠ '-' := by
  interval_cases d <;> decide

theorem natToChars_shape (m : Nat) :
    ∀ c ∈ natToChars m, ∃ d, d < 10 ∧ c = digitChar d := by
  induction m using Nat.strong_induction_on with
  | _ m ih =>
    rw [natToChars]
    split_ifs with h
    · intro c hc
      simp at hc
      exact ⟨m, h, hc⟩
    · intro c hc
      rcases List.mem_append.mp hc with hc | hc
      · exact ih (m / 10) (Nat.div_lt_self (by omega) (by omega)) c hc
      · simp at hc
        exact ⟨m % 10, Nat.mod_lt _ (by omega), hc⟩

theorem natToChars_ne_nil (m : Nat) : natToChars m ≠ [] := by
  rw [natToChars]
  split_ifs <;> simp

theorem digitsVal_snoc (xs : List Char) (c : Char) (d : Nat)
    (hd : digitVal? c = some d) :
    ∀ acc v, digitsVal xs acc = some v →
      digitsVal (xs ++ [c]) acc = some (v * 10 + d) := by
  induction xs with
  | nil =>
    intro acc v hv
    simp [digitsVal] at hv
    subst hv
    simp [digitsVal, hd]
  | cons x xr ih =>
    intro acc v hv
    simp only [digitsVal] at hv ⊢
    cases hx : digitVal? x with
    | none =>
      simp only [hx] at hv
      exact absurd hv (by simp)
    | some dx =>
      simp only [hx] at hv
      simp only [List.cons_append, digitsVal, hx]
      exact ih _ _ hv

theorem canonNat_snoc (xs : List Char) (c : Char) (v d : Nat)
    (hxs : canonNat xs = some v) (hv : v ≠ 0) (hd : digitVal? c = some d) :
    canonNat (xs ++ [c]) = some (v * 10 + d) := by
  cases xs with
  | nil => simp [canonNat] at hxs
  | cons x xr =>
    simp only [canonNat] at hxs
    cases hx : digitVal? x with
    | none =>
      simp only [hx] at hxs
      exact absurd hxs (by simp)
    | some dx =>
      simp only [hx] at hxs
      simp only [List.cons_append, canonNat, hx]
      by_cases hdx : dx = 0
      · rw [hdx] at hxs
        simp only [if_pos rfl] at hxs
        by_cases hxr : xr = []
        · rw [hxr] at hxs
          simp at hxs
          omega
        · rw [if_neg hxr] at hxs
          exact absurd hxs (by simp)
      · rw [if_neg hdx] at hxs
        rw [if_neg hdx]
        exact digitsVal_snoc xr c d hd dx v hxs

theorem canonNat_natToChars (m : Nat) : canonNat (natToChars m) = some m := by
  induction m using Nat.strong_induction_on with
  | _ m ih =>
    rw [natToChars]
    split_ifs with h
    · by_cases hm : m = 0
      · subst hm; decide
      · simp [canonNat, digitVal?_digitChar m h, hm, digitsVal]
    · have hq := ih (m / 10) (Nat.div_lt_self (by omega) (by omega))
      have := canonNat_snoc (natToChars (m / 10)) (digitChar (m % 10))
        (m / 10) (m % 10) hq (by omega) (digitVal?_digitChar _ (Nat.mod_lt _ (by omega)))
      rw [this]
      congr 1
      omega

theorem intToString_ofNat (m : Nat) :
    (intToString (Int.ofNat m)).toList = natToChars m := rfl

theorem jsParseIntCanon_intToString (n : Int) :
    jsParseIntCanon (intToString n) = some n := by
  cases n with
  | ofNat m =>
    obtain ⟨c, cs, hc⟩ : ∃ c cs, natToChars m = c :: cs := by
      cases h : natToChars m with
      | nil => exact absurd h (natToChars_ne_nil m)
      | cons c cs => exact ⟨c, cs, rfl⟩
    have hcd : c ≠ '-' := by
      obtain ⟨d, hd, rfl⟩ := natToChars_shape m c (by rw [hc]; exact List.mem_cons_self _ _)
      exact (digitChar_not_special d hd).2.2
    unfold jsParseIntCanon
    rw [intToString_ofNat, hc]
    split
    · rename_i rest heq
      rw [List.cons.injEq] at heq
      exact absurd heq.1 hcd
    · rw [← hc, canonNat_natToChars]
      rfl
  | negSucc m =>
    have htl : (intToString (Int.negSucc m)).toList = '-' :: natToChars (m + 1) := rfl
    unfold jsParseIntCanon
    rw [htl]
    split
    · rename_i rest heq
      rw [List.cons.injEq] at heq
      rw [← heq.2, canonNat_natToChars]
      simp [Int.negSucc_eq]
    · rename_i hns
      exact absurd rfl (hns (natToChars (m + 1)))

theorem jsParseIntCanon_slash (s : String) (h : s.toList.head? = some '/') :
    jsParseIntCanon s = none := by
  obtain ⟨rest, hrest⟩ : ∃ rest, s.toList = '/' :: rest := by
    cases hl : s.toList with
    | nil => rw [hl] at h; simp at h
    | cons c cs =>
      rw [hl] at h
      simp at h
      exact ⟨cs, by rw [h]⟩
  unfold jsParseIntCanon
  rw [hrest]
  split
  · rename_i rest' heq
    rw [List.cons.injEq] at heq
    exact absurd heq.1 (by decide)
  · have : canonNat ('/' :: rest) = none := by
      simp [canonNat, digitVal?]
    rw [this]
    rfl

/-- A segment whose rendering decodes back unambiguously: any number; a
path-shaped key (leading `/`, no embedded `.`); or a plain key that is
nonempty, contains no `.` and no `/`, and is not the canonical decimal
rendering of an integer. -/
def segOk : Seg → Bool
  | .num _ => true
  | .str s =>
    if s.toList.head? = some '/' then !s.toList.contains '.'
    else !s.toList.isEmpty && !s.toList.contains '.' &&
      !s.toList.contains '/' && (jsParseIntCanon s).isNone

theorem parsePathAux_accum_plain (cs : List Char) :
    ∀ acc l, (∀ c ∈ cs, c ≠ '.' ∧ c ≠ '/') →
      parsePathAux (cs ++ l) acc false = parsePathAux l (acc ++ cs) false := by
  induction cs with
  | nil => intro acc l _; simp
  | cons c cr ih =>
    intro acc l h
    have hc := h c (List.mem_cons_self _ _)
    have hrest : ∀ c' ∈ cr, c' ≠ '.' ∧ c' ≠ '/' :=
      fun c' hc' => h c' (List.mem_cons_of_mem _ hc')
    rw [List.cons_append]
    simp only [parsePathAux, hc.1, hc.2, decide_False, Bool.false_and,
      Bool.and_false, Bool.not_false, Bool.and_true, Bool.false_eq_true,
      if_false, decide_eq_true_eq]
    rw [ih (acc ++ [c]) l hrest]
    simp

theorem parsePathAux_accum_path (cs : List Char) :
    ∀ acc l, (∀ c ∈ cs, c ≠ '.') →
      parsePathAux (cs ++ l) acc true = parsePathAux l (acc ++ cs) true := by
  induction cs with
  | nil => intro acc l _; simp
  | cons c cr ih =>
    intro acc l h
    have hc := h c (List.mem_cons_self _ _)
    have hrest : ∀ c' ∈ cr, c' ≠ '.' :=
      fun c' hc' => h c' (List.mem_cons_of_mem _ hc')
    rw [List.cons_append]
    simp only [parsePathAux, hc, decide_False, Bool.not_true, Bool.and_false,
      Bool.false_and, Bool.false_eq_true, if_false]
    rw [ih (acc ++ [c]) l hrest]
    simp

theorem intToString_not_special (n : Int) :
    ∀ c ∈ (intToString n).toList, c ≠ '.' ∧ c ≠ '/' := by
  intro c hc
  cases n with
  | ofNat m =>
    rw [intToString_ofNat] at hc
    obtain ⟨d, hd, rfl⟩ := natToChars_shape m c hc
    exact ⟨(digitChar_not_special d hd).1, (digitChar_not_special d hd).2.1⟩
  | negSucc m =>
    have htl : (intToString (Int.negSucc m)).toList = '-' :: natToChars (m + 1) := rfl
    rw [htl] at hc
    rcases List.mem_cons.mp hc with rfl | hc
    · exact ⟨by decide, by decide⟩
    · obtain ⟨d, hd, rfl⟩ := natToChars_shape _ c hc
      exact ⟨(digitChar_not_special d hd).1, (digitChar_not_special d hd).2.1⟩

theorem intToString_toList_ne_nil (n : Int) : (intToString n).toList ≠ [] := by
  cases n with
  | ofNat m => rw [intToString_ofNat]; exact natToChars_ne_nil m
  | negSucc m => simp [intToString]

theorem mk_toList (s : String) : String.mk s.toList = s := rfl

theorem seg_chars (s : Seg) (hs : segOk s = true) :
    ((Seg.jsToString s).toList ≠ [] ∧
      (∀ c ∈ (Seg.jsToString s).toList, c ≠ '.' ∧ c ≠ '/')) ∨
    (∃ rest, (Seg.jsToString s).toList = '/' :: rest ∧ ∀ c ∈ rest, c ≠ '.') := by
  cases s with
  | num n => exact Or.inl ⟨intToString_toList_ne_nil n, intToString_not_special n⟩
  | str s =>
    simp only [segOk] at hs
    simp only [Seg.jsToString]
    by_cases hhead : s.toList.head? = some '/'
    · right
      rw [if_pos hhead] at hs
      obtain ⟨rest, hrest⟩ : ∃ rest, s.toList = '/' :: rest := by
        cases hl : s.toList with
        | nil => rw [hl] at hhead; simp at hhead
        | cons c cs =>
          rw [hl] at hhead
          simp at hhead
          exact ⟨cs, by rw [hhead]⟩
      refine ⟨rest, hrest, ?_⟩
      intro c hc heq
      subst heq
      have hmem : '.' ∈ s.toList := by
        rw [hrest]
        exact List.mem_cons_of_mem _ hc
      have hb : s.toList.contains '.' = true := by simpa using hmem
      rw [hb] at hs
      simp at hs
    · left
      rw [if_neg hhead] at hs
      simp only [Bool.and_eq_true, Bool.not_eq_true'] at hs
      obtain ⟨⟨⟨hne, hdot⟩, hslash⟩, _⟩ := hs
      constructor
      · intro hnil
        rw [hnil] at hne
        simp at hne
      · intro c hc
        refine ⟨?_, ?_⟩
        · intro heq
          subst heq
          have hb : s.toList.contains '.' = true := by simpa using hc
          rw [hb] at hdot
          simp at hdot
        · intro heq
          subst heq
          have hb : s.toList.contains '/' = true := by simpa using hc
          rw [hb] at hslash
          simp at hslash

theorem seg_step (s : Seg) (hs : segOk s = true) (l : List Char) :
    parsePathAux ((Seg.jsToString s).toList ++ '.' :: l) [] false =
      Seg.jsToString s :: parsePathAux l [] false := by
  rcases seg_chars s hs with ⟨hne, hchars⟩ | ⟨rest, hrest, hchars⟩
  · rw [parsePathAux_accum_plain _ [] _ hchars]
    simp only [List.nil_append, parsePathAux]
    rw [if_neg hne]
    simp [mk_toList]
  · rw [hrest, List.cons_append]
    have hmk : String.mk ('/' :: rest) = Seg.jsToString s := by
      rw [← hrest, mk_toList]
    simp only [parsePathAux, decide_True, Bool.not_false, Bool.and_true, if_true,
      List.nil_append, reduceIte]
    rw [parsePathAux_accum_path rest ['/'] _ hchars]
    simp [parsePathAux, ← hmk]

theorem seg_end (s : Seg) (hs : segOk s = true) :
    parsePathAux (Seg.jsToString s).toList [] false = [Seg.jsToString s] := by
  rcases seg_chars s hs with ⟨hne, hchars⟩ | ⟨rest, hrest, hchars⟩
  · rw [show (Seg.jsToString s).toList = (Seg.jsToString s).toList ++ [] by simp]
    rw [parsePathAux_accum_plain _ [] _ hchars]
    simp only [List.nil_append, parsePathAux]
    rw [if_neg hne, mk_toList]
  · rw [hrest]
    have hmk : String.mk ('/' :: rest) = Seg.jsToString s := by
      rw [← hrest, mk_toList]
    simp only [parsePathAux, decide_True, Bool.not_false, Bool.and_true, if_true,
      List.nil_append, reduceIte]
    rw [show (rest : List Char) = rest ++ [] by simp]
    rw [parsePathAux_accum_path rest ['/'] [] hchars]
    simp [parsePathAux, ← hmk]

theorem parseAux_join (segs : List Seg) (h : ∀ s ∈ segs, segOk s = true) :
    parsePathAux (jsJoin segs).toList [] false = segs.map Seg.jsToString := by
  induction segs with
  | nil => rfl
  | cons s rest ih =>
    cases rest with
    | nil =>
      simp only [jsJoin, List.map]
      exact seg_end s (h s (List.mem_cons_self _ _))
    | cons s2 r2 =>
      have hsplit : (jsJoin (s :: s2 :: r2)).toList =
          (Seg.jsToString s).toList ++ '.' :: (jsJoin (s2 :: r2)).toList := by
        show (s.jsToString ++ "." ++ jsJoin (s2 :: r2)).toList = _
        simp [String.toList, String.data_append]
      rw [hsplit, seg_step s (h s (List.mem_cons_self _ _))]
      rw [ih (fun x hx => h x (List.mem_cons_of_mem _ hx))]
      rfl

theorem convertPart_render (s : Seg) (hs : segOk s = true) :
    convertPart (Seg.jsToString s) = s := by
  cases s with
  | num n =>
    show convertPart (intToString n) = Seg.num n
    unfold convertPart
    rw [jsParseIntCanon_intToString]
  | str s =>
    show convertPart s = Seg.str s
    simp only [segOk] at hs
    unfold convertPart
    by_cases hhead : s.toList.head? = some '/'
    · rw [jsParseIntCanon_slash s hhead]
    · rw [if_neg hhead] at hs
      simp only [Bool.and_eq_true] at hs
      have hnone : jsParseIntCanon s = none :=
        Option.isNone_iff_eq_none.mp hs.2
      rw [hnone]

/-- C3 counterexample: the claim quantifies over every segment list without an
embedded `.` inside a non-path key, but the single-segment list `["a/b"]`
(a non-path key containing a slash, no dot anywhere) fails to round-trip:
`parsePath (join ["a/b"])` is `["a", "/b"]`, because the scanner enters path
mode at the embedded `/`. -/
theorem C3_counterexample :
    jsJoin [Seg.str "a/b"] = "a/b"
  ∧ parsePath (jsJoin [Seg.str "a/b"]) = [Seg.str "a", Seg.str "/b"]
  ∧ parsePath (jsJoin [Seg.str "a/b"]) ≠ [Seg.str "a/b"] := by
  refine ⟨rfl, by decide, by decide⟩

/-- Round-trip of the address encoding for unambiguous segments (helper). -/
theorem parsePath_jsJoin (segs : List Seg)
    (h : ∀ s ∈ segs, segOk s = true) :
    parsePath (jsJoin segs) = segs := by
  unfold parsePath
  rw [parseAux_join segs h, List.map_map]
  have hcongr : ∀ s ∈ segs, (convertPart ∘ Seg.jsToString) s = id s :=
    fun s hs => convertPart_render s (h s hs)
  rw [List.map_congr_left hcongr, List.map_id]

/-- C3 (amended): decoding the dot-joined encoding restores the original
segment list exactly, for every segment list whose segments each encode
unambiguously: numbers; path-shaped keys (leading `/`, no embedded `.`) —
in particular literal keys such as `/users/{id}`; and plain keys that are
nonempty and contain no `.`, no `/`, and are not the canonical decimal
rendering of an integer. -/
theorem C3_amended_roundtrip (segs : List Seg)
    (h : ∀ s ∈ segs, segOk s = true) :
    parsePath (jsJoin segs) = segs :=
  parsePath_jsJoin segs h

theorem C3_amended_witness :
    parsePath (jsJoin [Seg.str "paths", Seg.str "/users/{id}", Seg.str "get",
      Seg.str "parameters", Seg.num 0, Seg.str "description"]) =
    [Seg.str "paths", Seg.str "/users/{id}", Seg.str "get",
      Seg.str "parameters", Seg.num 0, Seg.str "description"] :=
  C3_amended_roundtrip _ (by decide)

def b8 : Node :=
  .obj [("info", some (.obj [("description", some (.str "v1")),
    ("contact", some (.str "a"))]))]

def l8 : Node :=
  .obj [("info", some (.obj [("description", some (.str "v1")),
    ("contact", some (.str "b"))]))]

def r8 : Node :=
  .obj [("info", some (.obj [("description", some (.str "v2")),
    ("contact", some (.str "a"))]))]

def m8 : Node :=
  .obj [("info", some (.obj [("description", some (.str "v2")),
    ("contact", some (.str "b"))]))]

def d8 : ChangeRecord :=
  { path := "info.description", kind := 'E', oldValue := some (.str "v1"),
    newValue := some (.str "v2"), direction := BIDIRECTIONAL,
    reason := "Enrichment field: info.description", hasConflict := false }

/-- C8 counterexample: baseline/local/remote differ only at enrichment
addresses (`info.description` changed remotely, `info.contact` changed
locally).  The merge of the one `safeToSync` change onto local succeeds with
nothing skipped, yet re-running the diff and classification of
(mergedDocument, sameRemote) yields a *non-empty* `safeToSync` set: the local
`info.contact` divergence reappears as a safe change. -/
theorem C8_counterexample :
    (detectChanges true b8 l8 r8).safeToSync = [d8]
  ∧ (mergeSpecs "spec-wins" l8 r8 (detectChanges true b8 l8 r8).safeToSync).skipped = []
  ∧ (mergeSpecs "spec-wins" l8 r8 (detectChanges true b8 l8 r8).safeToSync).spec = m8
  ∧ (detectChanges true m8 m8 r8).safeToSync.length = 1 := by
  have hd1 : deepDiff (some b8) (some r8) [] =
      [⟨'E', [.str "info", .str "description"], some (.str "v1"), some (.str "v2")⟩] := by
    simp [b8, r8, deepDiff, diffObjKeys, jsSetDedup, jsSetDedupAux, jsKeys,
      jsLookup, jsStrictEq, diffKind]
  have hd2 : deepDiff (some b8) (some l8) [] =
      [⟨'E', [.str "info", .str "contact"], some (.str "a"), some (.str "b")⟩] := by
    simp [b8, l8, deepDiff, diffObjKeys, jsSetDedup, jsSetDedupAux, jsKeys,
      jsLookup, jsStrictEq, diffKind]
  have h1 : detectChanges true b8 l8 r8 = ⟨[d8], [], [], []⟩ := by
    unfold detectChanges
    rw [hd1, hd2]
    rfl
  have hd3 : deepDiff (some m8) (some r8) [] =
      [⟨'E', [.str "info", .str "contact"], some (.str "b"), some (.str "a")⟩] := by
    simp [m8, r8, deepDiff, diffObjKeys, jsSetDedup, jsSetDedupAux, jsKeys,
      jsLookup, jsStrictEq, diffKind]
  have h2 : detectChanges true m8 m8 r8 =
      ⟨[{ path := "info.contact", kind := 'E', oldValue := some (.str "b"),
          newValue := some (.str "a"), direction := BIDIRECTIONAL,
          reason := "Enrichment field: info.contact", hasConflict := false }],
        [], [], []⟩ := by
    unfold detectChanges
    rw [hd3, deepDiff_self]
    rfl
  refine ⟨?_, ?_, ?_, ?_⟩
  · rw [h1]
  · rw [h1]
    rfl
  · rw [h1]
    rfl
  · rw [h2]
    rfl


/-- Prefix a diff edit's path. -/
def shiftEdit (path : List Seg) (e : DiffEdit) : DiffEdit :=
  { e with path := path ++ e.path }

mutual

theorem deepDiff_path_shift (b r : Option Node) (p q : List Seg) :
    deepDiff b r (p ++ q) = (deepDiff b r q).map (shiftEdit p) := by
  rcases b with _ | u <;> rcases r with _ | v
  all_goals try cases u
  all_goals try cases v
  all_goals
    first
    | (rw [deepDiff, deepDiff]
       simp only [jsStrictEq, Bool.false_eq_true, if_false]
       first
       | (rw [diffArr_path_shift _ _ p q 0]) 
       | (rw [diffObjKeys_path_shift _ _ _ p q]))
    | (simp only [deepDiff, jsStrictEq]
       split_ifs <;> simp [shiftEdit])
    | simp [deepDiff, jsStrictEq, shiftEdit]
termination_by (sizeOf b + sizeOf r, 0)

theorem diffArr_path_shift (xs ys : List (Option Node)) (p q : List Seg) (i : Nat) :
    diffArr xs ys (p ++ q) i = (diffArr xs ys q i).map (shiftEdit p) := by
  match xs, ys with
  | [], [] => rw [diffArr, diffArr]; rfl
  | x :: xr, [] =>
    rw [diffArr, diffArr, List.append_assoc,
      deepDiff_path_shift x none p,
      diffArr_path_shift xr [] p q (i + 1)]
    simp
  | [], y :: yr =>
    rw [diffArr, diffArr, List.append_assoc,
      deepDiff_path_shift none y p,
      diffArr_path_shift [] yr p q (i + 1)]
    simp
  | x :: xr, y :: yr =>
    rw [diffArr, diffArr, List.append_assoc,
      deepDiff_path_shift x y p,
      diffArr_path_shift xr yr p q (i + 1)]
    simp
termination_by (sizeOf xs + sizeOf ys, 0)

theorem diffObjKeys_path_shift (bf cf : List (String × Option Node))
    (keys : List String) (p q : List Seg) :
    diffObjKeys bf cf keys (p ++ q) = (diffObjKeys bf cf keys q).map (shiftEdit p) := by
  match keys with
  | [] => rw [diffObjKeys, diffObjKeys]; rfl
  | k :: rest =>
    rw [diffObjKeys, diffObjKeys, List.append_assoc,
      deepDiff_path_shift (jsLookup bf k) (jsLookup cf k) p,
      diffObjKeys_path_shift bf cf rest p q]
    simp
termination_by (sizeOf bf + sizeOf cf, keys.length + 1)
decreasing_by
  · have h1 := jsLookup_sizeOf_le bf k
    have h2 := jsLookup_sizeOf_le cf k
    rcases Nat.lt_or_ge (sizeOf (jsLookup bf k) + sizeOf (jsLookup cf k))
        (sizeOf bf + sizeOf cf) with h | h
    · exact Prod.Lex.left _ _ h
    · have he : sizeOf (jsLookup bf k) + sizeOf (jsLookup cf k) =
          sizeOf bf + sizeOf cf := by omega
      rw [he]
      exact Prod.Lex.right _ (by omega)
  · exact Prod.Lex.right _ (by simp [List.length_cons])

end

/-! ## Well-formed documents and total edit application (verification artifacts) -/

mutual

/-- A well-formed JSON document: arrays have no holes, objects have no
`undefined` members, keys are pairwise distinct, and every key encodes
unambiguously in a dot-joined address (`segOk`). -/
def nodeOk : Node → Bool
  | .null => true
  | .bool _ => true
  | .num _ => true
  | .str _ => true
  | .arr xs => nodeOkArr xs
  | .obj fs => nodeOkObj fs

def nodeOkArr : List (Option Node) → Bool
  | [] => true
  | none :: _ => false
  | some v :: r => nodeOk v && nodeOkArr r

def nodeOkObj : List (String × Option Node) → Bool
  | [] => true
  | (_, none) :: _ => false
  | (k, some v) :: r =>
    segOk (.str k) && !((jsKeys r).contains k) && nodeOk v && nodeOkObj r

end

/-- Apply a list of diff edits to a document in order, skipping any edit whose
application throws (the per-edit `try`/`catch` of `mergeSpecs`, at the level of
segment paths). -/
def applyDiffs (doc : Node) : List DiffEdit → Node
  | [] => doc
  | e :: rest =>
    match applyWalk doc e.path e.kind e.rhs with
    | .ok m => applyDiffs m rest
    | .error _ => applyDiffs doc rest

/-- No edit of the list throws when applied in order. -/
def noFail (doc : Node) : List DiffEdit → Bool
  | [] => true
  | e :: rest =>
    match applyWalk doc e.path e.kind e.rhs with
    | .ok m => noFail m rest
    | .error _ => false

/-- Apply a list of change records in order, skipping failures (the document
component of the `mergeSpecs` fold). -/
def applyList (doc : Node) : List ChangeRecord → Node
  | [] => doc
  | c :: rest =>
    match applyChange doc c with
    | .ok m => applyList m rest
    | .error _ => applyList doc rest

/-- No record of the list throws when applied in order. -/
def noFailRec (doc : Node) : List ChangeRecord → Bool
  | [] => true
  | c :: rest =>
    match applyChange doc c with
    | .ok m => noFailRec m rest
    | .error _ => false

theorem applyDiffs_append (l1 l2 : List DiffEdit) :
    ∀ doc, applyDiffs doc (l1 ++ l2) = applyDiffs (applyDiffs doc l1) l2 := by
  induction l1 with
  | nil => intro doc; rfl
  | cons e r ih =>
    intro doc
    simp only [List.cons_append, applyDiffs]
    rcases applyWalk doc e.path e.kind e.rhs with _ | m
    · exact ih doc
    · exact ih m

theorem noFail_append (l1 l2 : List DiffEdit) :
    ∀ doc, noFail doc (l1 ++ l2) =
      (noFail doc l1 && noFail (applyDiffs doc l1) l2) := by
  induction l1 with
  | nil => intro doc; rfl
  | cons e r ih =>
    intro doc
    simp only [List.cons_append, noFail, applyDiffs]
    rcases applyWalk doc e.path e.kind e.rhs with _ | m
    · rfl
    · exact ih m

/-- `l.contains s` decides membership. -/
theorem containsStr_iff (l : List String) (s : String) :
    l.contains s = true ↔ s ∈ l := by
  induction l with
  | nil => simp
  | cons a r ih => simp [List.contains_cons, ih]

theorem jsLookup_objSet_self (fs : List (String × Option Node)) (k : String)
    (v : Option Node) : jsLookup (jsObjSet fs k v) k = v := by
  induction fs with
  | nil => simp [jsObjSet, jsLookup]
  | cons p r ih =>
    by_cases h : p.1 = k
    · simp [jsObjSet, h, jsLookup]
    · simp [jsObjSet, h, jsLookup, ih]

theorem jsLookup_objSet_other (fs : List (String × Option Node)) (k k' : String)
    (v : Option Node) (h : k' ≠ k) :
    jsLookup (jsObjSet fs k v) k' = jsLookup fs k' := by
  have hne : k ≠ k' := fun hh => h hh.symm
  induction fs with
  | nil => simp [jsObjSet, jsLookup, hne]
  | cons p r ih =>
    by_cases hp : p.1 = k
    · simp [jsObjSet, hp, jsLookup, hne]
    · by_cases hp' : p.1 = k'
      · simp [jsObjSet, hp, jsLookup, hp', h]
      · simp [jsObjSet, hp, jsLookup, hp', ih]

theorem jsLookup_objDelete_other (fs : List (String × Option Node)) (k k' : String)
    (h : k' ≠ k) :
    jsLookup (jsObjDelete fs k) k' = jsLookup fs k' := by
  have hne : k ≠ k' := fun hh => h hh.symm
  induction fs with
  | nil => simp [jsObjDelete, jsLookup]
  | cons p r ih =>
    by_cases hp : p.1 = k
    · simp [jsObjDelete, hp, jsLookup, hne]
    · by_cases hp' : p.1 = k'
      · simp [jsObjDelete, hp, jsLookup, hp', h]
      · simp [jsObjDelete, hp, jsLookup, hp', ih]

theorem jsObjSet_objSet (fs : List (String × Option Node)) (k : String)
    (v w : Option Node) : jsObjSet (jsObjSet fs k v) k w = jsObjSet fs k w := by
  induction fs with
  | nil => simp [jsObjSet]
  | cons p r ih =>
    by_cases h : p.1 = k
    · simp [jsObjSet, h]
    · simp [jsObjSet, h, ih]

theorem jsObjSet_lookup_id (fs : List (String × Option Node)) (k : String)
    (c : Node) (h : jsLookup fs k = some c) :
    jsObjSet fs k (some c) = fs := by
  induction fs with
  | nil => simp [jsLookup] at h
  | cons p r ih =>
    by_cases hp : p.1 = k
    · simp only [jsLookup, if_pos hp] at h
      simp only [jsObjSet, if_pos hp]
      rw [← h]
    · simp only [jsLookup, if_neg hp] at h
      simp [jsObjSet, hp, ih h]

theorem jsKeys_objSet_mem (fs : List (String × Option Node)) (k : String)
    (v : Option Node) (h : k ∈ jsKeys fs) :
    jsKeys (jsObjSet fs k v) = jsKeys fs := by
  induction fs with
  | nil => simp [jsKeys] at h
  | cons p r ih =>
    by_cases hp : p.1 = k
    · simp [jsObjSet, hp, jsKeys]
    · simp only [jsKeys, List.map_cons, List.mem_cons] at h
      rcases h with h | h
      · exact absurd h.symm hp
      · simp [jsObjSet, hp, jsKeys]
        exact ih h

theorem jsKeys_objSet_absent (fs : List (String × Option Node)) (k : String)
    (v : Option Node) (h : k ∉ jsKeys fs) :
    jsKeys (jsObjSet fs k v) = jsKeys fs ++ [k] := by
  induction fs with
  | nil => simp [jsObjSet, jsKeys]
  | cons p r ih =>
    simp only [jsKeys, List.map_cons, List.mem_cons] at h
    push_neg at h
    have hp : p.1 ≠ k := fun hh => h.1 hh.symm
    simp [jsObjSet, hp, jsKeys]
    exact ih h.2

theorem jsKeys_objDelete_sublist (fs : List (String × Option Node)) (k : String) :
    (jsKeys (jsObjDelete fs k)).Sublist (jsKeys fs) := by
  induction fs with
  | nil => simp [jsObjDelete, jsKeys]
  | cons p r ih =>
    by_cases hp : p.1 = k
    · simp only [jsObjDelete, if_pos hp, jsKeys, List.map_cons]
      exact List.sublist_cons_of_sublist _ (List.Sublist.refl _)
    · simp only [jsObjDelete, if_neg hp, jsKeys, List.map_cons]
      exact List.Sublist.cons₂ _ ih

theorem jsObjDelete_absent_id (fs : List (String × Option Node)) (k : String)
    (h : k ∉ jsKeys fs) : jsObjDelete fs k = fs := by
  induction fs with
  | nil => rfl
  | cons p r ih =>
    simp only [jsKeys, List.map_cons, List.mem_cons] at h
    push_neg at h
    have hp : p.1 ≠ k := fun hh => h.1 hh.symm
    simp [jsObjDelete, hp, ih h.2]

/-- Absence from the key list means the lookup is `undefined`. -/
theorem jsLookup_absent (fs : List (String × Option Node)) (k : String)
    (h : k ∉ jsKeys fs) : jsLookup fs k = none := by
  induction fs with
  | nil => rfl
  | cons p r ih =>
    simp only [jsKeys, List.map_cons, List.mem_cons] at h
    push_neg at h
    have hp : p.1 ≠ k := fun hh => h.1 hh.symm
    simp [jsLookup, hp, ih h.2]

theorem jsLookup_objDelete_self (fs : List (String × Option Node)) (k : String)
    (hnd : (jsKeys fs).Nodup) :
    jsLookup (jsObjDelete fs k) k = none := by
  induction fs with
  | nil => simp [jsObjDelete, jsLookup]
  | cons p r ih =>
    simp only [jsKeys, List.map_cons, List.nodup_cons] at hnd
    by_cases hp : p.1 = k
    · simp only [jsObjDelete, if_pos hp]
      subst hp
      exact jsLookup_absent r p.1 (by simpa [jsKeys] using hnd.1)
    · simp only [jsObjDelete, if_neg hp, jsLookup, if_neg hp]
      exact ih hnd.2

/-! ### Array cell operations -/

theorem listGet_append_cons (front : List (Option Node)) (x : Option Node)
    (xr : List (Option Node)) :
    (front ++ x :: xr).get? front.length = some x := by
  induction front with
  | nil => rfl
  | cons a r ih => simpa using ih

theorem listSetPad_append_cons (front : List (Option Node)) (x v : Option Node)
    (xr : List (Option Node)) :
    listSetPad (front ++ x :: xr) front.length v = front ++ v :: xr := by
  induction front with
  | nil => rfl
  | cons a r ih =>
    show a :: listSetPad (r ++ x :: xr) r.length v = (a :: r) ++ v :: xr
    rw [ih]
    rfl

theorem listDeleteHole_append_cons (front : List (Option Node)) (x : Option Node)
    (xr : List (Option Node)) :
    listDeleteHole (front ++ x :: xr) front.length = front ++ none :: xr := by
  induction front with
  | nil => rfl
  | cons a r ih =>
    show a :: listDeleteHole (r ++ x :: xr) r.length = (a :: r) ++ none :: xr
    rw [ih]
    rfl

theorem listSetPad_extend (front : List (Option Node)) (i : Nat) (v : Option Node)
    (h : front.length ≤ i) :
    listSetPad front i v =
      front ++ List.replicate (i - front.length) none ++ [v] := by
  induction front generalizing i with
  | nil =>
    induction i with
    | zero => rfl
    | succ j ihj =>
      simp only [listSetPad]
      rw [ihj (Nat.zero_le _)]
      simp [List.replicate_succ]
  | cons a r ih =>
    match i, h with
    | Nat.succ j, h =>
      simp only [listSetPad, List.length_cons]
      rw [ih j (Nat.le_of_succ_le_succ h)]
      simp

/-! ### Deduplicated key lists -/

theorem jsSetDedupAux_mem (l : List String) :
    ∀ seen k, k ∈ jsSetDedupAux l seen ↔ k ∈ l ∧ k ∉ seen := by
  induction l with
  | nil => intro seen k; simp [jsSetDedupAux]
  | cons a r ih =>
    intro seen k
    by_cases ha : seen.contains a
    · simp only [jsSetDedupAux, if_pos ha, ih, List.mem_cons]
      constructor
      · exact fun ⟨h1, h2⟩ => ⟨Or.inr h1, h2⟩
      · rintro ⟨h1 | h1, h2⟩
        · subst h1; exact absurd ((containsStr_iff _ _).mp ha) h2
        · exact ⟨h1, h2⟩
    · simp only [jsSetDedupAux, if_neg ha, List.mem_cons, ih]
      constructor
      · rintro (rfl | ⟨h1, h2⟩)
        · refine ⟨Or.inl rfl, fun hk => ?_⟩
          exact ha ((containsStr_iff _ _).mpr hk)
        · simp only [List.mem_append, List.mem_singleton] at h2
          push_neg at h2
          exact ⟨Or.inr h1, h2.1⟩
      · rintro ⟨rfl | h1, h2⟩
        · exact Or.inl rfl
        · by_cases hk : k = a
          · exact Or.inl hk
          · refine Or.inr ⟨h1, ?_⟩
            simp [List.mem_append, h2, hk]

theorem jsSetDedup_mem (l : List String) (k : String) :
    k ∈ jsSetDedup l ↔ k ∈ l := by
  unfold jsSetDedup
  rw [jsSetDedupAux_mem]
  simp

theorem jsSetDedupAux_nodup (l : List String) :
    ∀ seen, (jsSetDedupAux l seen).Nodup := by
  induction l with
  | nil => intro seen; simp [jsSetDedupAux]
  | cons a r ih =>
    intro seen
    by_cases ha : seen.contains a
    · simp only [jsSetDedupAux, if_pos ha]
      exact ih seen
    · simp only [jsSetDedupAux, if_neg ha, List.nodup_cons]
      refine ⟨fun hmem => ?_, ih _⟩
      have := (jsSetDedupAux_mem r _ a).mp hmem
      simp [List.mem_append] at this

theorem jsSetDedup_nodup (l : List String) : (jsSetDedup l).Nodup :=
  jsSetDedupAux_nodup l []

/-! ### Well-formedness consequences -/

theorem nodeOkObj_keys_nodup (fs : List (String × Option Node))
    (h : nodeOkObj fs = true) : (jsKeys fs).Nodup := by
  induction fs with
  | nil => simp [jsKeys]
  | cons p r ih =>
    obtain ⟨k, v⟩ := p
    cases v with
    | none => simp [nodeOkObj] at h
    | some w =>
      simp only [nodeOkObj, Bool.and_eq_true, Bool.not_eq_true'] at h
      simp only [jsKeys, List.map_cons, List.nodup_cons]
      refine ⟨fun hmem => ?_, ih h.2⟩
      have := (containsStr_iff (jsKeys r) k).mpr hmem
      rw [h.1.1.2] at this
      exact Bool.false_ne_true this

theorem nodeOkObj_lookup_ok (fs : List (String × Option Node))
    (h : nodeOkObj fs = true) (k : String) (v : Node)
    (hl : jsLookup fs k = some v) : nodeOk v = true := by
  induction fs with
  | nil => simp [jsLookup] at hl
  | cons p r ih =>
    obtain ⟨k', w⟩ := p
    cases w with
    | none => simp [nodeOkObj] at h
    | some u =>
      simp only [nodeOkObj, Bool.and_eq_true] at h
      by_cases hk : k' = k
      · simp only [jsLookup, if_pos hk] at hl
        cases hl
        exact h.1.2
      · simp only [jsLookup, if_neg hk] at hl
        exact ih h.2 hl

theorem nodeOkObj_lookup_none (fs : List (String × Option Node))
    (h : nodeOkObj fs = true) (k : String)
    (hl : jsLookup fs k = none) : k ∉ jsKeys fs := by
  induction fs with
  | nil => simp [jsKeys]
  | cons p r ih =>
    obtain ⟨k', w⟩ := p
    cases w with
    | none => simp [nodeOkObj] at h
    | some u =>
      simp only [nodeOkObj, Bool.and_eq_true] at h
      by_cases hk : k' = k
      · simp [jsLookup, if_pos hk] at hl
      · simp only [jsLookup, if_neg hk] at hl
        simp only [jsKeys, List.map_cons, List.mem_cons]
        push_neg
        exact ⟨fun hh => hk hh.symm, ih h.2 hl⟩

theorem nodeOkObj_key_segOk (fs : List (String × Option Node))
    (h : nodeOkObj fs = true) (k : String) (hk : k ∈ jsKeys fs) :
    segOk (.str k) = true := by
  induction fs with
  | nil => simp [jsKeys] at hk
  | cons p r ih =>
    obtain ⟨k', w⟩ := p
    cases w with
    | none => simp [nodeOkObj] at h
    | some u =>
      simp only [nodeOkObj, Bool.and_eq_true] at h
      simp only [jsKeys, List.map_cons, List.mem_cons] at hk
      rcases hk with rfl | hk
      · exact h.1.1.1
      · exact ih h.2 hk

theorem nodeOkObj_mem_lookup (fs : List (String × Option Node))
    (h : nodeOkObj fs = true) (k : String) (hk : k ∈ jsKeys fs) :
    ∃ v, jsLookup fs k = some v := by
  rcases hl : jsLookup fs k with _ | v
  · exact absurd hk (nodeOkObj_lookup_none fs h k hl)
  · exact ⟨v, rfl⟩

/-- Members of the key-loop diff are members of some key's child diff. -/
theorem diffObjKeys_mem (bf cf : List (String × Option Node))
    (keys : List String) (path : List Seg) (e : DiffEdit) :
    e ∈ diffObjKeys bf cf keys path ↔
      ∃ k ∈ keys, e ∈ deepDiff (jsLookup bf k) (jsLookup cf k) (path ++ [.str k]) := by
  induction keys with
  | nil => simp [diffObjKeys]
  | cons k rest ih =>
    rw [diffObjKeys]
    simp only [List.mem_append, ih, List.mem_cons]
    constructor
    · rintro (h | ⟨k', h1, h2⟩)
      · exact ⟨k, Or.inl rfl, h⟩
      · exact ⟨k', Or.inr h1, h2⟩
    · rintro ⟨k', rfl | h1, h2⟩
      · exact Or.inl h2
      · exact Or.inr ⟨k', h1, h2⟩

/-! ## The denotational merge (`graft`): the document obtained by applying a
selected subset of the `deepDiff` edits to the base.  `sel` is consulted on
exactly the edit `deepDiff` would emit at each differing position. -/

/-- Install one grafted member: a value is set in place (or appended if new),
`undefined` is deleted. -/
def graftField (fs : List (String × Option Node)) (k : String) :
    Option Node → List (String × Option Node)
  | some w => jsObjSet fs k (some w)
  | none => jsObjDelete fs k

mutual

/-- The value at `path` after applying the `sel`-selected subset of
`deepDiff base compare path` to `base`. -/
def graft (sel : DiffEdit → Bool) (base compare : Option Node) (path : List Seg) :
    Option Node :=
  if jsStrictEq base compare then base
  else
    match base, compare with
    | some (.arr xs), some (.arr ys) => some (.arr (graftArr sel xs ys path 0))
    | some (.obj bf), some (.obj cf) =>
      some (.obj (graftObjGo sel bf cf (jsSetDedup (jsKeys bf ++ jsKeys cf)) bf path))
    | _, _ => if sel ⟨diffKind base compare, path, base, compare⟩ then compare else base
termination_by (sizeOf base + sizeOf compare, 0)

/-- Array slots after the selected edits: in the regime where the base array
has ended, unwritten trailing slots do not exist (`listSetPad` only pads up to
the last written index), so an all-`none` tail is truncated. -/
def graftArr (sel : DiffEdit → Bool) (xs ys : List (Option Node)) (path : List Seg)
    (i : Nat) : List (Option Node) :=
  match xs, ys with
  | [], [] => []
  | x :: xr, [] =>
    graft sel x none (path ++ [.num i]) :: graftArr sel xr [] path (i + 1)
  | [], y :: yr =>
    let gv := graft sel none y (path ++ [.num i])
    let tl := graftArr sel [] yr path (i + 1)
    if gv.isNone && tl.isEmpty then [] else gv :: tl
  | x :: xr, y :: yr =>
    graft sel x y (path ++ [.num i]) :: graftArr sel xr yr path (i + 1)
termination_by (sizeOf xs + sizeOf ys, 0)

/-- Object fields after the selected edits, processing the key list in order. -/
def graftObjGo (sel : DiffEdit → Bool) (bf cf : List (String × Option Node))
    (keys : List String) (fs : List (String × Option Node)) (path : List Seg) :
    List (String × Option Node) :=
  match keys with
  | [] => fs
  | k :: rest =>
    graftObjGo sel bf cf rest
      (graftField fs k (graft sel (jsLookup bf k) (jsLookup cf k) (path ++ [.str k])))
      path
termination_by (sizeOf bf + sizeOf cf, keys.length + 1)
decreasing_by
  · have h1 := jsLookup_sizeOf_le bf k
    have h2 := jsLookup_sizeOf_le cf k
    rcases Nat.lt_or_ge (sizeOf (jsLookup bf k) + sizeOf (jsLookup cf k))
        (sizeOf bf + sizeOf cf) with h | h
    · exact Prod.Lex.left _ _ h
    · have he : sizeOf (jsLookup bf k) + sizeOf (jsLookup cf k) =
          sizeOf bf + sizeOf cf := by omega
      rw [he]
      exact Prod.Lex.right _ (by omega)
  · exact Prod.Lex.right _ (by simp [List.length_cons])

end

mutual

theorem graft_path_shift (sel : DiffEdit → Bool) (b r : Option Node)
    (p q : List Seg) :
    graft sel b r (p ++ q) = graft (fun e => sel (shiftEdit p e)) b r q := by
  rcases b with _ | u <;> rcases r with _ | v
  all_goals try cases u
  all_goals try cases v
  all_goals
    first
    | (rw [graft, graft]
       simp only [jsStrictEq, Bool.false_eq_true, if_false]
       first
       | (rw [graftArr_path_shift sel _ _ p q 0])
       | (rw [graftObjGo_path_shift sel _ _ _ _ p q]))
    | (simp only [graft, jsStrictEq, shiftEdit]
       split_ifs <;> rfl)
    | simp [graft, jsStrictEq, shiftEdit]
termination_by (sizeOf b + sizeOf r, 0)

theorem graftArr_path_shift (sel : DiffEdit → Bool) (xs ys : List (Option Node))
    (p q : List Seg) (i : Nat) :
    graftArr sel xs ys (p ++ q) i =
      graftArr (fun e => sel (shiftEdit p e)) xs ys q i := by
  match xs, ys with
  | [], [] => rw [graftArr, graftArr]
  | x :: xr, [] =>
    rw [graftArr, graftArr, List.append_assoc, graft_path_shift sel x none p,
      graftArr_path_shift sel xr [] p q (i + 1)]
  | [], y :: yr =>
    rw [graftArr, graftArr, List.append_assoc, graft_path_shift sel none y p,
      graftArr_path_shift sel [] yr p q (i + 1)]
  | x :: xr, y :: yr =>
    rw [graftArr, graftArr, List.append_assoc, graft_path_shift sel x y p,
      graftArr_path_shift sel xr yr p q (i + 1)]
termination_by (sizeOf xs + sizeOf ys, 0)

theorem graftObjGo_path_shift (sel : DiffEdit → Bool)
    (bf cf : List (String × Option Node)) (keys : List String)
    (fs : List (String × Option Node)) (p q : List Seg) :
    graftObjGo sel bf cf keys fs (p ++ q) =
      graftObjGo (fun e => sel (shiftEdit p e)) bf cf keys fs q := by
  match keys with
  | [] => rw [graftObjGo, graftObjGo]
  | k :: rest =>
    rw [graftObjGo, graftObjGo, List.append_assoc,
      graft_path_shift sel (jsLookup bf k) (jsLookup cf k) p,
      graftObjGo_path_shift sel bf cf rest _ p q]
termination_by (sizeOf bf + sizeOf cf, keys.length + 1)
decreasing_by
  · have h1 := jsLookup_sizeOf_le bf k
    have h2 := jsLookup_sizeOf_le cf k
    rcases Nat.lt_or_ge (sizeOf (jsLookup bf k) + sizeOf (jsLookup cf k))
        (sizeOf bf + sizeOf cf) with h | h
    · exact Prod.Lex.left _ _ h
    · have he : sizeOf (jsLookup bf k) + sizeOf (jsLookup cf k) =
          sizeOf bf + sizeOf cf := by omega
      rw [he]
      exact Prod.Lex.right _ (by omega)
  · exact Prod.Lex.right _ (by simp [List.length_cons])

end

/-! ## Factoring an edit group through one object field / array slot -/

theorem applyDiffs_obj_factor (childEs : List DiffEdit) :
    ∀ (fs : List (String × Option Node)) (k : String) (c0 : Node),
      jsLookup fs k = some c0 →
      (∀ e ∈ childEs, e.path ≠ []) →
      applyDiffs (.obj fs) (childEs.map (shiftEdit [.str k])) =
          .obj (jsObjSet fs k (some (applyDiffs c0 childEs)))
        ∧ noFail (.obj fs) (childEs.map (shiftEdit [.str k])) =
            noFail c0 childEs := by
  induction childEs with
  | nil =>
    intro fs k c0 hl _
    refine ⟨?_, rfl⟩
    simp [applyDiffs, jsObjSet_lookup_id fs k c0 hl]
  | cons e rest ih =>
    intro fs k c0 hl hne
    have hep : e.path ≠ [] := hne e (List.mem_cons_self _ _)
    have hner : ∀ x ∈ rest, x.path ≠ [] := fun x hx => hne x (List.mem_cons_of_mem _ hx)
    rcases hp : e.path with _ | ⟨a, tail⟩
    · exact absurd hp hep
    have hshift : (shiftEdit [Seg.str k] e).path = .str k :: a :: tail := by
      simp [shiftEdit, hp]
    have hwalk : applyWalk (.obj fs) ((shiftEdit [Seg.str k] e).path) e.kind e.rhs =
        match applyWalk c0 e.path e.kind e.rhs with
        | .error err => .error err
        | .ok r => jsWrite (.obj fs) (.str k) (some r) := by
      rw [hshift, hp]
      show ((match jsRead (.obj fs) (.str k) with
        | .error err => Except.error err
        | .ok (some child) =>
          match applyWalk child (a :: tail) e.kind e.rhs with
          | .error err => Except.error err
          | .ok r => jsWrite (.obj fs) (.str k) (some r)
        | .ok none =>
          match jsWrite (.obj fs) (.str k)
              (some (match (a :: tail).head? with
                      | some (Seg.num _) => Node.arr []
                      | _ => Node.obj [])) with
          | .error err => Except.error err
          | .ok _ =>
            match applyWalk (match (a :: tail).head? with
                      | some (Seg.num _) => Node.arr []
                      | _ => Node.obj []) (a :: tail) e.kind e.rhs with
            | .error err => Except.error err
            | .ok r => jsWrite (.obj fs) (.str k)
                (some r)) : Except String Node) = _
      rw [show jsRead (.obj fs) (.str k) = .ok (some c0) by
        simp [jsRead, segKeyStr, hl]]
    rcases hc : applyWalk c0 e.path e.kind e.rhs with err | c1
    · have hwalk' : applyWalk (.obj fs) ((shiftEdit [Seg.str k] e).path)
          ((shiftEdit [Seg.str k] e).kind) ((shiftEdit [Seg.str k] e).rhs) =
          .error err := by
        show applyWalk (.obj fs) ((shiftEdit [Seg.str k] e).path) e.kind e.rhs = _
        rw [hwalk, hc]
      have e1 : applyDiffs (.obj fs) ((e :: rest).map (shiftEdit [Seg.str k])) =
          applyDiffs (.obj fs) (rest.map (shiftEdit [Seg.str k])) := by
        simp only [List.map_cons, applyDiffs]
        rw [hwalk']
      have e2 : noFail (.obj fs) ((e :: rest).map (shiftEdit [Seg.str k])) = false := by
        simp only [List.map_cons, noFail]
        rw [hwalk']
      have e3 : applyDiffs c0 (e :: rest) = applyDiffs c0 rest := by
        simp only [applyDiffs]
        rw [hc]
      have e4 : noFail c0 (e :: rest) = false := by
        simp only [noFail]
        rw [hc]
      rw [e1, e2, e3, e4]
      exact ⟨(ih fs k c0 hl hner).1, rfl⟩
    · have hl1 : jsLookup (jsObjSet fs k (some c1)) k = some c1 :=
        jsLookup_objSet_self fs k (some c1)
      have hwalk' : applyWalk (.obj fs) ((shiftEdit [Seg.str k] e).path)
          ((shiftEdit [Seg.str k] e).kind) ((shiftEdit [Seg.str k] e).rhs) =
          .ok (.obj (jsObjSet fs k (some c1))) := by
        show applyWalk (.obj fs) ((shiftEdit [Seg.str k] e).path) e.kind e.rhs = _
        rw [hwalk, hc]
        rfl
      have e1 : applyDiffs (.obj fs) ((e :: rest).map (shiftEdit [Seg.str k])) =
          applyDiffs (.obj (jsObjSet fs k (some c1))) (rest.map (shiftEdit [Seg.str k])) := by
        simp only [List.map_cons, applyDiffs]
        rw [hwalk']
      have e2 : noFail (.obj fs) ((e :: rest).map (shiftEdit [Seg.str k])) =
          noFail (.obj (jsObjSet fs k (some c1))) (rest.map (shiftEdit [Seg.str k])) := by
        simp only [List.map_cons, noFail]
        rw [hwalk']
      have e3 : applyDiffs c0 (e :: rest) = applyDiffs c1 rest := by
        simp only [applyDiffs]
        rw [hc]
      have e4 : noFail c0 (e :: rest) = noFail c1 rest := by
        simp only [noFail]
        rw [hc]
      rw [e1, e2, e3, e4]
      have h1 := ih (jsObjSet fs k (some c1)) k c1 hl1 hner
      exact ⟨by rw [h1.1, jsObjSet_objSet], h1.2⟩

theorem applyDiffs_arr_factor (childEs : List DiffEdit) :
    ∀ (front : List (Option Node)) (cx : Node) (xr : List (Option Node)),
      (∀ e ∈ childEs, e.path ≠ []) →
      applyDiffs (.arr (front ++ some cx :: xr))
          (childEs.map (shiftEdit [.num front.length])) =
          .arr (front ++ some (applyDiffs cx childEs) :: xr)
        ∧ noFail (.arr (front ++ some cx :: xr))
            (childEs.map (shiftEdit [.num front.length])) = noFail cx childEs := by
  induction childEs with
  | nil =>
    intro front cx xr _
    exact ⟨rfl, rfl⟩
  | cons e rest ih =>
    intro front cx xr hne
    have hep : e.path ≠ [] := hne e (List.mem_cons_self _ _)
    have hner : ∀ x ∈ rest, x.path ≠ [] := fun x hx => hne x (List.mem_cons_of_mem _ hx)
    rcases hp : e.path with _ | ⟨a, tail⟩
    · exact absurd hp hep
    have hshift : (shiftEdit [Seg.num front.length] e).path =
        .num front.length :: a :: tail := by
      simp [shiftEdit, hp]
    have hread : jsRead (.arr (front ++ some cx :: xr)) (.num front.length) =
        .ok (some cx) := by
      show Except.ok (if (front.length : Int) < 0 then none
        else (((front ++ some cx :: xr).get? (front.length : Int).toNat).join)) =
        Except.ok (some cx)
      rw [if_neg (by omega), show ((front.length : Int)).toNat = front.length by omega,
        listGet_append_cons]
      rfl
    have hwrite : ∀ v, jsWrite (.arr (front ++ some cx :: xr)) (.num front.length)
        (some v) = .ok (.arr (front ++ some v :: xr)) := by
      intro v
      show (if (front.length : Int) < 0 then Except.ok (Node.arr (front ++ some cx :: xr))
        else Except.ok (Node.arr (listSetPad (front ++ some cx :: xr)
          (front.length : Int).toNat (some v)))) = _
      rw [if_neg (by omega), show ((front.length : Int)).toNat = front.length by omega,
        listSetPad_append_cons]
    have hwalk : applyWalk (.arr (front ++ some cx :: xr))
        ((shiftEdit [Seg.num front.length] e).path) e.kind e.rhs =
        match applyWalk cx e.path e.kind e.rhs with
        | .error err => .error err
        | .ok r => jsWrite (.arr (front ++ some cx :: xr)) (.num front.length) (some r) := by
      rw [hshift, hp]
      show ((match jsRead (.arr (front ++ some cx :: xr)) (.num front.length) with
        | .error err => Except.error err
        | .ok (some child) =>
          match applyWalk child (a :: tail) e.kind e.rhs with
          | .error err => Except.error err
          | .ok r => jsWrite (.arr (front ++ some cx :: xr)) (.num front.length) (some r)
        | .ok none =>
          match jsWrite (.arr (front ++ some cx :: xr)) (.num front.length)
              (some (match (a :: tail).head? with
                      | some (Seg.num _) => Node.arr []
                      | _ => Node.obj [])) with
          | .error err => Except.error err
          | .ok _ =>
            match applyWalk (match (a :: tail).head? with
                      | some (Seg.num _) => Node.arr []
                      | _ => Node.obj []) (a :: tail) e.kind e.rhs with
            | .error err => Except.error err
            | .ok r => jsWrite (.arr (front ++ some cx :: xr)) (.num front.length)
                (some r)) : Except String Node) = _
      rw [hread]
    rcases hc : applyWalk cx e.path e.kind e.rhs with err | c1
    · have hwalk' : applyWalk (.arr (front ++ some cx :: xr))
          ((shiftEdit [Seg.num front.length] e).path)
          ((shiftEdit [Seg.num front.length] e).kind)
          ((shiftEdit [Seg.num front.length] e).rhs) = .error err := by
        show applyWalk _ ((shiftEdit [Seg.num front.length] e).path) e.kind e.rhs = _
        rw [hwalk, hc]
      have e1 : applyDiffs (.arr (front ++ some cx :: xr))
          ((e :: rest).map (shiftEdit [.num front.length])) =
          applyDiffs (.arr (front ++ some cx :: xr))
            (rest.map (shiftEdit [.num front.length])) := by
        simp only [List.map_cons, applyDiffs]
        rw [hwalk']
      have e2 : noFail (.arr (front ++ some cx :: xr))
          ((e :: rest).map (shiftEdit [.num front.length])) = false := by
        simp only [List.map_cons, noFail]
        rw [hwalk']
      have e3 : applyDiffs cx (e :: rest) = applyDiffs cx rest := by
        simp only [applyDiffs]
        rw [hc]
      have e4 : noFail cx (e :: rest) = false := by
        simp only [noFail]
        rw [hc]
      rw [e1, e2, e3, e4]
      exact ⟨(ih front cx xr hner).1, rfl⟩
    · have hwalk' : applyWalk (.arr (front ++ some cx :: xr))
          ((shiftEdit [Seg.num front.length] e).path)
          ((shiftEdit [Seg.num front.length] e).kind)
          ((shiftEdit [Seg.num front.length] e).rhs) =
          .ok (.arr (front ++ some c1 :: xr)) := by
        show applyWalk _ ((shiftEdit [Seg.num front.length] e).path) e.kind e.rhs = _
        rw [hwalk, hc]
        exact hwrite c1
      have e1 : applyDiffs (.arr (front ++ some cx :: xr))
          ((e :: rest).map (shiftEdit [.num front.length])) =
          applyDiffs (.arr (front ++ some c1 :: xr))
            (rest.map (shiftEdit [.num front.length])) := by
        simp only [List.map_cons, applyDiffs]
        rw [hwalk']
      have e2 : noFail (.arr (front ++ some cx :: xr))
          ((e :: rest).map (shiftEdit [.num front.length])) =
          noFail (.arr (front ++ some c1 :: xr))
            (rest.map (shiftEdit [.num front.length])) := by
        simp only [List.map_cons, noFail]
        rw [hwalk']
      have e3 : applyDiffs cx (e :: rest) = applyDiffs c1 rest := by
        simp only [applyDiffs]
        rw [hc]
      have e4 : noFail cx (e :: rest) = noFail c1 rest := by
        simp only [noFail]
        rw [hc]
      rw [e1, e2, e3, e4]
      exact ih front c1 xr hner

/-! ## Applying the selected diff equals the graft: helper unfoldings -/

theorem deepDiff_none_some (v : Node) (path : List Seg) :
    deepDiff none (some v) path = [⟨'N', path, none, some v⟩] := by
  cases v <;> simp [deepDiff, jsStrictEq, diffKind]

theorem deepDiff_some_none (v : Node) (path : List Seg) :
    deepDiff (some v) none path = [⟨'D', path, some v, none⟩] := by
  cases v <;> simp [deepDiff, jsStrictEq, diffKind]

theorem graft_none_some (sel : DiffEdit → Bool) (v : Node) (path : List Seg) :
    graft sel none (some v) path =
      if sel ⟨'N', path, none, some v⟩ then some v else none := by
  cases v <;> simp [graft, jsStrictEq, diffKind]

theorem graft_some_none (sel : DiffEdit → Bool) (v : Node) (path : List Seg) :
    graft sel (some v) none path =
      if sel ⟨'D', path, some v, none⟩ then none else some v := by
  cases v <;> simp [graft, jsStrictEq, diffKind]

/-- Writing at an in-range-or-beyond index of an array document. -/
theorem applyWalk_arr_num (front : List (Option Node)) (i : Nat) (kind : Char)
    (v : Option Node) (hk : kind ≠ 'D') :
    applyWalk (.arr front) [Seg.num i] kind v = .ok (.arr (listSetPad front i v)) := by
  show applyFinal (.arr front) (.num i) kind v = _
  rw [applyFinal, if_neg hk]
  show (if (i : Int) < 0 then Except.ok (Node.arr front)
    else Except.ok (Node.arr (listSetPad front ((i : Int)).toNat v))) = _
  rw [if_neg (by omega), show ((i : Int)).toNat = i by omega]

/-- Deleting at an index of an array document. -/
theorem applyWalk_arr_del (front : List (Option Node)) (i : Nat)
    (v : Option Node) :
    applyWalk (.arr front) [Seg.num i] 'D' v = .ok (.arr (listDeleteHole front i)) := by
  show applyFinal (.arr front) (.num i) 'D' v = _
  rw [applyFinal, if_pos rfl]
  show (if (i : Int) < 0 then Except.ok (Node.arr front)
    else Except.ok (Node.arr (listDeleteHole front ((i : Int)).toNat))) = _
  rw [if_neg (by omega), show ((i : Int)).toNat = i by omega]

/-- Setting a key of an object document. -/
theorem applyWalk_obj_set (fs : List (String × Option Node)) (k : String)
    (kind : Char) (v : Option Node) (hk : kind ≠ 'D') :
    applyWalk (.obj fs) [Seg.str k] kind v = .ok (.obj (jsObjSet fs k v)) := by
  show applyFinal (.obj fs) (.str k) kind v = _
  rw [applyFinal, if_neg hk]
  rfl

/-- Deleting a key of an object document. -/
theorem applyWalk_obj_del (fs : List (String × Option Node)) (k : String)
    (v : Option Node) :
    applyWalk (.obj fs) [Seg.str k] 'D' v = .ok (.obj (jsObjDelete fs k)) := by
  show applyFinal (.obj fs) (.str k) 'D' v = _
  rw [applyFinal, if_pos rfl]
  rfl

/-! ## The extension regime: additions beyond the end of the base array -/

theorem applyGraft_arrExt (sel : DiffEdit → Bool) (ys : List (Option Node)) :
    ∀ (front : List (Option Node)) (i : Nat), nodeOkArr ys = true → front.length ≤ i →
      applyDiffs (.arr front) ((diffArr [] ys [] i).filter sel) =
          .arr (if (graftArr sel [] ys [] i).isEmpty then front
            else front ++ List.replicate (i - front.length) none ++ graftArr sel [] ys [] i)
        ∧ noFail (.arr front) ((diffArr [] ys [] i).filter sel) = true := by
  induction ys with
  | nil =>
    intro front i _ _
    rw [diffArr, graftArr]
    exact ⟨rfl, rfl⟩
  | cons y yr ih =>
    intro front i hok hle
    rcases y with _ | cy
    · simp [nodeOkArr] at hok
    have hcy : nodeOkArr yr = true := by
      simp only [nodeOkArr, Bool.and_eq_true] at hok
      exact hok.2
    rw [diffArr, graftArr]
    simp only [List.nil_append, deepDiff_none_some, graft_none_some]
    rw [List.filter_append]
    by_cases hsel : sel ⟨'N', [.num i], none, some cy⟩ = true
    · -- the addition at index i is applied
      have hfe : List.filter sel [(⟨'N', [.num i], none, some cy⟩ : DiffEdit)] =
          [⟨'N', [.num i], none, some cy⟩] := by
        simp [List.filter, hsel]
      rw [hfe, if_pos hsel]
      set front' := front ++ List.replicate (i - front.length) none ++ [some cy] with hf'
      have hlen' : front'.length = i + 1 := by
        simp [hf']
        omega
      have hstep : applyWalk (.arr front) [Seg.num i] 'N' (some cy) =
          .ok (.arr front') := by
        rw [applyWalk_arr_num front i 'N' (some cy) (by decide),
          listSetPad_extend front i (some cy) hle]
      have happ : applyDiffs (.arr front)
          ((⟨'N', [.num i], none, some cy⟩ : DiffEdit) ::
            (diffArr [] yr [] (i + 1)).filter sel) =
          applyDiffs (.arr front') ((diffArr [] yr [] (i + 1)).filter sel) := by
        simp only [applyDiffs]
        rw [hstep]
      have hnf : noFail (.arr front)
          ((⟨'N', [.num i], none, some cy⟩ : DiffEdit) ::
            (diffArr [] yr [] (i + 1)).filter sel) =
          noFail (.arr front') ((diffArr [] yr [] (i + 1)).filter sel) := by
        simp only [noFail]
        rw [hstep]
      have hih := ih front' (i + 1) hcy (by omega)
      rw [List.singleton_append, happ, hnf]
      refine ⟨?_, hih.2⟩
      rw [hih.1]
      rcases htl : graftArr sel [] yr [] (i + 1) with _ | ⟨t, tl⟩
      · simp [hf']
      · simp only [List.isEmpty_cons, Option.isNone_some, Bool.false_and,
          Bool.false_eq_true, if_false]
        rw [hlen']
        simp [hf', List.append_assoc]
    · -- the addition at index i is skipped
      have hfe : List.filter sel [(⟨'N', [.num i], none, some cy⟩ : DiffEdit)] =
          [] := by
        simp [List.filter, hsel]
      rw [hfe, if_neg hsel, List.nil_append]
      have hih := ih front (i + 1) hcy (by omega)
      refine ⟨?_, hih.2⟩
      rw [hih.1]
      rcases htl : graftArr sel [] yr [] (i + 1) with _ | ⟨t, tl⟩
      · simp
      · simp only [List.isEmpty_cons, Bool.false_eq_true, if_false, Option.isNone_none,
          Bool.true_and]
        have hrep : List.replicate (i + 1 - front.length) (none : Option Node) =
            List.replicate (i - front.length) (none : Option Node) ++ [none] := by
          rw [show i + 1 - front.length = (i - front.length) + 1 by omega,
            List.replicate_succ']
        rw [hrep]
        simp [List.append_assoc]

/-! ## Case handlers for the apply/graft correspondence -/

/-- Both sides are containers of the same kind (the diff recurses instead of
emitting a single replacing edit). -/
def sameKind : Node → Node → Bool
  | .arr _, .arr _ => true
  | .obj _, .obj _ => true
  | _, _ => false

/-- Outside the recursive container cases, `deepDiff` on two present values
emits a single `'E'` edit. -/
theorem deepDiff_consult (u v : Node) (path : List Seg)
    (hne : jsStrictEq (some u) (some v) = false) (hsk : sameKind u v = false) :
    deepDiff (some u) (some v) path = [⟨'E', path, some u, some v⟩] := by
  cases u <;> cases v <;> simp_all [deepDiff, jsStrictEq, sameKind, diffKind]

/-- Outside the recursive container cases, `graft` on two present values keeps
the base or takes the compare side according to the selection. -/
theorem graft_consult (sel : DiffEdit → Bool) (u v : Node) (path : List Seg)
    (hne : jsStrictEq (some u) (some v) = false) (hsk : sameKind u v = false) :
    graft sel (some u) (some v) path =
      if sel ⟨'E', path, some u, some v⟩ then some v else some u := by
  cases u <;> cases v <;> simp_all [graft, jsStrictEq, sameKind, diffKind]

theorem applyGraft_strictEq (sel : DiffEdit → Bool) (x y : Node)
    (heq : jsStrictEq (some x) (some y) = true) :
    graft sel (some x) (some y) [] =
        some (applyDiffs x ((deepDiff (some x) (some y) []).filter sel))
      ∧ noFail x ((deepDiff (some x) (some y) []).filter sel) = true := by
  have hd : deepDiff (some x) (some y) [] = [] := by
    rw [deepDiff, if_pos heq]
    all_goals
      intro a b h1 h2
      cases h1
      cases h2
      simp [jsStrictEq] at heq
  have hg : graft sel (some x) (some y) [] = some x := by
    rw [graft, if_pos heq]
    all_goals
      intro a b h1 h2
      cases h1
      cases h2
      simp [jsStrictEq] at heq
  rw [hd, hg]
  exact ⟨rfl, rfl⟩

theorem applyGraft_consult (sel : DiffEdit → Bool) (x y : Node)
    (hne : jsStrictEq (some x) (some y) = false) (hsk : sameKind x y = false)
    (hroot : sel ⟨'E', [], some x, some y⟩ = false) :
    graft sel (some x) (some y) [] =
        some (applyDiffs x ((deepDiff (some x) (some y) []).filter sel))
      ∧ noFail x ((deepDiff (some x) (some y) []).filter sel) = true := by
  rw [deepDiff_consult x y [] hne hsk, graft_consult sel x y [] hne hsk]
  simp [List.filter, hroot, applyDiffs, noFail]

/-! ## Edits below a nonempty path have nonempty paths -/

theorem deepDiff_cons_path_ne (b r : Option Node) (a : Seg) (q : List Seg) :
    ∀ e ∈ deepDiff b r (a :: q), e.path ≠ [] := by
  intro e he
  have h := deepDiff_path_shift b r [a] q
  rw [show ([a] ++ q : List Seg) = a :: q from rfl] at h
  rw [h] at he
  obtain ⟨e', _, rfl⟩ := List.mem_map.1 he
  simp [shiftEdit]

theorem diffArrNil_path_ne (ys : List (Option Node)) :
    ∀ (i : Nat) (e : DiffEdit), e ∈ diffArr [] ys [] i → e.path ≠ [] := by
  induction ys with
  | nil =>
    intro i e he
    rw [diffArr] at he
    simp at he
  | cons y yr ih =>
    intro i e he
    rw [diffArr] at he
    simp only [List.nil_append, List.mem_append] at he
    rcases he with he | he
    · exact deepDiff_cons_path_ne none y _ _ e he
    · exact ih (i + 1) e he

theorem diffArr_path_ne (xs : List (Option Node)) :
    ∀ (ys : List (Option Node)) (i : Nat) (e : DiffEdit),
      e ∈ diffArr xs ys [] i → e.path ≠ [] := by
  induction xs with
  | nil => exact fun ys => diffArrNil_path_ne ys
  | cons x xr ih =>
    intro ys i e he
    cases ys with
    | nil =>
      rw [diffArr] at he
      simp only [List.nil_append, List.mem_append] at he
      rcases he with he | he
      · exact deepDiff_cons_path_ne x none _ _ e he
      · exact ih [] (i + 1) e he
    | cons y yr =>
      rw [diffArr] at he
      simp only [List.nil_append, List.mem_append] at he
      rcases he with he | he
      · exact deepDiff_cons_path_ne x y _ _ e he
      · exact ih yr (i + 1) e he

theorem diffObjKeys_path_ne (bf cf : List (String × Option Node))
    (keys : List String) :
    ∀ e ∈ diffObjKeys bf cf keys [], e.path ≠ [] := by
  induction keys with
  | nil =>
    intro e he
    rw [diffObjKeys] at he
    simp at he
  | cons k rest ih =>
    intro e he
    rw [diffObjKeys] at he
    simp only [List.nil_append, List.mem_append] at he
    rcases he with he | he
    · exact deepDiff_cons_path_ne _ _ _ _ e he
    · exact ih e he

/-- Filtering a path-shifted edit list. -/
theorem filterShift (sel : DiffEdit → Bool) (p : List Seg) (l : List DiffEdit) :
    (l.map (shiftEdit p)).filter sel =
      (l.filter (fun e => sel (shiftEdit p e))).map (shiftEdit p) := by
  induction l with
  | nil => rfl
  | cons e r ih =>
    simp only [List.map_cons, List.filter_cons]
    by_cases h : sel (shiftEdit p e) = true
    · rw [if_pos h, if_pos h, List.map_cons, ih]
    · rw [if_neg h, if_neg h, ih]

/-! ## Applying the selected edits equals the graft (main induction) -/

theorem jsLookup_some_mem (fs : List (String × Option Node)) (k : String)
    (v : Node) (h : jsLookup fs k = some v) : k ∈ jsKeys fs := by
  induction fs with
  | nil => simp [jsLookup] at h
  | cons p r ih =>
    by_cases hp : p.1 = k
    · simp [jsKeys, hp]
    · simp only [jsLookup, if_neg hp] at h
      simp only [jsKeys, List.map_cons, List.mem_cons]
      exact Or.inr (ih h)

/-- Below a pair of same-kind containers every edit sits at a deeper path. -/
theorem deepDiff_sameKind_path_ne (u v : Node) (hsk : sameKind u v = true) :
    ∀ e ∈ deepDiff (some u) (some v) [], e.path ≠ [] := by
  cases u <;> cases v <;> simp only [sameKind] at hsk <;>
    first
    | exact absurd hsk (by decide)
    | skip
  · rename_i as bs
    intro e he
    have hd : deepDiff (some (.arr as)) (some (.arr bs)) [] = diffArr as bs [] 0 := by
      rw [deepDiff]
      simp [jsStrictEq]
    rw [hd] at he
    exact diffArr_path_ne as bs 0 e he
  · rename_i af bg
    intro e he
    have hd : deepDiff (some (.obj af)) (some (.obj bg)) [] =
        diffObjKeys af bg (jsSetDedup (jsKeys af ++ jsKeys bg)) [] := by
      rw [deepDiff]
      simp [jsStrictEq]
    rw [hd] at he
    exact diffObjKeys_path_ne af bg _ e he

theorem applyGraft_main : ∀ (n : Nat),
    (∀ (sel : DiffEdit → Bool) (x y : Node), sizeOf x + sizeOf y ≤ n →
      nodeOk x = true → nodeOk y = true →
      (sel ⟨'E', [], some x, some y⟩ = false ∨ sameKind x y = true) →
      graft sel (some x) (some y) [] =
          some (applyDiffs x ((deepDiff (some x) (some y) []).filter sel))
        ∧ noFail x ((deepDiff (some x) (some y) []).filter sel) = true)
  ∧ (∀ (sel : DiffEdit → Bool) (xs ys front : List (Option Node)),
      sizeOf xs + sizeOf ys ≤ n →
      nodeOkArr xs = true → nodeOkArr ys = true →
      applyDiffs (.arr (front ++ xs)) ((diffArr xs ys [] front.length).filter sel) =
          .arr (front ++ graftArr sel xs ys [] front.length)
        ∧ noFail (.arr (front ++ xs)) ((diffArr xs ys [] front.length).filter sel) = true)
  ∧ (∀ (sel : DiffEdit → Bool) (bf cf : List (String × Option Node))
       (keys : List String) (fs : List (String × Option Node)),
      sizeOf bf + sizeOf cf ≤ n →
      nodeOkObj bf = true → nodeOkObj cf = true →
      keys.Nodup →
      (∀ k ∈ keys, k ∈ jsKeys bf ∨ k ∈ jsKeys cf) →
      (∀ k ∈ keys, jsLookup fs k = jsLookup bf k) →
      (∀ k ∈ keys, jsLookup bf k = none → k ∉ jsKeys fs) →
      applyDiffs (.obj fs) ((diffObjKeys bf cf keys []).filter sel) =
          .obj (graftObjGo sel bf cf keys fs [])
        ∧ noFail (.obj fs) ((diffObjKeys bf cf keys []).filter sel) = true) := by
  intro n
  induction n using Nat.strong_induction_on with
  | _ n IH =>
  refine ⟨?_, ?_, ?_⟩
  -- ### node level
  · intro sel x y hsz hx hy hroot
    by_cases heq : jsStrictEq (some x) (some y) = true
    · exact applyGraft_strictEq sel x y heq
    have hne : jsStrictEq (some x) (some y) = false := by
      cases hjs : jsStrictEq (some x) (some y)
      · rfl
      · exact absurd hjs heq
    cases x <;> cases y <;>
      first
      | exact applyGraft_consult sel _ _ hne rfl
          (hroot.resolve_right (by simp [sameKind]))
      | skip
    · -- both arrays
      rename_i xs ys
      have hxs : nodeOkArr xs = true := by simpa [nodeOk] using hx
      have hys : nodeOkArr ys = true := by simpa [nodeOk] using hy
      have hszs : sizeOf xs + sizeOf ys < n := by
        simp only [Node.arr.sizeOf_spec] at hsz
        omega
      have harr := (IH _ hszs).2.1 sel xs ys [] le_rfl hxs hys
      simp only [List.nil_append, List.length_nil] at harr
      have hd : deepDiff (some (.arr xs)) (some (.arr ys)) [] = diffArr xs ys [] 0 := by
        rw [deepDiff, if_neg heq]
      have hg : graft sel (some (.arr xs)) (some (.arr ys)) [] =
          some (.arr (graftArr sel xs ys [] 0)) := by
        rw [graft, if_neg heq]
      rw [hd, hg]
      exact ⟨by rw [harr.1], harr.2⟩
    · -- both objects
      rename_i bf cf
      have hbf : nodeOkObj bf = true := by simpa [nodeOk] using hx
      have hcf : nodeOkObj cf = true := by simpa [nodeOk] using hy
      have hszs : sizeOf bf + sizeOf cf < n := by
        simp only [Node.obj.sizeOf_spec] at hsz
        omega
      have hobj := (IH _ hszs).2.2 sel bf cf (jsSetDedup (jsKeys bf ++ jsKeys cf)) bf
        le_rfl hbf hcf (jsSetDedup_nodup _)
        (fun k hk => by
          have := (jsSetDedup_mem _ k).mp hk
          simpa using this)
        (fun k _ => rfl)
        (fun k _ hnone => nodeOkObj_lookup_none bf hbf k hnone)
      have hd : deepDiff (some (.obj bf)) (some (.obj cf)) [] =
          diffObjKeys bf cf (jsSetDedup (jsKeys bf ++ jsKeys cf)) [] := by
        rw [deepDiff, if_neg heq]
      have hg : graft sel (some (.obj bf)) (some (.obj cf)) [] =
          some (.obj (graftObjGo sel bf cf (jsSetDedup (jsKeys bf ++ jsKeys cf)) bf [])) := by
        rw [graft, if_neg heq]
      rw [hd, hg]
      exact ⟨by rw [hobj.1], hobj.2⟩
  -- ### array level
  · intro sel xs
    induction xs with
    | nil =>
      intro ys front hsz hxs hys
      cases ys with
      | nil =>
        rw [diffArr, graftArr]
        exact ⟨rfl, rfl⟩
      | cons y yr =>
        have hext := applyGraft_arrExt sel (y :: yr) front front.length hys le_rfl
        refine ⟨?_, by simpa using hext.2⟩
        rw [List.append_nil]
        rw [hext.1]
        rcases hge : graftArr sel [] (y :: yr) [] front.length with _ | ⟨t, tl⟩
        · simp
        · simp [Nat.sub_self]
    | cons x xr ihx =>
      intro ys front hsz hxs hys
      rcases x with _ | cx
      · simp [nodeOkArr] at hxs
      have hcx : nodeOk cx = true ∧ nodeOkArr xr = true := by
        simpa [nodeOkArr] using hxs
      have htail : ∀ (s : Option Node) (ys' : List (Option Node)),
          nodeOkArr ys' = true → sizeOf xr + sizeOf ys' ≤ n →
          applyDiffs (.arr (front ++ s :: xr))
              ((diffArr xr ys' [] (front.length + 1)).filter sel) =
              .arr (front ++ s :: graftArr sel xr ys' [] (front.length + 1))
            ∧ noFail (.arr (front ++ s :: xr))
                ((diffArr xr ys' [] (front.length + 1)).filter sel) = true := by
        intro s ys' hys' hsz'
        have hih := ihx ys' (front ++ [s]) hsz' hcx.2 hys'
        simpa [List.append_assoc] using hih
      cases ys with
      | nil =>
        -- delete regime
        have hsz' : sizeOf xr + sizeOf ([] : List (Option Node)) ≤ n := by
          simp only [List.cons.sizeOf_spec, List.nil.sizeOf_spec] at hsz ⊢
          omega
        rw [diffArr, graftArr]
        simp only [List.nil_append]
        rw [deepDiff_some_none, graft_some_none, List.filter_append]
        by_cases hsel : sel ⟨'D', [.num front.length], some cx, none⟩ = true
        · have hfe : List.filter sel [(⟨'D', [.num front.length], some cx, none⟩ : DiffEdit)] =
              [⟨'D', [.num front.length], some cx, none⟩] := by
            simp [List.filter, hsel]
          rw [hfe, if_pos hsel, List.singleton_append]
          have hstep : applyWalk (.arr (front ++ some cx :: xr)) [Seg.num front.length]
              'D' none = .ok (.arr (front ++ none :: xr)) := by
            rw [applyWalk_arr_del, listDeleteHole_append_cons]
          have ht := htail none [] rfl hsz'
          constructor
          · simp only [applyDiffs]
            rw [hstep]
            exact ht.1
          · simp only [noFail]
            rw [hstep]
            exact ht.2
        · have hfe : List.filter sel [(⟨'D', [.num front.length], some cx, none⟩ : DiffEdit)] =
              [] := by
            simp [List.filter, hsel]
          rw [hfe, if_neg hsel, List.nil_append]
          exact htail (some cx) [] rfl hsz'
      | cons y yr =>
        rcases y with _ | cy
        · simp [nodeOkArr] at hys
        have hcy : nodeOk cy = true ∧ nodeOkArr yr = true := by
          simpa [nodeOkArr] using hys
        have hsz' : sizeOf xr + sizeOf yr ≤ n := by
          simp only [List.cons.sizeOf_spec] at hsz
          omega
        rw [diffArr, graftArr]
        simp only [List.nil_append]
        rw [List.filter_append]
        by_cases heq0 : jsStrictEq (some cx) (some cy) = true
        · -- identical scalars at this index
          have hd0 : deepDiff (some cx) (some cy) [Seg.num front.length] = [] := by
            rw [deepDiff, if_pos heq0]
            all_goals
              intro a b h1 h2
              cases h1
              cases h2
              simp [jsStrictEq] at heq0
          have hg0 : graft sel (some cx) (some cy) [Seg.num front.length] = some cx := by
            rw [graft, if_pos heq0]
            all_goals
              intro a b h1 h2
              cases h1
              cases h2
              simp [jsStrictEq] at heq0
          rw [hd0, hg0]
          simp only [List.filter_nil, List.nil_append]
          exact htail (some cx) yr hcy.2 hsz'
        · have hne0 : jsStrictEq (some cx) (some cy) = false := by
            cases hjs : jsStrictEq (some cx) (some cy)
            · rfl
            · exact absurd hjs heq0
          by_cases hsk : sameKind cx cy = true
          · -- recurse into the matching containers at this index
            have hps := deepDiff_path_shift (some cx) (some cy) [Seg.num front.length] []
            simp only [List.append_nil] at hps
            have hgs := graft_path_shift sel (some cx) (some cy) [Seg.num front.length] []
            simp only [List.append_nil] at hgs
            have hnp : ∀ e ∈ (deepDiff (some cx) (some cy) []).filter
                (fun e => sel (shiftEdit [Seg.num front.length] e)), e.path ≠ [] := by
              intro e he
              exact deepDiff_sameKind_path_ne cx cy hsk e (List.mem_filter.mp he).1
            have hszc : sizeOf cx + sizeOf cy < n := by
              simp only [List.cons.sizeOf_spec, Option.some.sizeOf_spec] at hsz
              omega
            have hchild := (IH _ hszc).1
              (fun e => sel (shiftEdit [Seg.num front.length] e)) cx cy le_rfl
              hcx.1 hcy.1 (Or.inr hsk)
            have hfac := applyDiffs_arr_factor
              ((deepDiff (some cx) (some cy) []).filter
                (fun e => sel (shiftEdit [Seg.num front.length] e)))
              front cx xr hnp
            rw [hps, filterShift, applyDiffs_append, noFail_append, hfac.1, hfac.2,
              hgs, hchild.1]
            have ht := htail (some (applyDiffs cx ((deepDiff (some cx) (some cy) []).filter
              (fun e => sel (shiftEdit [Seg.num front.length] e))))) yr hcy.2 hsz'
            refine ⟨ht.1, ?_⟩
            rw [hchild.2, ht.2]
            rfl
          · -- single replacing edit at this index
            have hskf : sameKind cx cy = false := by
              cases hjs : sameKind cx cy
              · rfl
              · exact absurd hjs hsk
            rw [deepDiff_consult cx cy [Seg.num front.length] hne0 hskf,
              graft_consult sel cx cy [Seg.num front.length] hne0 hskf]
            by_cases hsel : sel ⟨'E', [.num front.length], some cx, some cy⟩ = true
            · have hfe : List.filter sel
                  [(⟨'E', [.num front.length], some cx, some cy⟩ : DiffEdit)] =
                  [⟨'E', [.num front.length], some cx, some cy⟩] := by
                simp [List.filter, hsel]
              rw [hfe, if_pos hsel, List.singleton_append]
              have hstep : applyWalk (.arr (front ++ some cx :: xr))
                  [Seg.num front.length] 'E' (some cy) =
                  .ok (.arr (front ++ some cy :: xr)) := by
                rw [applyWalk_arr_num (front ++ some cx :: xr) front.length 'E'
                    (some cy) (by decide),
                  listSetPad_append_cons]
              have ht := htail (some cy) yr hcy.2 hsz'
              constructor
              · simp only [applyDiffs]
                rw [hstep]
                exact ht.1
              · simp only [noFail]
                rw [hstep]
                exact ht.2
            · have hfe : List.filter sel
                  [(⟨'E', [.num front.length], some cx, some cy⟩ : DiffEdit)] = [] := by
                simp [List.filter, hsel]
              rw [hfe, if_neg hsel, List.nil_append]
              exact htail (some cx) yr hcy.2 hsz'
  -- ### object level
  · intro sel bf cf keys
    induction keys with
    | nil =>
      intro fs hsz hbf hcf hnd hmem hfs habs
      rw [diffObjKeys, graftObjGo]
      exact ⟨rfl, rfl⟩
    | cons k rest ihk =>
      intro fs hsz hbf hcf hnd hmem hfs habs
      have hknd : k ∉ rest ∧ rest.Nodup := by
        simpa [List.nodup_cons] using hnd
      have hfsk : jsLookup fs k = jsLookup bf k := hfs k (List.mem_cons_self _ _)
      have hrestmem : ∀ k' ∈ rest, k' ∈ jsKeys bf ∨ k' ∈ jsKeys cf :=
        fun k' hk' => hmem k' (List.mem_cons_of_mem _ hk')
      have htail : ∀ (fs' : List (String × Option Node)),
          (∀ k' ∈ rest, jsLookup fs' k' = jsLookup bf k') →
          (∀ k' ∈ rest, jsLookup bf k' = none → k' ∉ jsKeys fs') →
          applyDiffs (.obj fs') ((diffObjKeys bf cf rest []).filter sel) =
              .obj (graftObjGo sel bf cf rest fs' [])
            ∧ noFail (.obj fs') ((diffObjKeys bf cf rest []).filter sel) = true :=
        fun fs' h1 h2 => ihk fs' hsz hbf hcf hknd.2 hrestmem h1 h2
      have htailKeep :
          applyDiffs (.obj fs) ((diffObjKeys bf cf rest []).filter sel) =
              .obj (graftObjGo sel bf cf rest fs [])
            ∧ noFail (.obj fs) ((diffObjKeys bf cf rest []).filter sel) = true :=
        htail fs (fun k' hk' => hfs k' (List.mem_cons_of_mem _ hk'))
          (fun k' hk' => habs k' (List.mem_cons_of_mem _ hk'))
      have hne' : ∀ k' ∈ rest, k' ≠ k := by
        intro k' hk' hkk
        exact hknd.1 (hkk ▸ hk')
      rw [diffObjKeys]
      simp only [List.nil_append]
      rw [List.filter_append]
      rcases hbv : jsLookup bf k with _ | bx
      · rcases hcv : jsLookup cf k with _ | cy
        · -- a key listed on neither side cannot reach the loop
          exfalso
          rcases hmem k (List.mem_cons_self _ _) with hk | hk
          · obtain ⟨v, hv⟩ := nodeOkObj_mem_lookup bf hbf k hk
            rw [hbv] at hv
            exact Option.noConfusion hv
          · obtain ⟨v, hv⟩ := nodeOkObj_mem_lookup cf hcf k hk
            rw [hcv] at hv
            exact Option.noConfusion hv
        · -- new key from the compare side
          have hkabs : k ∉ jsKeys fs := habs k (List.mem_cons_self _ _) hbv
          rw [deepDiff_none_some]
          by_cases hsel : sel ⟨'N', [.str k], none, some cy⟩ = true
          · have hgo : graftObjGo sel bf cf (k :: rest) fs [] =
                graftObjGo sel bf cf rest (jsObjSet fs k (some cy)) [] := by
              rw [graftObjGo]
              simp only [List.nil_append]
              rw [hbv, hcv, graft_none_some, if_pos hsel]
              simp [graftField]
            have hfe : List.filter sel [(⟨'N', [.str k], none, some cy⟩ : DiffEdit)] =
                [⟨'N', [.str k], none, some cy⟩] := by
              simp [List.filter, hsel]
            rw [hfe, List.singleton_append, hgo]
            have hstep : applyWalk (.obj fs) [Seg.str k] 'N' (some cy) =
                .ok (.obj (jsObjSet fs k (some cy))) :=
              applyWalk_obj_set fs k 'N' (some cy) (by decide)
            have h1 : ∀ k' ∈ rest, jsLookup (jsObjSet fs k (some cy)) k' = jsLookup bf k' :=
              fun k' hk' => by
                rw [jsLookup_objSet_other fs k k' _ (hne' k' hk'),
                  hfs k' (List.mem_cons_of_mem _ hk')]
            have h2 : ∀ k' ∈ rest, jsLookup bf k' = none →
                k' ∉ jsKeys (jsObjSet fs k (some cy)) := by
              intro k' hk' hnone
              rw [jsKeys_objSet_absent fs k _ hkabs]
              simp only [List.mem_append, List.mem_singleton]
              push_neg
              exact ⟨habs k' (List.mem_cons_of_mem _ hk') hnone, hne' k' hk'⟩
            have ht := htail (jsObjSet fs k (some cy)) h1 h2
            constructor
            · simp only [applyDiffs]
              rw [hstep]
              exact ht.1
            · simp only [noFail]
              rw [hstep]
              exact ht.2
          · have hgo : graftObjGo sel bf cf (k :: rest) fs [] =
                graftObjGo sel bf cf rest (jsObjDelete fs k) [] := by
              rw [graftObjGo]
              simp only [List.nil_append]
              rw [hbv, hcv, graft_none_some, if_neg hsel]
              simp [graftField]
            rw [jsObjDelete_absent_id fs k hkabs] at hgo
            have hfe : List.filter sel [(⟨'N', [.str k], none, some cy⟩ : DiffEdit)] = [] := by
              simp [List.filter, hsel]
            rw [hfe, List.nil_append, hgo]
            exact htailKeep
      · rcases hcv : jsLookup cf k with _ | cy
        · -- key deleted on the compare side
          rw [deepDiff_some_none]
          by_cases hsel : sel ⟨'D', [.str k], some bx, none⟩ = true
          · have hgo : graftObjGo sel bf cf (k :: rest) fs [] =
                graftObjGo sel bf cf rest (jsObjDelete fs k) [] := by
              rw [graftObjGo]
              simp only [List.nil_append]
              rw [hbv, hcv, graft_some_none, if_pos hsel]
              simp [graftField]
            have hfe : List.filter sel [(⟨'D', [.str k], some bx, none⟩ : DiffEdit)] =
                [⟨'D', [.str k], some bx, none⟩] := by
              simp [List.filter, hsel]
            rw [hfe, List.singleton_append, hgo]
            have hstep : applyWalk (.obj fs) [Seg.str k] 'D' none =
                .ok (.obj (jsObjDelete fs k)) :=
              applyWalk_obj_del fs k none
            have h1 : ∀ k' ∈ rest, jsLookup (jsObjDelete fs k) k' = jsLookup bf k' :=
              fun k' hk' => by
                rw [jsLookup_objDelete_other fs k k' (hne' k' hk'),
                  hfs k' (List.mem_cons_of_mem _ hk')]
            have h2 : ∀ k' ∈ rest, jsLookup bf k' = none →
                k' ∉ jsKeys (jsObjDelete fs k) := by
              intro k' hk' hnone hmem'
              exact habs k' (List.mem_cons_of_mem _ hk') hnone
                ((jsKeys_objDelete_sublist fs k).mem hmem')
            have ht := htail (jsObjDelete fs k) h1 h2
            constructor
            · simp only [applyDiffs]
              rw [hstep]
              exact ht.1
            · simp only [noFail]
              rw [hstep]
              exact ht.2
          · have hgo : graftObjGo sel bf cf (k :: rest) fs [] =
                graftObjGo sel bf cf rest (jsObjSet fs k (some bx)) [] := by
              rw [graftObjGo]
              simp only [List.nil_append]
              rw [hbv, hcv, graft_some_none, if_neg hsel]
              simp [graftField]
            rw [jsObjSet_lookup_id fs k bx (hfsk.trans hbv)] at hgo
            have hfe : List.filter sel [(⟨'D', [.str k], some bx, none⟩ : DiffEdit)] = [] := by
              simp [List.filter, hsel]
            rw [hfe, List.nil_append, hgo]
            exact htailKeep
        · -- key present on both sides
          have hbxok : nodeOk bx = true := nodeOkObj_lookup_ok bf hbf k bx hbv
          have hcyok : nodeOk cy = true := nodeOkObj_lookup_ok cf hcf k cy hcv
          have hkmem : k ∈ jsKeys fs :=
            jsLookup_some_mem fs k bx (hfsk.trans hbv)
          have hsetinv : ∀ (w : Node),
              (∀ k' ∈ rest, jsLookup (jsObjSet fs k (some w)) k' = jsLookup bf k')
              ∧ (∀ k' ∈ rest, jsLookup bf k' = none →
                  k' ∉ jsKeys (jsObjSet fs k (some w))) := by
            intro w
            constructor
            · intro k' hk'
              rw [jsLookup_objSet_other fs k k' _ (hne' k' hk'),
                hfs k' (List.mem_cons_of_mem _ hk')]
            · intro k' hk' hnone
              rw [jsKeys_objSet_mem fs k _ hkmem]
              exact habs k' (List.mem_cons_of_mem _ hk') hnone
          by_cases heq0 : jsStrictEq (some bx) (some cy) = true
          · have hd0 : deepDiff (some bx) (some cy) [Seg.str k] = [] := by
              rw [deepDiff, if_pos heq0]
              all_goals
                intro a b h1 h2
                cases h1
                cases h2
                simp [jsStrictEq] at heq0
            have hg0 : graft sel (some bx) (some cy) ([] ++ [Seg.str k]) = some bx := by
              simp only [List.nil_append]
              rw [graft, if_pos heq0]
              all_goals
                intro a b h1 h2
                cases h1
                cases h2
                simp [jsStrictEq] at heq0
            have hgo : graftObjGo sel bf cf (k :: rest) fs [] =
                graftObjGo sel bf cf rest (jsObjSet fs k (some bx)) [] := by
              rw [graftObjGo, hbv, hcv, hg0]
              simp [graftField]
            rw [jsObjSet_lookup_id fs k bx (hfsk.trans hbv)] at hgo
            rw [hd0, List.filter_nil, List.nil_append, hgo]
            exact htailKeep
          · have hne0 : jsStrictEq (some bx) (some cy) = false := by
              cases hjs : jsStrictEq (some bx) (some cy)
              · rfl
              · exact absurd hjs heq0
            by_cases hsk : sameKind bx cy = true
            · -- recurse into the matching containers at this key
              have hps := deepDiff_path_shift (some bx) (some cy) [Seg.str k] []
              simp only [List.append_nil] at hps
              have hgs := graft_path_shift sel (some bx) (some cy) [Seg.str k] []
              simp only [List.append_nil] at hgs
              have hnp : ∀ e ∈ (deepDiff (some bx) (some cy) []).filter
                  (fun e => sel (shiftEdit [Seg.str k] e)), e.path ≠ [] := by
                intro e he
                exact deepDiff_sameKind_path_ne bx cy hsk e (List.mem_filter.mp he).1
              have hszc : sizeOf bx + sizeOf cy < n := by
                have h1 := jsLookup_sizeOf_le bf k
                have h2 := jsLookup_sizeOf_le cf k
                rw [hbv] at h1
                rw [hcv] at h2
                simp only [Option.some.sizeOf_spec] at h1 h2
                omega
              have hchild := (IH _ hszc).1
                (fun e => sel (shiftEdit [Seg.str k] e)) bx cy le_rfl
                hbxok hcyok (Or.inr hsk)
              have hfac := applyDiffs_obj_factor
                ((deepDiff (some bx) (some cy) []).filter
                  (fun e => sel (shiftEdit [Seg.str k] e)))
                fs k bx (hfsk.trans hbv) hnp
              have hgo : graftObjGo sel bf cf (k :: rest) fs [] =
                  graftObjGo sel bf cf rest
                    (jsObjSet fs k (some (applyDiffs bx
                      ((deepDiff (some bx) (some cy) []).filter
                        (fun e => sel (shiftEdit [Seg.str k] e)))))) [] := by
                rw [graftObjGo]
                simp only [List.nil_append]
                rw [hbv, hcv, hgs, hchild.1]
                simp [graftField]
              rw [hps, filterShift, applyDiffs_append, noFail_append, hfac.1, hfac.2, hgo]
              have hinv := hsetinv (applyDiffs bx ((deepDiff (some bx) (some cy) []).filter
                (fun e => sel (shiftEdit [Seg.str k] e))))
              have ht := htail _ hinv.1 hinv.2
              refine ⟨ht.1, ?_⟩
              rw [hchild.2, ht.2]
              rfl
            · -- single replacing edit at this key
              have hskf : sameKind bx cy = false := by
                cases hjs : sameKind bx cy
                · rfl
                · exact absurd hjs hsk
              rw [deepDiff_consult bx cy [Seg.str k] hne0 hskf]
              by_cases hsel : sel ⟨'E', [.str k], some bx, some cy⟩ = true
              · have hgo : graftObjGo sel bf cf (k :: rest) fs [] =
                    graftObjGo sel bf cf rest (jsObjSet fs k (some cy)) [] := by
                  rw [graftObjGo]
                  simp only [List.nil_append]
                  rw [hbv, hcv, graft_consult sel bx cy [Seg.str k] hne0 hskf, if_pos hsel]
                  simp [graftField]
                have hfe : List.filter sel
                    [(⟨'E', [.str k], some bx, some cy⟩ : DiffEdit)] =
                    [⟨'E', [.str k], some bx, some cy⟩] := by
                  simp [List.filter, hsel]
                rw [hfe, List.singleton_append, hgo]
                have hstep : applyWalk (.obj fs) [Seg.str k] 'E' (some cy) =
                    .ok (.obj (jsObjSet fs k (some cy))) :=
                  applyWalk_obj_set fs k 'E' (some cy) (by decide)
                have hinv := hsetinv cy
                have ht := htail (jsObjSet fs k (some cy)) hinv.1 hinv.2
                constructor
                · simp only [applyDiffs]
                  rw [hstep]
                  exact ht.1
                · simp only [noFail]
                  rw [hstep]
                  exact ht.2
              · have hgo : graftObjGo sel bf cf (k :: rest) fs [] =
                    graftObjGo sel bf cf rest (jsObjSet fs k (some bx)) [] := by
                  rw [graftObjGo]
                  simp only [List.nil_append]
                  rw [hbv, hcv, graft_consult sel bx cy [Seg.str k] hne0 hskf, if_neg hsel]
                  simp [graftField]
                rw [jsObjSet_lookup_id fs k bx (hfsk.trans hbv)] at hgo
                have hfe : List.filter sel
                    [(⟨'E', [.str k], some bx, some cy⟩ : DiffEdit)] = [] := by
                  simp [List.filter, hsel]
                rw [hfe, List.nil_append, hgo]
                exact htailKeep

/-! ## The diff of the grafted document against the remote -/

theorem boolFalse {b : Bool} (h : ¬ b = true) : b = false := by
  cases b
  · rfl
  · exact absurd rfl h

/-- Well-formedness of an optional member (`undefined` is fine). -/
def nodeOkO : Option Node → Bool
  | none => true
  | some v => nodeOk v

theorem nodeOkO_lookup (fs : List (String × Option Node))
    (h : nodeOkObj fs = true) (k : String) : nodeOkO (jsLookup fs k) = true := by
  rcases hl : jsLookup fs k with _ | v
  · rfl
  · simpa [nodeOkO] using nodeOkObj_lookup_ok fs h k v hl

theorem nodeOkArr_head (x : Option Node) (xr : List (Option Node))
    (h : nodeOkArr (x :: xr) = true) : nodeOkO x = true ∧ nodeOkArr xr = true := by
  cases x with
  | none => simp [nodeOkArr] at h
  | some v => simpa [nodeOkArr, nodeOkO] using h

theorem deepDiff_none_none (path : List Seg) : deepDiff none none path = [] := by
  simp [deepDiff, jsStrictEq]

theorem deepDiff_arrs (xs ys : List (Option Node)) (path : List Seg) :
    deepDiff (some (.arr xs)) (some (.arr ys)) path = diffArr xs ys path 0 := by
  rw [deepDiff]
  simp [jsStrictEq]

theorem deepDiff_objs (bf cf : List (String × Option Node)) (path : List Seg) :
    deepDiff (some (.obj bf)) (some (.obj cf)) path =
      diffObjKeys bf cf (jsSetDedup (jsKeys bf ++ jsKeys cf)) path := by
  rw [deepDiff]
  simp [jsStrictEq]

theorem graft_arrs (sel : DiffEdit → Bool) (xs ys : List (Option Node))
    (path : List Seg) :
    graft sel (some (.arr xs)) (some (.arr ys)) path =
      some (.arr (graftArr sel xs ys path 0)) := by
  rw [graft]
  simp [jsStrictEq]

theorem graft_objs (sel : DiffEdit → Bool) (bf cf : List (String × Option Node))
    (path : List Seg) :
    graft sel (some (.obj bf)) (some (.obj cf)) path =
      some (.obj (graftObjGo sel bf cf (jsSetDedup (jsKeys bf ++ jsKeys cf)) bf path)) := by
  rw [graft]
  simp [jsStrictEq]

theorem jsKeys_objSet_nodup (fs : List (String × Option Node)) (k : String)
    (v : Option Node) (h : (jsKeys fs).Nodup) :
    (jsKeys (jsObjSet fs k v)).Nodup := by
  by_cases hm : k ∈ jsKeys fs
  · rw [jsKeys_objSet_mem fs k v hm]
    exact h
  · rw [jsKeys_objSet_absent fs k v hm]
    simp [List.nodup_append, h, hm]

theorem graftObjGo_lookup_notmem (sel : DiffEdit → Bool)
    (bf cf : List (String × Option Node)) :
    ∀ (keys : List String) (fs : List (String × Option Node)) (path : List Seg)
      (k : String), k ∉ keys →
      jsLookup (graftObjGo sel bf cf keys fs path) k = jsLookup fs k := by
  intro keys
  induction keys with
  | nil =>
    intro fs path k _
    rw [graftObjGo]
  | cons k0 rest ih =>
    intro fs path k hk
    have hne : k ≠ k0 ∧ k ∉ rest := by simpa [List.mem_cons, not_or] using hk
    rw [graftObjGo, ih _ _ _ hne.2]
    rcases hg : graft sel (jsLookup bf k0) (jsLookup cf k0) (path ++ [.str k0]) with _ | w
    · rw [hg]
      simp only [graftField]
      exact jsLookup_objDelete_other fs k0 k hne.1
    · rw [hg]
      simp only [graftField]
      exact jsLookup_objSet_other fs k0 k _ hne.1

theorem graftObjGo_lookup_mem (sel : DiffEdit → Bool)
    (bf cf : List (String × Option Node)) :
    ∀ (keys : List String) (fs : List (String × Option Node)) (path : List Seg)
      (k : String), keys.Nodup → k ∈ keys → (jsKeys fs).Nodup →
      jsLookup fs k = jsLookup bf k →
      jsLookup (graftObjGo sel bf cf keys fs path) k =
        graft sel (jsLookup bf k) (jsLookup cf k) (path ++ [.str k]) := by
  intro keys
  induction keys with
  | nil =>
    intro fs path k _ hk
    simp at hk
  | cons k0 rest ih =>
    intro fs path k hnd hk hfnd hfk
    have hnd' : k0 ∉ rest ∧ rest.Nodup := by simpa [List.nodup_cons] using hnd
    by_cases hkk : k = k0
    · subst hkk
      rw [graftObjGo, graftObjGo_lookup_notmem sel bf cf rest _ path k hnd'.1]
      rcases hg : graft sel (jsLookup bf k) (jsLookup cf k) (path ++ [.str k]) with _ | w
      · rw [hg]
        simp only [graftField]
        exact jsLookup_objDelete_self fs k hfnd
      · rw [hg]
        simp only [graftField]
        exact jsLookup_objSet_self fs k (some w)
    · rcases List.mem_cons.mp hk with h | hkr
      · exact absurd h hkk
      rw [graftObjGo]
      apply ih _ path k hnd'.2 hkr
      · rcases hg : graft sel (jsLookup bf k0) (jsLookup cf k0) (path ++ [.str k0]) with _ | w
        · rw [hg]
          simp only [graftField]
          exact List.Nodup.sublist (jsKeys_objDelete_sublist fs k0) hfnd
        · rw [hg]
          simp only [graftField]
          exact jsKeys_objSet_nodup fs k0 _ hfnd
      · rcases hg : graft sel (jsLookup bf k0) (jsLookup cf k0) (path ++ [.str k0]) with _ | w
        · rw [hg]
          simp only [graftField]
          rw [jsLookup_objDelete_other fs k0 k hkk]
          exact hfk
        · rw [hg]
          simp only [graftField]
          rw [jsLookup_objSet_other fs k0 k _ hkk]
          exact hfk

theorem graftObjGo_keys_sub (sel : DiffEdit → Bool)
    (bf cf : List (String × Option Node)) :
    ∀ (keys : List String) (fs : List (String × Option Node)) (path : List Seg)
      (k : String), k ∈ jsKeys (graftObjGo sel bf cf keys fs path) →
      k ∈ jsKeys fs ∨ k ∈ keys := by
  intro keys
  induction keys with
  | nil =>
    intro fs path k hk
    rw [graftObjGo] at hk
    exact Or.inl hk
  | cons k0 rest ih =>
    intro fs path k hk
    rw [graftObjGo] at hk
    rcases ih _ path k hk with h | h
    · rcases hg : graft sel (jsLookup bf k0) (jsLookup cf k0) (path ++ [.str k0]) with _ | w
      · rw [hg] at h
        simp only [graftField] at h
        exact Or.inl ((jsKeys_objDelete_sublist fs k0).mem h)
      · rw [hg] at h
        simp only [graftField] at h
        by_cases hm : k0 ∈ jsKeys fs
        · rw [jsKeys_objSet_mem fs k0 _ hm] at h
          exact Or.inl h
        · rw [jsKeys_objSet_absent fs k0 _ hm] at h
          rcases List.mem_append.mp h with h | h
          · exact Or.inl h
          · simp only [List.mem_singleton] at h
            exact Or.inr (by simp [h])
    · exact Or.inr (List.mem_cons_of_mem _ h)

/-- If the extension part of the graft is empty, every addition there was
unselected. -/
theorem graftArrNil_unsel (sel : DiffEdit → Bool) (ys : List (Option Node)) :
    ∀ (path : List Seg) (i : Nat), graftArr sel [] ys path i = [] →
      ∀ e ∈ diffArr [] ys path i, sel e = false := by
  induction ys with
  | nil =>
    intro path i _ e he
    rw [diffArr] at he
    simp at he
  | cons y yr ih =>
    intro path i hg e he
    rw [graftArr] at hg
    by_cases hc : ((graft sel none y (path ++ [.num i])).isNone &&
        (graftArr sel [] yr path (i + 1)).isEmpty) = true
    · simp only [Bool.and_eq_true] at hc
      have hgv := hc.1
      have htl := hc.2
      rw [diffArr] at he
      rcases List.mem_append.mp he with he | he
      · rcases y with _ | cy
        · rw [deepDiff_none_none] at he
          simp at he
        · rw [deepDiff_none_some] at he
          have hee := List.mem_singleton.mp he
          rw [graft_none_some] at hgv
          by_cases hs : sel ⟨'N', path ++ [.num i], none, some cy⟩ = true
          · rw [if_pos hs] at hgv
            simp at hgv
          · rw [hee]
            exact boolFalse hs
      · exact ih path (i + 1) (List.isEmpty_iff.mp htl) e he
    · rw [if_neg hc] at hg
      simp at hg

theorem graftDiff_main : ∀ (n : Nat),
    (∀ (sel : DiffEdit → Bool) (b r : Option Node) (path : List Seg),
      sizeOf b + sizeOf r ≤ n → nodeOkO b = true → nodeOkO r = true →
      ∀ e ∈ deepDiff (graft sel b r path) r path,
        e ∈ deepDiff b r path ∧ sel e = false)
  ∧ (∀ (sel : DiffEdit → Bool) (xs ys : List (Option Node)) (path : List Seg)
       (i : Nat),
      sizeOf xs + sizeOf ys ≤ n → nodeOkArr xs = true → nodeOkArr ys = true →
      ∀ e ∈ diffArr (graftArr sel xs ys path i) ys path i,
        e ∈ diffArr xs ys path i ∧ sel e = false) := by
  intro n
  induction n using Nat.strong_induction_on with
  | _ n IH =>
  refine ⟨?_, ?_⟩
  -- ### node level
  · intro sel b r path hsz hb hr e he
    by_cases heq : jsStrictEq b r = true
    · have hgb : graft sel b r path = b := by
        rw [graft, if_pos heq]
        all_goals
          intro a c h1 h2
          subst h1
          subst h2
          simp [jsStrictEq] at heq
      have hdb : deepDiff b r path = [] := by
        rw [deepDiff, if_pos heq]
        all_goals
          intro a c h1 h2
          subst h1
          subst h2
          simp [jsStrictEq] at heq
      rw [hgb, hdb] at he
      simp at he
    · have hne : jsStrictEq b r = false := boolFalse heq
      rcases b with _ | bx
      · rcases r with _ | cy
        · exact absurd rfl heq
        · rw [graft_none_some] at he
          by_cases hs : sel ⟨'N', path, none, some cy⟩ = true
          · rw [if_pos hs, deepDiff_self] at he
            simp at he
          · rw [if_neg hs, deepDiff_none_some] at he
            have hee := List.mem_singleton.mp he
            refine ⟨?_, ?_⟩
            · rw [deepDiff_none_some]
              simp [hee]
            · rw [hee]
              exact boolFalse hs
      · rcases r with _ | cy
        · rw [graft_some_none] at he
          by_cases hs : sel ⟨'D', path, some bx, none⟩ = true
          · rw [if_pos hs, deepDiff_none_none] at he
            simp at he
          · rw [if_neg hs, deepDiff_some_none] at he
            have hee := List.mem_singleton.mp he
            refine ⟨?_, ?_⟩
            · rw [deepDiff_some_none]
              simp [hee]
            · rw [hee]
              exact boolFalse hs
        · by_cases hsk : sameKind bx cy = true
          · cases bx <;> cases cy <;> simp only [sameKind] at hsk <;>
              first
              | exact absurd hsk (by decide)
              | skip
            · -- arrays
              rename_i as bs
              rw [graft_arrs, deepDiff_arrs] at he
              have hszs : sizeOf as + sizeOf bs < n := by
                simp only [Option.some.sizeOf_spec, Node.arr.sizeOf_spec] at hsz
                omega
              have hB := (IH _ hszs).2 sel as bs path 0 le_rfl
                (by simpa [nodeOkO, nodeOk] using hb)
                (by simpa [nodeOkO, nodeOk] using hr) e he
              rw [deepDiff_arrs]
              exact hB
            · -- objects
              rename_i bfx cfy
              rw [graft_objs, deepDiff_objs] at he
              have hbfo : nodeOkObj bfx = true := by simpa [nodeOkO, nodeOk] using hb
              have hcfo : nodeOkObj cfy = true := by simpa [nodeOkO, nodeOk] using hr
              have hszs : sizeOf bfx + sizeOf cfy < n := by
                simp only [Option.some.sizeOf_spec, Node.obj.sizeOf_spec] at hsz
                omega
              have hKsub : ∀ k, k ∈ jsKeys (graftObjGo sel bfx cfy
                    (jsSetDedup (jsKeys bfx ++ jsKeys cfy)) bfx path) ++ jsKeys cfy →
                  k ∈ jsSetDedup (jsKeys bfx ++ jsKeys cfy) := by
                intro k hk
                rw [jsSetDedup_mem]
                rcases List.mem_append.mp hk with h | h
                · rcases graftObjGo_keys_sub sel bfx cfy _ bfx path k h with h2 | h2
                  · exact List.mem_append.mpr (Or.inl h2)
                  · exact (jsSetDedup_mem _ k).mp h2
                · exact List.mem_append.mpr (Or.inr h)
              have hlookAll : ∀ k ∈ jsSetDedup (jsKeys (graftObjGo sel bfx cfy
                    (jsSetDedup (jsKeys bfx ++ jsKeys cfy)) bfx path) ++ jsKeys cfy),
                  jsLookup (graftObjGo sel bfx cfy
                    (jsSetDedup (jsKeys bfx ++ jsKeys cfy)) bfx path) k =
                  graft sel (jsLookup bfx k) (jsLookup cfy k) (path ++ [.str k]) := by
                intro k hk
                exact graftObjGo_lookup_mem sel bfx cfy _ bfx path k
                  (jsSetDedup_nodup _) (hKsub k ((jsSetDedup_mem _ k).mp hk))
                  (nodeOkObj_keys_nodup bfx hbfo) rfl
              have hC : ∀ (keys' : List String),
                  (∀ k ∈ keys', k ∈ jsSetDedup (jsKeys bfx ++ jsKeys cfy)) →
                  (∀ k ∈ keys', jsLookup (graftObjGo sel bfx cfy
                    (jsSetDedup (jsKeys bfx ++ jsKeys cfy)) bfx path) k =
                    graft sel (jsLookup bfx k) (jsLookup cfy k) (path ++ [.str k])) →
                  ∀ e' ∈ diffObjKeys (graftObjGo sel bfx cfy
                    (jsSetDedup (jsKeys bfx ++ jsKeys cfy)) bfx path) cfy keys' path,
                    e' ∈ diffObjKeys bfx cfy
                      (jsSetDedup (jsKeys bfx ++ jsKeys cfy)) path ∧ sel e' = false := by
                intro keys'
                induction keys' with
                | nil =>
                  intro _ _ e' he'
                  rw [diffObjKeys] at he'
                  simp at he'
                | cons k rest ihC =>
                  intro hmem2 hlook2 e' he'
                  rw [diffObjKeys] at he'
                  rcases List.mem_append.mp he' with he' | he'
                  · rw [hlook2 k (List.mem_cons_self _ _)] at he'
                    have hszk : sizeOf (jsLookup bfx k) + sizeOf (jsLookup cfy k) ≤
                        sizeOf bfx + sizeOf cfy := by
                      have h1 := jsLookup_sizeOf_le bfx k
                      have h2 := jsLookup_sizeOf_le cfy k
                      omega
                    have hA := (IH _ hszs).1 sel (jsLookup bfx k) (jsLookup cfy k)
                      (path ++ [.str k]) hszk (nodeOkO_lookup bfx hbfo k)
                      (nodeOkO_lookup cfy hcfo k) e' he'
                    refine ⟨?_, hA.2⟩
                    rw [diffObjKeys_mem]
                    exact ⟨k, hmem2 k (List.mem_cons_self _ _), hA.1⟩
                  · exact ihC (fun k' hk' => hmem2 k' (List.mem_cons_of_mem _ hk'))
                      (fun k' hk' => hlook2 k' (List.mem_cons_of_mem _ hk')) e' he'
              rw [deepDiff_objs]
              exact hC _ (fun k hk => hKsub k ((jsSetDedup_mem _ k).mp hk))
                hlookAll e he
          · have hskf : sameKind bx cy = false := boolFalse hsk
            rw [graft_consult sel bx cy path hne hskf] at he
            by_cases hs : sel ⟨'E', path, some bx, some cy⟩ = true
            · rw [if_pos hs, deepDiff_self] at he
              simp at he
            · rw [if_neg hs, deepDiff_consult bx cy path hne hskf] at he
              have hee := List.mem_singleton.mp he
              refine ⟨?_, ?_⟩
              · rw [deepDiff_consult bx cy path hne hskf]
                simp [hee]
              · rw [hee]
                exact boolFalse hs
  -- ### array level
  · intro sel xs ys path i hsz hxs hys e he
    rcases xs with _ | ⟨x, xr⟩
    · rcases ys with _ | ⟨y, yr⟩
      · rw [graftArr, diffArr] at he
        simp at he
      · have hhy := nodeOkArr_head y yr hys
        by_cases hc : ((graft sel none y (path ++ [.num i])).isNone &&
            (graftArr sel [] yr path (i + 1)).isEmpty) = true
        · have hgeq : graftArr sel [] (y :: yr) path i = [] := by
            rw [graftArr, if_pos hc]
          rw [hgeq] at he
          exact ⟨he, graftArrNil_unsel sel (y :: yr) path i hgeq e he⟩
        · have hgeq : graftArr sel [] (y :: yr) path i =
              graft sel none y (path ++ [.num i]) :: graftArr sel [] yr path (i + 1) := by
            rw [graftArr, if_neg hc]
          rw [hgeq, diffArr] at he
          rcases List.mem_append.mp he with he | he
          · have hm : sizeOf (none : Option Node) + sizeOf y < n := by
              simp only [List.nil.sizeOf_spec, List.cons.sizeOf_spec,
                Option.none.sizeOf_spec] at hsz ⊢
              omega
            have hA := (IH _ hm).1 sel none y (path ++ [.num i]) le_rfl rfl hhy.1 e he
            refine ⟨?_, hA.2⟩
            rw [diffArr]
            exact List.mem_append.mpr (Or.inl hA.1)
          · have hm : sizeOf ([] : List (Option Node)) + sizeOf yr < n := by
              simp only [List.nil.sizeOf_spec, List.cons.sizeOf_spec] at hsz ⊢
              omega
            have hB := (IH _ hm).2 sel [] yr path (i + 1) le_rfl rfl hhy.2 e he
            refine ⟨?_, hB.2⟩
            rw [diffArr]
            exact List.mem_append.mpr (Or.inr hB.1)
    · have hhx := nodeOkArr_head x xr hxs
      rcases ys with _ | ⟨y, yr⟩
      · rw [graftArr, diffArr] at he
        rcases List.mem_append.mp he with he | he
        · have hm : sizeOf x + sizeOf (none : Option Node) < n := by
            simp only [List.nil.sizeOf_spec, List.cons.sizeOf_spec,
              Option.none.sizeOf_spec] at hsz ⊢
            omega
          have hA := (IH _ hm).1 sel x none (path ++ [.num i]) le_rfl hhx.1 rfl e he
          refine ⟨?_, hA.2⟩
          rw [diffArr]
          exact List.mem_append.mpr (Or.inl hA.1)
        · have hm : sizeOf xr + sizeOf ([] : List (Option Node)) < n := by
            simp only [List.nil.sizeOf_spec, List.cons.sizeOf_spec] at hsz ⊢
            omega
          have hB := (IH _ hm).2 sel xr [] path (i + 1) le_rfl hhx.2 rfl e he
          refine ⟨?_, hB.2⟩
          rw [diffArr]
          exact List.mem_append.mpr (Or.inr hB.1)
      · have hhy := nodeOkArr_head y yr hys
        rw [graftArr, diffArr] at he
        rcases List.mem_append.mp he with he | he
        · have hm : sizeOf x + sizeOf y < n := by
            simp only [List.cons.sizeOf_spec] at hsz
            omega
          have hA := (IH _ hm).1 sel x y (path ++ [.num i]) le_rfl hhx.1 hhy.1 e he
          refine ⟨?_, hA.2⟩
          rw [diffArr]
          exact List.mem_append.mpr (Or.inl hA.1)
        · have hm : sizeOf xr + sizeOf yr < n := by
            simp only [List.cons.sizeOf_spec] at hsz
            omega
          have hB := (IH _ hm).2 sel xr yr path (i + 1) le_rfl hhx.2 hhy.2 e he
          refine ⟨?_, hB.2⟩
          rw [diffArr]
          exact List.mem_append.mpr (Or.inr hB.1)

/-! ## Serialisation round-trips on well-formed documents -/

mutual

theorem jsonClone_id (x : Node) (h : nodeOk x = true) : jsonClone x = x := by
  cases x with
  | null => rfl
  | bool b => rfl
  | num n => rfl
  | str s => rfl
  | arr xs =>
    rw [jsonClone, jsonCloneArr_id xs (by simpa [nodeOk] using h)]
  | obj fs =>
    rw [jsonClone, jsonCloneObj_id fs (by simpa [nodeOk] using h)]

theorem jsonCloneArr_id (xs : List (Option Node)) (h : nodeOkArr xs = true) :
    jsonCloneArr xs = xs := by
  match xs with
  | [] => rfl
  | none :: r => simp [nodeOkArr] at h
  | some v :: r =>
    have h' : nodeOk v = true ∧ nodeOkArr r = true := by
      simpa [nodeOkArr] using h
    rw [jsonCloneArr, jsonClone_id v h'.1, jsonCloneArr_id r h'.2]

theorem jsonCloneObj_id (fs : List (String × Option Node))
    (h : nodeOkObj fs = true) : jsonCloneObj fs = fs := by
  match fs with
  | [] => rfl
  | (k, none) :: r => simp [nodeOkObj] at h
  | (k, some v) :: r =>
    have h' : nodeOk v = true ∧ nodeOkObj r = true := by
      simp only [nodeOkObj, Bool.and_eq_true] at h
      exact ⟨h.1.2, h.2⟩
    rw [jsonCloneObj, jsonClone_id v h'.1, jsonCloneObj_id r h'.2]

end

/-! ## Diff paths of well-formed documents are address-safe -/

theorem diffPathsOk_main : ∀ (n : Nat),
    (∀ (b r : Option Node) (path : List Seg),
      sizeOf b + sizeOf r ≤ n → nodeOkO b = true → nodeOkO r = true →
      (∀ s ∈ path, segOk s = true) →
      ∀ e ∈ deepDiff b r path, ∀ s ∈ e.path, segOk s = true)
  ∧ (∀ (xs ys : List (Option Node)) (path : List Seg) (i : Nat),
      sizeOf xs + sizeOf ys ≤ n → nodeOkArr xs = true → nodeOkArr ys = true →
      (∀ s ∈ path, segOk s = true) →
      ∀ e ∈ diffArr xs ys path i, ∀ s ∈ e.path, segOk s = true) := by
  intro n
  induction n using Nat.strong_induction_on with
  | _ n IH =>
  refine ⟨?_, ?_⟩
  · intro b r path hsz hb hr hpath e he
    by_cases heq : jsStrictEq b r = true
    · have hdb : deepDiff b r path = [] := by
        rw [deepDiff, if_pos heq]
        all_goals
          intro a c h1 h2
          subst h1
          subst h2
          simp [jsStrictEq] at heq
      rw [hdb] at he
      simp at he
    · have hne : jsStrictEq b r = false := boolFalse heq
      rcases b with _ | bx
      · rcases r with _ | cy
        · exact absurd rfl heq
        · rw [deepDiff_none_some] at he
          have hee := List.mem_singleton.mp he
          rw [hee]
          exact hpath
      · rcases r with _ | cy
        · rw [deepDiff_some_none] at he
          have hee := List.mem_singleton.mp he
          rw [hee]
          exact hpath
        · by_cases hsk : sameKind bx cy = true
          · cases bx <;> cases cy <;> simp only [sameKind] at hsk <;>
              first
              | exact absurd hsk (by decide)
              | skip
            · rename_i as bs
              rw [deepDiff_arrs] at he
              have hszs : sizeOf as + sizeOf bs < n := by
                simp only [Option.some.sizeOf_spec, Node.arr.sizeOf_spec] at hsz
                omega
              exact (IH _ hszs).2 as bs path 0 le_rfl
                (by simpa [nodeOkO, nodeOk] using hb)
                (by simpa [nodeOkO, nodeOk] using hr) hpath e he
            · rename_i bfx cfy
              rw [deepDiff_objs] at he
              have hbfo : nodeOkObj bfx = true := by simpa [nodeOkO, nodeOk] using hb
              have hcfo : nodeOkObj cfy = true := by simpa [nodeOkO, nodeOk] using hr
              have hszs : sizeOf bfx + sizeOf cfy < n := by
                simp only [Option.some.sizeOf_spec, Node.obj.sizeOf_spec] at hsz
                omega
              have hkeys : ∀ k ∈ jsSetDedup (jsKeys bfx ++ jsKeys cfy),
                  segOk (.str k) = true := by
                intro k hk
                rcases List.mem_append.mp ((jsSetDedup_mem _ k).mp hk) with h | h
                · exact nodeOkObj_key_segOk bfx hbfo k h
                · exact nodeOkObj_key_segOk cfy hcfo k h
              have hC : ∀ (keys' : List String),
                  (∀ k ∈ keys', segOk (.str k) = true) →
                  ∀ e' ∈ diffObjKeys bfx cfy keys' path, ∀ s ∈ e'.path,
                    segOk s = true := by
                intro keys'
                induction keys' with
                | nil =>
                  intro _ e' he'
                  rw [diffObjKeys] at he'
                  simp at he'
                | cons k rest ihC =>
                  intro hks e' he'
                  rw [diffObjKeys] at he'
                  rcases List.mem_append.mp he' with he' | he'
                  · have hszk : sizeOf (jsLookup bfx k) + sizeOf (jsLookup cfy k) ≤
                        sizeOf bfx + sizeOf cfy := by
                      have h1 := jsLookup_sizeOf_le bfx k
                      have h2 := jsLookup_sizeOf_le cfy k
                      omega
                    have hpk : ∀ s ∈ path ++ [Seg.str k], segOk s = true := by
                      intro s hs
                      rcases List.mem_append.mp hs with hs | hs
                      · exact hpath s hs
                      · rw [List.mem_singleton.mp hs]
                        exact hks k (List.mem_cons_self _ _)
                    exact (IH _ hszs).1 (jsLookup bfx k) (jsLookup cfy k)
                      (path ++ [.str k]) hszk (nodeOkO_lookup bfx hbfo k)
                      (nodeOkO_lookup cfy hcfo k) hpk e' he'
                  · exact ihC (fun k' hk' => hks k' (List.mem_cons_of_mem _ hk')) e' he'
              exact hC _ hkeys e he
          · have hskf : sameKind bx cy = false := boolFalse hsk
            rw [deepDiff_consult bx cy path hne hskf] at he
            have hee := List.mem_singleton.mp he
            rw [hee]
            exact hpath
  · intro xs ys path i hsz hxs hys hpath e he
    have hpnum : ∀ (j : Nat), ∀ s ∈ path ++ [Seg.num j], segOk s = true := by
      intro j s hs
      rcases List.mem_append.mp hs with hs | hs
      · exact hpath s hs
      · rw [List.mem_singleton.mp hs]
        rfl
    rcases xs with _ | ⟨x, xr⟩
    · rcases ys with _ | ⟨y, yr⟩
      · rw [diffArr] at he
        simp at he
      · have hhy := nodeOkArr_head y yr hys
        rw [diffArr] at he
        rcases List.mem_append.mp he with he | he
        · have hm : sizeOf (none : Option Node) + sizeOf y < n := by
            simp only [List.nil.sizeOf_spec, List.cons.sizeOf_spec,
              Option.none.sizeOf_spec] at hsz ⊢
            omega
          exact (IH _ hm).1 none y (path ++ [.num i]) le_rfl rfl hhy.1 (hpnum i) e he
        · have hm : sizeOf ([] : List (Option Node)) + sizeOf yr < n := by
            simp only [List.nil.sizeOf_spec, List.cons.sizeOf_spec] at hsz ⊢
            omega
          exact (IH _ hm).2 [] yr path (i + 1) le_rfl rfl hhy.2 hpath e he
    · have hhx := nodeOkArr_head x xr hxs
      rcases ys with _ | ⟨y, yr⟩
      · rw [diffArr] at he
        rcases List.mem_append.mp he with he | he
        · have hm : sizeOf x + sizeOf (none : Option Node) < n := by
            simp only [List.nil.sizeOf_spec, List.cons.sizeOf_spec,
              Option.none.sizeOf_spec] at hsz ⊢
            omega
          exact (IH _ hm).1 x none (path ++ [.num i]) le_rfl hhx.1 rfl (hpnum i) e he
        · have hm : sizeOf xr + sizeOf ([] : List (Option Node)) < n := by
            simp only [List.nil.sizeOf_spec, List.cons.sizeOf_spec] at hsz ⊢
            omega
          exact (IH _ hm).2 xr [] path (i + 1) le_rfl hhx.2 rfl hpath e he
      · have hhy := nodeOkArr_head y yr hys
        rw [diffArr] at he
        rcases List.mem_append.mp he with he | he
        · have hm : sizeOf x + sizeOf y < n := by
            simp only [List.cons.sizeOf_spec] at hsz
            omega
          exact (IH _ hm).1 x y (path ++ [.num i]) le_rfl hhx.1 hhy.1 (hpnum i) e he
        · have hm : sizeOf xr + sizeOf yr < n := by
            simp only [List.cons.sizeOf_spec] at hsz
            omega
          exact (IH _ hm).2 xr yr path (i + 1) le_rfl hhx.2 hhy.2 hpath e he

/-- Diff paths between well-formed documents parse back exactly. -/
theorem diff_roundtrip (m remote : Node) (hm : nodeOk m = true)
    (hr : nodeOk remote = true) (e : DiffEdit)
    (he : e ∈ deepDiff (some m) (some remote) []) :
    parsePath (jsJoin e.path) = e.path := by
  apply parsePath_jsJoin
  exact (diffPathsOk_main (sizeOf (some m : Option Node) + sizeOf (some remote : Option Node))).1
    (some m) (some remote) [] le_rfl (by simpa [nodeOkO] using hm)
    (by simpa [nodeOkO] using hr) (by simp) e he

/-! ## Bridging records and edits -/

theorem applyChange_toRecord (strict : Bool) (lcp : List String) (doc : Node)
    (e : DiffEdit) (hrt : parsePath (jsJoin e.path) = e.path) :
    applyChange doc (toChangeRecord strict lcp e) =
      applyWalk doc e.path e.kind e.rhs := by
  show applyWalk doc (parsePath (jsJoin e.path)) e.kind e.rhs = _
  rw [hrt]

theorem applyList_map (strict : Bool) (lcp : List String) :
    ∀ (es : List DiffEdit) (doc : Node),
      (∀ e ∈ es, parsePath (jsJoin e.path) = e.path) →
      applyList doc (es.map (toChangeRecord strict lcp)) = applyDiffs doc es
      ∧ noFailRec doc (es.map (toChangeRecord strict lcp)) = noFail doc es := by
  intro es
  induction es with
  | nil => exact fun doc _ => ⟨rfl, rfl⟩
  | cons e rest ih =>
    intro doc hrt
    have h1 := applyChange_toRecord strict lcp doc e (hrt e (List.mem_cons_self _ _))
    have hrest : ∀ x ∈ rest, parsePath (jsJoin x.path) = x.path :=
      fun x hx => hrt x (List.mem_cons_of_mem _ hx)
    rcases hw : applyWalk doc e.path e.kind e.rhs with err | m'
    · have e1 : applyList doc ((e :: rest).map (toChangeRecord strict lcp)) =
          applyList doc (rest.map (toChangeRecord strict lcp)) := by
        simp only [List.map_cons, applyList, h1, hw]
      have e2 : noFailRec doc ((e :: rest).map (toChangeRecord strict lcp)) = false := by
        simp only [List.map_cons, noFailRec, h1, hw]
      have e3 : applyDiffs doc (e :: rest) = applyDiffs doc rest := by
        simp only [applyDiffs, hw]
      have e4 : noFail doc (e :: rest) = false := by
        simp only [noFail, hw]
      rw [e1, e2, e3, e4]
      exact ⟨(ih doc hrest).1, rfl⟩
    · have e1 : applyList doc ((e :: rest).map (toChangeRecord strict lcp)) =
          applyList m' (rest.map (toChangeRecord strict lcp)) := by
        simp only [List.map_cons, applyList, h1, hw]
      have e2 : noFailRec doc ((e :: rest).map (toChangeRecord strict lcp)) =
          noFailRec m' (rest.map (toChangeRecord strict lcp)) := by
        simp only [List.map_cons, noFailRec, h1, hw]
      have e3 : applyDiffs doc (e :: rest) = applyDiffs m' rest := by
        simp only [applyDiffs, hw]
      have e4 : noFail doc (e :: rest) = noFail m' rest := by
        simp only [noFail, hw]
      rw [e1, e2, e3, e4]
      exact ih m' hrest

/-- A conflict-free, failure-free fold of `mergeStep` applies every change. -/
theorem mergeFold_clean (strat : String) :
    ∀ (cs : List ChangeRecord) (m : Node) (a s : List ChangeRecord),
      (∀ c ∈ cs, c.hasConflict = false) → noFailRec m cs = true →
      cs.foldl (mergeStep strat) (m, a, s) = (applyList m cs, a ++ cs, s) := by
  intro cs
  induction cs with
  | nil =>
    intro m a s _ _
    simp [applyList]
  | cons c rest ih =>
    intro m a s hconf hnf
    have hc0 : c.hasConflict = false := hconf c (List.mem_cons_self _ _)
    have hcond : ¬ ((c.hasConflict && strat = "spec-wins") = true) := by
      simp [hc0]
    rw [List.foldl_cons, mergeStep_eq, if_neg hcond]
    rcases happ : applyChange m c with err | m'
    · exfalso
      simp only [noFailRec, happ] at hnf
      exact Bool.false_ne_true hnf
    · simp only [noFailRec, happ] at hnf
      have := ih m' (a ++ [c]) s (fun x hx => hconf x (List.mem_cons_of_mem _ hx)) hnf
      rw [this]
      simp only [applyList, happ]
      simp

/-- `filter` after `map`. -/
theorem filterMapRec (p : ChangeRecord → Bool) (f : DiffEdit → ChangeRecord)
    (l : List DiffEdit) :
    (l.map f).filter p = (l.filter (fun e => p (f e))).map f := by
  induction l with
  | nil => rfl
  | cons e r ih =>
    simp only [List.map_cons, List.filter_cons]
    by_cases h : p (f e) = true
    · rw [if_pos h, if_pos h, List.map_cons, ih]
    · rw [if_neg h, if_neg h, ih]

/-- `detectChanges` with the baseline as the local document: no conflicts, and
`safeToSync` is the bidirectional-classified subset. -/
theorem detect_selfbase (strict : Bool) (m remote : Node) :
    (detectChanges strict m m remote).safeToSync =
      ((deepDiff (some m) (some remote) []).map (toChangeRecord strict [])).filter
        (fun r => r.direction == BIDIRECTIONAL)
    ∧ (detectChanges strict m m remote).needsReview = [] := by
  have hfold : detectChanges strict m m remote =
      ((deepDiff (some m) (some remote) []).map (toChangeRecord strict [])).foldl
        routeChange ⟨[], [], [], []⟩ := by
    unfold detectChanges
    rw [deepDiff_self]
    rw [List.foldl_map]
    rfl
  have hnoconf : ∀ c, (toChangeRecord strict [] c).hasConflict = false := by
    intro c
    rfl
  constructor
  · rw [hfold, foldRoute_safe]
    simp only [List.nil_append]
    apply List.filter_congr
    intro r hr
    obtain ⟨c, _, rfl⟩ := List.mem_map.1 hr
    rw [hnoconf c]
    simp
  · rw [hfold, foldRoute_needsReview]
    simp only [List.nil_append]
    rw [List.filter_eq_nil_iff]
    intro r hr
    obtain ⟨c, _, rfl⟩ := List.mem_map.1 hr
    rw [hnoconf c]
    simp

/-! ## A clean-start merge applies every safe change and leaves nothing to sync -/

theorem merge_rerun_empty (m remote : Node) (hm : nodeOk m = true)
    (hr : nodeOk remote = true) :
    (mergeSpecs "spec-wins" m remote (detectChanges true m m remote).safeToSync).applied =
      (detectChanges true m m remote).safeToSync
  ∧ (mergeSpecs "spec-wins" m remote (detectChanges true m m remote).safeToSync).skipped = []
  ∧ (detectChanges true
      (mergeSpecs "spec-wins" m remote (detectChanges true m m remote).safeToSync).spec
      (mergeSpecs "spec-wins" m remote (detectChanges true m m remote).safeToSync).spec
      remote).safeToSync = []
  ∧ (detectChanges true
      (mergeSpecs "spec-wins" m remote (detectChanges true m m remote).safeToSync).spec
      (mergeSpecs "spec-wins" m remote (detectChanges true m m remote).safeToSync).spec
      remote).needsReview = [] := by
  have hsafe : (detectChanges true m m remote).safeToSync =
      ((deepDiff (some m) (some remote) []).filter
        (fun e => (toChangeRecord true [] e).direction == BIDIRECTIONAL)).map
        (toChangeRecord true []) := by
    rw [(detect_selfbase true m remote).1, filterMapRec]
  have hrtF : ∀ e ∈ (deepDiff (some m) (some remote) []).filter
      (fun e => (toChangeRecord true [] e).direction == BIDIRECTIONAL),
      parsePath (jsJoin e.path) = e.path := by
    intro e he
    exact diff_roundtrip m remote hm hr e (List.mem_filter.mp he).1
  have hroot : ((toChangeRecord true []
      (⟨'E', [], some m, some remote⟩ : DiffEdit)).direction == BIDIRECTIONAL) =
      false := by rfl
  have hgg := (applyGraft_main (sizeOf m + sizeOf remote)).1
    (fun e => (toChangeRecord true [] e).direction == BIDIRECTIONAL)
    m remote le_rfl hm hr (Or.inl hroot)
  have hconfF : ∀ c ∈ (detectChanges true m m remote).safeToSync,
      c.hasConflict = false := by
    rw [hsafe]
    intro c hc
    obtain ⟨e, _, rfl⟩ := List.mem_map.1 hc
    rfl
  have hALM := applyList_map true []
    ((deepDiff (some m) (some remote) []).filter
      (fun e => (toChangeRecord true [] e).direction == BIDIRECTIONAL)) m hrtF
  have hnf : noFailRec (jsonClone m) ((detectChanges true m m remote).safeToSync) =
      true := by
    rw [jsonClone_id m hm, hsafe]
    exact hALM.2.trans hgg.2
  have hfold := mergeFold_clean "spec-wins"
    ((detectChanges true m m remote).safeToSync) (jsonClone m) [] [] hconfF hnf
  have hspec : (mergeSpecs "spec-wins" m remote
      (detectChanges true m m remote).safeToSync).spec =
      applyDiffs m ((deepDiff (some m) (some remote) []).filter
        (fun e => (toChangeRecord true [] e).direction == BIDIRECTIONAL)) := by
    show ((detectChanges true m m remote).safeToSync.foldl (mergeStep "spec-wins")
      (jsonClone m, [], [])).1 = _
    rw [hfold]
    show applyList (jsonClone m) _ = _
    rw [jsonClone_id m hm, hsafe]
    exact hALM.1
  have happlied : (mergeSpecs "spec-wins" m remote
      (detectChanges true m m remote).safeToSync).applied =
      (detectChanges true m m remote).safeToSync := by
    show ((detectChanges true m m remote).safeToSync.foldl (mergeStep "spec-wins")
      (jsonClone m, [], [])).2.1 = _
    rw [hfold]
    simp
  have hskipped : (mergeSpecs "spec-wins" m remote
      (detectChanges true m m remote).safeToSync).skipped = [] := by
    show ((detectChanges true m m remote).safeToSync.foldl (mergeStep "spec-wins")
      (jsonClone m, [], [])).2.2 = _
    rw [hfold]
  refine ⟨happlied, hskipped, ?_, ?_⟩
  · rw [hspec, (detect_selfbase true _ remote).1, List.filter_eq_nil_iff]
    intro r hrr
    obtain ⟨e, hemem, rfl⟩ := List.mem_map.1 hrr
    rw [← hgg.1] at hemem
    have hU := (graftDiff_main
        (sizeOf (some m : Option Node) + sizeOf (some remote : Option Node))).1
      (fun e => (toChangeRecord true [] e).direction == BIDIRECTIONAL)
      (some m) (some remote) [] le_rfl (by simpa [nodeOkO] using hm)
      (by simpa [nodeOkO] using hr) e hemem
    simp only [hU.2]
    exact Bool.false_ne_true
  · rw [hspec]
    exact (detect_selfbase true _ remote).2

/-- C8 (amended): re-running the diff and classification of
(mergedDocument, sameRemote) — i.e. `detectChanges(merged, merged, remote)` —
never reports conflicts, and its `safeToSync` set is exactly the
bidirectional-classified subset of `deepDiff(merged, remote)`; it is empty iff
no remaining merged-vs-remote edit classifies bidirectional.  A successful
merge does not guarantee this emptiness (see the counterexample): edits the
local side made at enrichment addresses, and conflicted edits skipped by the
merge, remain as differences against the remote and reappear as safe
changes.  When however the local document coincides with the baseline and
both documents are well-formed (no array holes, no `undefined` members,
distinct and address-safe keys), the merge applies every safe change without
failures and the re-run reports nothing at all: the idempotence the claim
asserts holds exactly in the absence of concurrent local edits. -/
theorem C8_amended_rerun (m remote : Node) :
    (detectChanges true m m remote).needsReview = []
  ∧ (detectChanges true m m remote).safeToSync =
      ((deepDiff (some m) (some remote) []).map
          (toChangeRecord true [])).filter
        (fun r => r.direction == BIDIRECTIONAL)
  ∧ ((detectChanges true m m remote).safeToSync = [] ↔
      ∀ c ∈ deepDiff (some m) (some remote) [],
        (classifyChange true (jsJoin c.path)).direction ≠ BIDIRECTIONAL)
  ∧ (nodeOk m = true → nodeOk remote = true →
      (mergeSpecs "spec-wins" m remote
          (detectChanges true m m remote).safeToSync).applied =
        (detectChanges true m m remote).safeToSync
      ∧ (mergeSpecs "spec-wins" m remote
          (detectChanges true m m remote).safeToSync).skipped = []
      ∧ (detectChanges true
          (mergeSpecs "spec-wins" m remote
            (detectChanges true m m remote).safeToSync).spec
          (mergeSpecs "spec-wins" m remote
            (detectChanges true m m remote).safeToSync).spec
          remote).safeToSync = []
      ∧ (detectChanges true
          (mergeSpecs "spec-wins" m remote
            (detectChanges true m m remote).safeToSync).spec
          (mergeSpecs "spec-wins" m remote
            (detectChanges true m m remote).safeToSync).spec
          remote).needsReview = []) := by
  have hfold : detectChanges true m m remote =
      ((deepDiff (some m) (some remote) []).map (toChangeRecord true [])).foldl
        routeChange ⟨[], [], [], []⟩ := by
    unfold detectChanges
    rw [deepDiff_self]
    rw [List.foldl_map]
    rfl
  have hnoconf : ∀ c, (toChangeRecord true [] c).hasConflict = false := by
    intro c
    rfl
  have hsafe : (detectChanges true m m remote).safeToSync =
      ((deepDiff (some m) (some remote) []).map (toChangeRecord true [])).filter
        (fun r => r.direction == BIDIRECTIONAL) := by
    rw [hfold, foldRoute_safe]
    simp only [List.nil_append]
    apply List.filter_congr
    intro r hr
    obtain ⟨c, _, rfl⟩ := List.mem_map.1 hr
    rw [hnoconf c]
    simp
  refine ⟨?_, hsafe, ?_, ?_⟩
  · rw [hfold, foldRoute_needsReview]
    simp only [List.nil_append]
    rw [List.filter_eq_nil_iff]
    intro r hr
    obtain ⟨c, _, rfl⟩ := List.mem_map.1 hr
    rw [hnoconf c]
    simp
  · rw [hsafe, List.filter_eq_nil_iff]
    constructor
    · intro h c hc
      have := h (toChangeRecord true [] c) (List.mem_map_of_mem _ hc)
      simpa [toChangeRecord] using this
    · intro h r hr
      obtain ⟨c, hc, rfl⟩ := List.mem_map.1 hr
      simpa [toChangeRecord] using h c hc
  · intro hm hr
    exact merge_rerun_empty m remote hm hr

theorem C8_amended_witness :
    (detectChanges true m8 m8 r8).needsReview = []
  ∧ (detectChanges true m8 m8 r8).safeToSync =
      ((deepDiff (some m8) (some r8) []).map (toChangeRecord true [])).filter
        (fun r => r.direction == BIDIRECTIONAL)
  ∧ ((detectChanges true m8 m8 r8).safeToSync = [] ↔
      ∀ c ∈ deepDiff (some m8) (some r8) [],
        (classifyChange true (jsJoin c.path)).direction ≠ BIDIRECTIONAL)
  ∧ nodeOk m8 = true
  ∧ nodeOk r8 = true
  ∧ (mergeSpecs "spec-wins" m8 r8
      (detectChanges true m8 m8 r8).safeToSync).skipped = []
  ∧ (detectChanges true
      (mergeSpecs "spec-wins" m8 r8
        (detectChanges true m8 m8 r8).safeToSync).spec
      (mergeSpecs "spec-wins" m8 r8
        (detectChanges true m8 m8 r8).safeToSync).spec
      r8).safeToSync = [] := by
  have h := C8_amended_rerun m8 r8
  exact ⟨h.1, h.2.1, h.2.2.1, rfl, rfl, (h.2.2.2 rfl rfl).2.1,
    (h.2.2.2 rfl rfl).2.2.1⟩

end SpecSync
